import Mathlib

/-!
Verification of the expression parser and minimal-parenthesization formatter
(`expression_formatter.py`) and, for the policy-comparison claim, the second
formatter (`formulex.py`).

The embedding works on `List Char`; the tokenizer mirrors the Python regex
alternation `SKIP | OP | NUMBER | ID | COMMA | UNKNOWN` (first alternative
wins at each scan position, word boundaries tracked through the previous
character), the parser mirrors the precedence-climbing recursion with an
explicit fuel argument, and the formatter mirrors `Expression.format`.

-/

def str (s : String) : List Char := s.data

-- === AST (classes Value, Variable, UnaryOp, BinaryOp, FuncCall) ===

inductive Expr where
  | Value    : List Char → Expr
  | Variable : List Char → Expr
  | UnaryOp  : List Char → Expr → Expr
  | BinaryOp : Expr → List Char → Expr → Expr
  | FuncCall : List Char → List Expr → Expr

inductive Assoc where
  | L
  | R
deriving DecidableEq, BEq

-- === OperatorMeta ===

def OperatorMeta.OPERATORS : List (List Char × (Nat × Assoc)) :=
  [ (str "or",  (1, Assoc.L)),
    (str "and", (2, Assoc.L)),
    (str "not", (3, Assoc.R)),
    (str "==",  (4, Assoc.L)),
    (str "!=",  (4, Assoc.L)),
    (str "<",   (5, Assoc.L)),
    (str ">",   (5, Assoc.L)),
    (str "<=",  (5, Assoc.L)),
    (str ">=",  (5, Assoc.L)),
    (str "+",   (5, Assoc.L)),
    (str "-",   (5, Assoc.L)),
    (str "*",   (6, Assoc.L)),
    (str "/",   (6, Assoc.L)),
    (str "%",   (6, Assoc.L)),
    (str "**",  (7, Assoc.R)) ]

def OperatorMeta.get (op : List Char) : Option (Nat × Assoc) :=
  List.lookup op OperatorMeta.OPERATORS

def OperatorMeta.contains (op : List Char) : Bool :=
  (OperatorMeta.get op).isSome

-- === Tokenizer (TOKEN_SPEC and tokenize) ===

inductive TK where
  | OP
  | NUMBER
  | ID
  | COMMA
  | EOF
deriving DecidableEq, BEq

def tkName : TK → List Char
  | TK.OP => str "OP"
  | TK.NUMBER => str "NUMBER"
  | TK.ID => str "ID"
  | TK.COMMA => str "COMMA"
  | TK.EOF => str "EOF"

abbrev Token := TK × List Char

def isWordChar (c : Char) : Bool := c.isAlpha || c.isDigit || c == '_'

def isSpaceTab (c : Char) : Bool := c == ' ' || c == '\t'

/-- The word operators of the `OP` alternation, tried first and guarded by
`\b` on both sides. -/

def kwords : List (List Char) := [str "and", str "or", str "not", str "is", str "in"]

/-- The multi-character symbolic operators, tried before single characters. -/

def twoCharOps : List (List Char) := [str "==", str "!=", str "<=", str ">=", str "**"]

/-- The single-character operator class `[+\-*/%<>=()]`. -/

def oneCharOps : List Char := str "+-*/%<>=()"

/-- The keyword alternative `\b(?:and|or|not|is|in)\b` at the scan position: the previous character
must not be a word character (`prevWord = false`), the keyword must occur
literally, and the following character must not be a word character. -/

def findKw (prevWord : Bool) (cs : List Char) : Option (List Char) :=
  if prevWord then none
  else kwords.find? (fun k =>
    List.isPrefixOf k cs &&
      (match cs.drop k.length with
       | [] => true
       | c :: _ => !(isWordChar c)))

def findTwo (cs : List Char) : Option (List Char) :=
  twoCharOps.find? (fun k => List.isPrefixOf k cs)

/-- The number pattern `\d+(\.\d*)?`: a digit run, then — when a dot follows — the dot and a
possibly empty digit run. Returns the matched text and the rest. -/

def numMunch (cs : List Char) : List Char × List Char :=
  let ds := cs.takeWhile Char.isDigit
  let r1 := cs.dropWhile Char.isDigit
  if r1.head? = some '.' then
    (ds ++ '.' :: r1.tail.takeWhile Char.isDigit, r1.tail.dropWhile Char.isDigit)
  else (ds, r1)

def unexpectedCharMsg (c : Char) : List Char := str "Unexpected character: " ++ [c]

def chunkEndsWord (tk : List Char) (dflt : Bool) : Bool :=
  match tk.getLast? with
  | some x => isWordChar x
  | none => dflt

/-- One step of `re.finditer` over the combined token regex: at the
current position the first alternative that matches wins; `UNKNOWN`
raises. A newline matches no alternative (`SKIP` is `[ \t]+` and the
`UNKNOWN` pattern `.` does not match a newline), so `re.finditer` passes
over it silently. `go` continues the scan on the remaining characters. -/

def scanStep (go : Bool → List Char → Except (List Char) (List Token))
    (prevWord : Bool) (cs : List Char) : Except (List Char) (List Token) :=
  match cs with
  | [] => Except.ok []
  | c :: rest =>
    if isSpaceTab c then
      go false ((c :: rest).dropWhile isSpaceTab)
    else
      match findKw prevWord (c :: rest) with
      | some k =>
        (go true ((c :: rest).drop k.length)).map
          (fun ts => (TK.OP, k) :: ts)
      | none =>
        match findTwo (c :: rest) with
        | some k =>
          (go false ((c :: rest).drop k.length)).map
            (fun ts => (TK.OP, k) :: ts)
        | none =>
          if oneCharOps.contains c then
            (go false rest).map (fun ts => (TK.OP, [c]) :: ts)
          else if c.isDigit then
            let m := numMunch (c :: rest)
            (go (chunkEndsWord m.1 false) m.2).map
              (fun ts => (TK.NUMBER, m.1) :: ts)
          else if c.isAlpha || c == '_' then
            ((go true ((c :: rest).dropWhile isWordChar)).map
              (fun ts => (TK.ID, (c :: rest).takeWhile isWordChar) :: ts))
          else if c == ',' then
            (go false rest).map (fun ts => (TK.COMMA, [c]) :: ts)
          else if c = '\n' then
            go false rest
          else
            Except.error (unexpectedCharMsg c)

/-- The full scan; the fuel decreases once per consumed chunk, and every
chunk is nonempty. -/

def scanTok : Nat → Bool → List Char → Except (List Char) (List Token)
  | 0, _, cs =>
    match cs with
    | [] => Except.ok []
    | _ => Except.error (str "fuel")
  | Nat.succ f, prevWord, cs => scanStep (scanTok f) prevWord cs

def tokenizeL (cs : List Char) : Except (List Char) (List Token) :=
  scanTok (cs.length + 1) false cs

def tokenize (s : String) : Except String (List Token) :=
  match tokenizeL s.data with
  | Except.ok ts => Except.ok ts
  | Except.error m => Except.error (String.mk m)

-- === Parser ===

/-- Function `Parser.current`: the token at the cursor, or the `("EOF", "")`
sentinel. The remaining token list plays the role of the cursor. -/

def currentTok : List Token → Token
  | [] => (TK.EOF, [])
  | t :: _ => t

/-- Function `Parser.expect(kind, value)` with an explicit value, as used for `)`. -/

def expectTok (k : TK) (v : List Char) (toks : List Token) :
    Except (List Char) (List Token) :=
  let t := currentTok toks
  if t.1 = k ∧ t.2 = v then Except.ok (toks.drop 1)
  else Except.error
    (str "Expected " ++ tkName k ++ [' '] ++ v ++ str ", got " ++
      tkName t.1 ++ [' '] ++ t.2)

def fuelErr : List Char := str "fuel"

/-- The `while self.current()[1] == ","` loop of `parse_primary`, collecting
the arguments after the first. `pe` is `parse_expression` at default
minimum precedence. -/

def parseArgsWith (pe : Nat → List Token → Except (List Char) (Expr × List Token)) :
    Nat → List Token → Except (List Char) (List Expr × List Token)
  | 0, _ => Except.error fuelErr
  | Nat.succ f, toks =>
    if (currentTok toks).2 = str "," then
      match pe 1 (toks.drop 1) with
      | Except.ok (a, t2) =>
        (parseArgsWith pe f t2).map (fun r => (a :: r.1, r.2))
      | Except.error e => Except.error e
    else Except.ok ([], toks)

/-- Function `Parser.parse_primary`, with recursion into `parse_expression`
abstracted as `pe` and self-recursion counted by the fuel. -/

def parsePrimaryWith (pe : Nat → List Token → Except (List Char) (Expr × List Token)) :
    Nat → List Token → Except (List Char) (Expr × List Token)
  | 0, _ => Except.error fuelErr
  | Nat.succ f, toks =>
    match currentTok toks with
    | (TK.NUMBER, v) => Except.ok (Expr.Value v, toks.drop 1)
    | (TK.ID, v) =>
      let t1 := toks.drop 1
      if (currentTok t1).2 = str "(" then
        let t2 := t1.drop 1
        if ¬((currentTok t2).2 = str ")") then
          match pe 1 t2 with
          | Except.ok (a1, t3) =>
            match parseArgsWith pe f t3 with
            | Except.ok (more, t4) =>
              match expectTok TK.OP (str ")") t4 with
              | Except.ok t5 =>
                match more with
                | [] => Except.ok (Expr.UnaryOp v a1, t5)
                | _ => Except.ok (Expr.FuncCall v (a1 :: more), t5)
              | Except.error e => Except.error e
            | Except.error e => Except.error e
          | Except.error e => Except.error e
        else
          match expectTok TK.OP (str ")") t2 with
          | Except.ok t5 => Except.ok (Expr.FuncCall v [], t5)
          | Except.error e => Except.error e
      else Except.ok (Expr.Variable v, t1)
    | (TK.OP, v) =>
      if v = str "(" then
        match pe 1 (toks.drop 1) with
        | Except.ok (node, t2) =>
          match expectTok TK.OP (str ")") t2 with
          | Except.ok t3 => Except.ok (node, t3)
          | Except.error e => Except.error e
        | Except.error e => Except.error e
      else if v = str "-" then
        match parsePrimaryWith pe f (toks.drop 1) with
        | Except.ok (o, t2) => Except.ok (Expr.UnaryOp (str "-") o, t2)
        | Except.error e => Except.error e
      else Except.error (str "Unexpected operator " ++ v ++ str " in primary")
    | (tk, tv) =>
      Except.error (str "Unexpected token " ++ tkName tk ++ [' '] ++ tv)

/-- The `while True` loop of `parse_expression`: consume eligible operators
while their precedence stays at or above `minPrec`. -/

def parseLoopWith (pe : Nat → List Token → Except (List Char) (Expr × List Token)) :
    Nat → Nat → Expr → List Token → Except (List Char) (Expr × List Token)
  | 0, _, _, _ => Except.error fuelErr
  | Nat.succ f, minPrec, node, toks =>
    match currentTok toks with
    | (TK.OP, v) =>
      match OperatorMeta.get v with
      | some (prec, assoc) =>
        if prec < minPrec then Except.ok (node, toks)
        else
          let nextMin := if assoc = Assoc.L then prec + 1 else prec
          match pe nextMin (toks.drop 1) with
          | Except.ok (right, t2) =>
            parseLoopWith pe f minPrec (Expr.BinaryOp node v right) t2
          | Except.error e => Except.error e
      | none => Except.ok (node, toks)
    | _ => Except.ok (node, toks)

/-- Function `Parser.parse_expression(min_prec)`. -/

def parseExprF : Nat → Nat → List Token → Except (List Char) (Expr × List Token)
  | 0, _, _ => Except.error fuelErr
  | Nat.succ f, minPrec, toks =>
    match parsePrimaryWith (fun mp ts => parseExprF f mp ts) f toks with
    | Except.ok (node, rest) =>
      parseLoopWith (fun mp ts => parseExprF f mp ts) f minPrec node rest
    | Except.error e => Except.error e

/-- Function `Parser.parse` on a token list: one full expression, then `EOF`. -/

def parseToks (toks : List Token) : Except (List Char) Expr :=
  match parseExprF (2 * toks.length + 4) 1 toks with
  | Except.ok (e, rest) =>
    if (currentTok rest).1 = TK.EOF then Except.ok e
    else Except.error (str "Unexpected token after end of expression")
  | Except.error e => Except.error e

def parseChars (cs : List Char) : Except (List Char) Expr :=
  match tokenizeL cs with
  | Except.ok toks => parseToks toks
  | Except.error e => Except.error e

/-- The entry point `Parser(expression).parse()`. -/

def Parser.parse (s : String) : Except String Expr :=
  match parseChars s.data with
  | Except.ok e => Except.ok e
  | Except.error m => Except.error (String.mk m)

-- === Formatter (Expression.format) ===

inductive Side where
  | left
  | right
deriving DecidableEq, BEq

/-- Helper `must_parenthesize(child, child_side)` inside `BinaryOp.format`;
`none` models the `ValueError` of `OperatorMeta.get` on an unknown child
operator. -/

def mustParenthesize (opPrec : Nat) (assoc : Assoc) (child : Expr) (side : Side) :
    Option Bool :=
  match child with
  | Expr.BinaryOp _ cop _ =>
    match OperatorMeta.get cop with
    | none => none
    | some (cprec, _) =>
      some (decide (cprec > opPrec ∨
        (cprec = opPrec ∧
          ((assoc = Assoc.L ∧ side = Side.right) ∨
           (assoc = Assoc.R ∧ side = Side.left)))))
  | _ => some false

def fmtArgsList (g : Expr → Nat → Option (List Char)) :
    List Expr → Option (List (List Char))
  | [] => some []
  | a :: rest =>
    match g a 0, fmtArgsList g rest with
    | some s, some ss => some (s :: ss)
    | _, _ => none

def joinCommaSp : List (List Char) → List Char
  | [] => []
  | [s] => s
  | s :: rest => s ++ ',' :: ' ' :: joinCommaSp rest

/-- One layer of `Expression.format(parent_prec)`, with the recursive
calls abstracted as `g`. -/

def fmtCore (g : Expr → Nat → Option (List Char)) (e : Expr) (parentPrec : Nat) :
    Option (List Char) :=
  match e with
  | Expr.Value v => some v
  | Expr.Variable n => some n
  | Expr.UnaryOp op operand =>
    match g operand 0 with
    | some s => some (op ++ '(' :: (s ++ [')']))
    | none => none
  | Expr.BinaryOp l op r =>
    match OperatorMeta.get op with
    | none => none
    | some (p, a) =>
      match g l (if a = Assoc.L then p else p + 1),
            g r (if a = Assoc.L then p + 1 else p),
            mustParenthesize p a l Side.left,
            mustParenthesize p a r Side.right with
      | some lf, some rf, some bl, some br =>
        let lf2 := if bl then '(' :: (lf ++ [')']) else lf
        let rf2 := if br then '(' :: (rf ++ [')']) else rf
        let s := lf2 ++ ' ' :: (op ++ ' ' :: rf2)
        some (if p < parentPrec then '(' :: (s ++ [')']) else s)
      | _, _, _, _ => none
  | Expr.FuncCall n args =>
    match fmtArgsList g args with
    | some ss => some (n ++ '(' :: (joinCommaSp ss ++ [')']))
    | none => none

/-- Method `Expression.format(parent_prec)`. The fuel only has to exceed the tree
depth; `none` models the `ValueError` raised by `OperatorMeta.get` on an
unknown operator (and exhausted fuel). -/

def fmtF : Nat → Expr → Nat → Option (List Char)
  | 0, _, _ => none
  | Nat.succ f, e, parentPrec => fmtCore (fmtF f) e parentPrec

/-- The entry point `ExpressionFormatter(expr_string).format()`: parse, then format the
tree at `parent_prec = 0`. The formatting fuel `|s| + 2` exceeds the depth
of any tree parsed from `s`. -/

def ExpressionFormatter.format (s : String) : Except String String :=
  match parseChars s.data with
  | Except.ok e =>
    match fmtF (s.data.length + 2) e 0 with
    | some out => Except.ok (String.mk out)
    | none => Except.error "Unknown operator"
  | Except.error m => Except.error (String.mk m)

inductive FxNode where
  | mk (value : List Char) (left : Option FxNode) (right : Option FxNode)

def FxNode.value : FxNode → List Char
  | FxNode.mk v _ _ => v

/-- Property `ExpressionNode.is_operator`. -/

def fxIsOpSym (v : List Char) : Bool :=
  v == str "+" || v == str "-" || v == str "*" || v == str "/"

/-- Property `Operator.precedence` via `ExpressionNode.precedence` on operator nodes. -/

def fxPrec (v : List Char) : Nat :=
  if v == str "+" || v == str "-" then 1 else 2

/-- Function `ExpressionParser._tokenize`: `re.findall` over
`[A-Za-z_][A-Za-z0-9_]*|\d+|[()+\-*/]` after `replace(" ", "")`;
unmatched characters are silently skipped. -/

def fxScan : Nat → List Char → List (List Char)
  | 0, _ => []
  | Nat.succ f, cs =>
    match cs with
    | [] => []
    | c :: rest =>
      if c.isAlpha || c == '_' then
        (c :: rest).takeWhile isWordChar :: fxScan f ((c :: rest).dropWhile isWordChar)
      else if c.isDigit then
        (c :: rest).takeWhile Char.isDigit :: fxScan f ((c :: rest).dropWhile Char.isDigit)
      else if (str "()+-*/").contains c then
        [c] :: fxScan f rest
      else
        fxScan f rest

def fxTokenize (cs : List Char) : List (List Char) :=
  let pre := cs.filter (fun c => !(c == ' '))
  fxScan (pre.length + 1) pre

/-- Function `ExpressionParser._parse_term`. -/

def fxTermWith (pe : Nat → List (List Char) → Except (List Char) (FxNode × List (List Char))) :
    List (List Char) → Except (List Char) (FxNode × List (List Char))
  | [] => Except.error (str "IndexError")
  | t :: rest =>
    if t == str "(" then
      match pe 0 rest with
      | Except.ok (node, r2) =>
        match r2 with
        | t2 :: r3 =>
          if t2 == str ")" then Except.ok (node, r3)
          else Except.error (str "Mismatched parentheses")
        | [] => Except.error (str "Mismatched parentheses")
      | Except.error e => Except.error e
    else Except.ok (FxNode.mk t none none, rest)

/-- The `while` loop of `ExpressionParser._parse_expression`. -/

def fxLoopWith (pe : Nat → List (List Char) → Except (List Char) (FxNode × List (List Char))) :
    Nat → Nat → FxNode → List (List Char) → Except (List Char) (FxNode × List (List Char))
  | 0, _, _, _ => Except.error fuelErr
  | Nat.succ f, minPrec, node, toks =>
    match toks with
    | [] => Except.ok (node, toks)
    | t :: rest =>
      if fxIsOpSym t then
        if fxPrec t < minPrec then Except.ok (node, toks)
        else
          match pe (fxPrec t + 1) rest with
          | Except.ok (right, r2) =>
            fxLoopWith pe f minPrec (FxNode.mk t (some node) (some right)) r2
          | Except.error e => Except.error e
      else Except.ok (node, toks)

/-- Function `ExpressionParser._parse_expression(min_precedence)`. -/

def fxExprF : Nat → Nat → List (List Char) → Except (List Char) (FxNode × List (List Char))
  | 0, _, _ => Except.error fuelErr
  | Nat.succ f, minPrec, toks =>
    match fxTermWith (fun mp ts => fxExprF f mp ts) toks with
    | Except.ok (node, rest) =>
      fxLoopWith (fun mp ts => fxExprF f mp ts) f minPrec node rest
    | Except.error e => Except.error e

def fxIsMulDivNode (n : FxNode) : Bool :=
  fxIsOpSym n.value && (n.value == str "*" || n.value == str "/")

/-- Function `formulex.ExpressionFormatter.format(node, parent_precedence)`;
`none` models the crash on an operator node with a missing child. -/

def fxFmt : Nat → FxNode → Nat → Option (List Char)
  | 0, _, _ => none
  | Nat.succ f, FxNode.mk v l r, parentPrec =>
    if !(fxIsOpSym v) then some v
    else
      match l, r with
      | some ln, some rn =>
        match fxFmt f ln (fxPrec v), fxFmt f rn (fxPrec v) with
        | some lf, some rf =>
          let lf2 :=
            if v == str "+" || v == str "-" then
              if fxIsMulDivNode ln then '(' :: (lf ++ [')']) else lf
            else lf
          let rf2 :=
            if v == str "+" || v == str "-" then
              if fxIsOpSym rn.value then '(' :: (rf ++ [')']) else rf
            else rf
          let e := lf2 ++ v ++ rf2
          some (if fxPrec v < parentPrec then '(' :: (e ++ [')']) else e)
        | _, _ => none
      | _, _ => none

/-- The formulex pipeline: tokenize (silently dropping spaces and unknown
characters), parse at minimum precedence 0, format at parent precedence 0. -/

def fxFormat (s : String) : Except String String :=
  let toks := fxTokenize s.data
  match fxExprF (2 * toks.length + 4) 0 toks with
  | Except.ok (t, _) =>
    match fxFmt (s.data.length + 2) t 0 with
    | some o => Except.ok (String.mk o)
    | none => Except.error "format"
  | Except.error e => Except.error (String.mk e)

def stripWs (cs : List Char) : List Char := cs.filter (fun c => !(isSpaceTab c))

def FmtOk (n : Nat) (e : Expr) : Prop := ∀ ctx, (fmtF n e ctx).isSome

def PeProp (pe : Nat → List Token → Except (List Char) (Expr × List Token)) : Prop :=
  ∀ mp ts e r, pe mp ts = Except.ok (e, r) →
    r.length < ts.length ∧ FmtOk (ts.length - r.length) e

def SafeRest (rs : List Char) : Prop :=
  match rs with
  | [] => True
  | c :: _ => c = ' ' ∨ c = ')' ∨ c = ',' ∨ c = '('

def IdText : List Char → Prop
  | [] => False
  | c :: rest => (c.isAlpha || c == '_') = true ∧ ∀ x ∈ c :: rest, isWordChar x = true

/-- The text shape of a `NUMBER` token: `\d+(\.\d*)?`. -/

def NumText (v : List Char) : Prop :=
  ∃ ds tl, v = ds ++ tl ∧ ds ≠ [] ∧ (∀ c ∈ ds, c.isDigit = true) ∧
    (tl = [] ∨ ∃ ds2, tl = '.' :: ds2 ∧ ∀ c ∈ ds2, c.isDigit = true)

def RScan (seg : List Char) (xt : List Token) : Prop :=
  ∀ rs F ts', SafeRest rs → scanTok F false rs = Except.ok ts' →
    scanTok (seg.length + F) false (seg ++ rs) = Except.ok (xt ++ ts')

-- === Phase A: scanning rendered fragments ===

/-- A rendered fragment is nonempty and does not begin with a space or a
tab. -/

def GoodHead (xs : List Char) : Prop :=
  ∃ c t, xs = c :: t ∧ isSpaceTab c = false

def joinCommaToks : List (List Token) → List Token
  | [] => []
  | [t] => t
  | t :: rest => t ++ ((TK.COMMA, str ",") :: joinCommaToks rest)

def NotLParen (rest : List Token) : Prop :=
  ∀ t r2, rest = t :: r2 → ¬ t.2 = str "("

/-- Every operator token at the head of the continuation binds more
loosely than `m`, so the precedence-climbing loop stops there. -/

def Stopper (m : Nat) (rest : List Token) : Prop :=
  ∀ t r2, rest = t :: r2 → t.1 = TK.OP →
    ∀ pa : Nat × Assoc, OperatorMeta.get t.2 = some pa → pa.1 < m

/-- Fragment tokens `xt` parse as one `parse_primary` unit, consuming exactly `xt`. -/

def PrimTok (e : Expr) (xt : List Token) : Prop :=
  ∀ F fp rest, NotLParen rest → xt.length + rest.length + 2 ≤ fp →
    xt.length + rest.length + 2 ≤ F →
    parsePrimaryWith (fun mp ts => parseExprF F mp ts) fp (xt ++ rest) =
      Except.ok (e, rest)

/-- Fragment tokens `xt` parse as one full `parse_expression` unit at every minimum
precedence up to `p`, consuming exactly `xt`. -/

def ExprSem (e : Expr) (p : Nat) (xt : List Token) : Prop :=
  ∀ F m rest, m ≤ p → Stopper m rest → NotLParen rest →
    xt.length + rest.length + 3 ≤ F →
    parseExprF F m (xt ++ rest) = Except.ok (e, rest)

/-- Fragment tokens `xt` parse as one argument (`parse_expression` at the default
minimum precedence `1`). -/

def ArgSem (e : Expr) (xt : List Token) : Prop :=
  ∀ F rest, Stopper 1 rest → NotLParen rest → xt.length + rest.length + 3 ≤ F →
    parseExprF F 1 (xt ++ rest) = Except.ok (e, rest)

def TokHead (xt : List Token) : Prop :=
  ∃ t0 tr, xt = t0 :: tr ∧ ¬ t0.2 = str ")"

/-- The comma-led tail stream of a call's argument list. -/

def argsTail : List (Expr × List Token) → List Token
  | [] => []
  | q :: qs => (TK.COMMA, str ",") :: (q.2 ++ argsTail qs)

abbrev ChainItem : Type := List Char × Expr × List Token

/-- The token stream of the links of a chain. -/

def flatItems : List ChainItem → List Token
  | [] => []
  | it :: its => (TK.OP, it.1) :: (it.2.2 ++ flatItems its)

/-- The left fold rebuilding the chain's tree. -/

def foldItems (e : Expr) : List ChainItem → Expr
  | [] => e
  | it :: its => foldItems (Expr.BinaryOp e it.1 it.2.1) its

/-- Every link uses a left-associative operator of precedence `p` and a
primary-shaped right operand. -/

def ItemsOK (p : Nat) (its : List ChainItem) : Prop :=
  ∀ it ∈ its, OperatorMeta.get it.1 = some (p, Assoc.L) ∧ PrimTok it.2.1 it.2.2

/-- A primary unit is a full expression unit at every minimum precedence. -/

def ChainL (e : Expr) (p : Nat) (xt : List Token) : Prop :=
  ∃ e0 x0 its, its ≠ [] ∧ PrimTok e0 x0 ∧ ItemsOK p its ∧
    xt = x0 ++ flatItems its ∧ e = foldItems e0 its

/-- A bare right-associative chain: a primary head, one operator of
precedence `p`, and a full right part at minimum precedence `p`. -/

def ChainR (e : Expr) (p : Nat) (xt : List Token) : Prop :=
  ∃ e0 x0 op r xr, e = Expr.BinaryOp e0 op r ∧
    OperatorMeta.get op = some (p, Assoc.R) ∧ PrimTok e0 x0 ∧
    xt = x0 ++ ((TK.OP, op) :: xr) ∧ ExprSem r p xr

def UnOpOK (op : List Char) : Prop := op = str "-" ∨ (IdText op ∧ op ∉ kwords)

/-- Trees the parser can produce. -/

inductive WFe : Expr → Prop where
  | value {v : List Char} : NumText v → WFe (Expr.Value v)
  | var {n : List Char} : IdText n → n ∉ kwords → WFe (Expr.Variable n)
  | un {op : List Char} {o : Expr} : UnOpOK op → WFe o → WFe (Expr.UnaryOp op o)
  | bin {l : Expr} {op : List Char} {r : Expr} {pa : Nat × Assoc} :
      OperatorMeta.get op = some pa → WFe l → WFe r → WFe (Expr.BinaryOp l op r)
  | call {n : List Char} {args : List Expr} : IdText n → n ∉ kwords →
      (args = [] ∨ 2 ≤ args.length) → (∀ a ∈ args, WFe a) →
      WFe (Expr.FuncCall n args)

/-- Operators of equal precedence share their associativity. -/

def Rendered (e : Expr) (out : List Char) : Prop :=
  ∃ xt, RScan out xt ∧ GoodHead out ∧ TokHead xt ∧
    ( PrimTok e xt ∨
      ∃ l op r p a, e = Expr.BinaryOp l op r ∧
        OperatorMeta.get op = some (p, a) ∧
        ((a = Assoc.L ∧ ChainL e p xt) ∨ (a = Assoc.R ∧ ChainR e p xt)) )

def TokWF : Token → Prop
  | (TK.ID, v) => IdText v
  | (TK.NUMBER, v) => NumText v
  | _ => True

/-- An `ID` token whose text collides with a keyword. -/

def kwId (t : Token) : Prop := t.1 = TK.ID ∧ t.2 ∈ kwords

/-- A keyword-texted `ID` token can only directly follow a `NUMBER`
token. -/

def KwChain : List Token → Prop
  | [] => True
  | [_] => True
  | a :: b :: rest => (kwId b → a.1 = TK.NUMBER) ∧ KwChain (b :: rest)

def TsOK (ts : List Token) : Prop := (∀ tk ∈ ts, TokWF tk) ∧ KwChain ts

/-- The parser is at a fresh position: the head token cannot be a
keyword-texted identifier. -/

def HeadSafe (ts : List Token) : Prop := ∀ t r, ts = t :: r → ¬ kwId t

def PeWF (pe : Nat → List Token → Except (List Char) (Expr × List Token)) : Prop :=
  ∀ mp ts e r, TsOK ts → HeadSafe ts → pe mp ts = Except.ok (e, r) →
    WFe e ∧ r <:+ ts

example : Parser.parse "a + b * c" =
    Except.ok (Expr.BinaryOp (Expr.Variable (str "a")) (str "+")
      (Expr.BinaryOp (Expr.Variable (str "b")) (str "*") (Expr.Variable (str "c")))) := by
  rfl

example : ExpressionFormatter.format "a + b * c" = Except.ok "a + (b * c)" := by rfl

-- === formulex.py: the operator-class-check formatter ===

/-- Type `formulex.ExpressionNode`: a value with optional children. -/

example : fxFormat "a - (b - c)" = Except.ok "a-(b-c)" := by rfl

-- === Claim theorems: concrete reference cases ===

/-- C3: parsing `"a ** b ** c"` yields the right-nested tree
`BinaryOp(a, **, BinaryOp(b, **, c))`, but formatting that tree emits
`"a ** b ** c"`, not the `"a ** (b ** c)"` the specification and the
module's own expected-output list demand: with a right-associative parent
the equal-precedence right child is wrapped neither by the context rule
(`7 < 7` fails) nor by the tie-break (only the left side conflicts). -/

theorem c3_code_divergence :
    Parser.parse "a ** b ** c" =
      Except.ok (Expr.BinaryOp (Expr.Variable (str "a")) (str "**")
        (Expr.BinaryOp (Expr.Variable (str "b")) (str "**") (Expr.Variable (str "c")))) ∧
    ExpressionFormatter.format "a ** b ** c" = Except.ok "a ** b ** c" := by
  exact ⟨rfl, rfl⟩

/-- C4: parsing `"-a + b"` yields `BinaryOp(UnaryOp(-, a), +, b)`, but
`UnaryOp.format` renders `op(operand)`, so the pipeline emits
`"-(a) + b"`, not the `"(-a) + b"` the specification and the module's own
expected-output list demand. -/

theorem c4_code_divergence :
    Parser.parse "-a + b" =
      Except.ok (Expr.BinaryOp (Expr.UnaryOp (str "-") (Expr.Variable (str "a")))
        (str "+") (Expr.Variable (str "b"))) ∧
    ExpressionFormatter.format "-a + b" = Except.ok "-(a) + b" := by
  exact ⟨rfl, rfl⟩

/-- C5: the five precedence-climbing reference cases other than the unary
one hold exactly as stated: `"a + b * c"` → `"a + (b * c)"`,
`"a * b + c"` → `"(a * b) + c"`, `"a and b or c"` → `"(a and b) or c"`,
`"round(a + b, 2)"` → `"round(a + b, 2)"`, and
`"-abs(a - b)"` → `"-(abs(a - b))"`. -/

theorem c5_precedence_cases :
    ExpressionFormatter.format "a + b * c" = Except.ok "a + (b * c)" ∧
    ExpressionFormatter.format "a * b + c" = Except.ok "(a * b) + c" ∧
    ExpressionFormatter.format "a and b or c" = Except.ok "(a and b) or c" ∧
    ExpressionFormatter.format "round(a + b, 2)" = Except.ok "round(a + b, 2)" ∧
    ExpressionFormatter.format "-abs(a - b)" = Except.ok "-(abs(a - b))" := by
  exact ⟨rfl, rfl, rfl, rfl, rfl⟩

/-- C2 counterexample: the formatter emits a redundant pair of
parentheses. On `"a - (b - c)"` the emitted output is `"a - ((b - c))"`;
removing the outer pair of the doubled parentheses gives `"a - (b - c)"`,
which re-parses to exactly the same tree, so that inserted pair is not
necessary and minimality fails. -/

theorem c2_counterexample :
    ExpressionFormatter.format "a - (b - c)" = Except.ok "a - ((b - c))" ∧
    Parser.parse "a - ((b - c))" =
      Except.ok (Expr.BinaryOp (Expr.Variable (str "a")) (str "-")
        (Expr.BinaryOp (Expr.Variable (str "b")) (str "-") (Expr.Variable (str "c")))) ∧
    Parser.parse "a - (b - c)" =
      Except.ok (Expr.BinaryOp (Expr.Variable (str "a")) (str "-")
        (Expr.BinaryOp (Expr.Variable (str "b")) (str "-") (Expr.Variable (str "c")))) := by
  exact ⟨rfl, rfl, rfl⟩

/-- C2 amended: the canonical formatter is not minimal — on an
equal-precedence child sitting on the conflicting side it emits doubled
parentheses whose outer pair is redundant: the output for
`"a - (b - c)"` is `"a - ((b - c))"`, which splits as
`"a - (" ++ "(b - c)" ++ ")"`, and dropping that outer pair re-parses to
the same tree. -/

theorem c2_amended_redundant_pair :
    ExpressionFormatter.format "a - (b - c)" = Except.ok "a - ((b - c))" ∧
    str "a - ((b - c))" = str "a - (" ++ str "(b - c)" ++ str ")" ∧
    Parser.parse "a - ((b - c))" = Parser.parse "a - (b - c)" := by
  exact ⟨rfl, rfl, rfl⟩

/-- C7 counterexample: the lexical error does not identify the position of
the offending character. `"a # b"` and `"ab # b"` place `#` at positions 2
and 3 respectively, yet tokenizing both fails with the identical message
`"Unexpected character: #"` — the raised error carries the character but
no position. -/

theorem c7_counterexample :
    tokenize "a # b" = Except.error "Unexpected character: #" ∧
    tokenize "ab # b" = Except.error "Unexpected character: #" := by
  exact ⟨rfl, rfl⟩

/-- C7 amended: tokenizing `"a # b"` fails with a lexical error
identifying the character `#` (though not its position); parsing
`"(a + b"` fails with a `SyntaxError` reporting the missing `)`; parsing
`"a +"` fails with a `SyntaxError` reporting the unexpected end of input
in primary position; in each case the computation returns an error and no
partial result. -/

theorem c7_amended_error_scenarios :
    tokenize "a # b" = Except.error "Unexpected character: #" ∧
    Parser.parse "(a + b" = Except.error "Expected OP ), got EOF " ∧
    Parser.parse "a +" = Except.error "Unexpected token EOF " := by
  exact ⟨rfl, rfl, rfl⟩

/-- C9: the two parenthesization policies are not equivalent. On
`"a - (b - c)"` — identifiers, `-`, and parentheses, inside the grammar
both implementations share — the canonical context-precedence formatter
emits `"a - ((b - c))"` while the operator-class-check formatter of
`formulex.py` emits `"a-(b-c)"`; the outputs differ even after removing
all whitespace. -/

theorem c9_policies_differ :
    ExpressionFormatter.format "a - (b - c)" = Except.ok "a - ((b - c))" ∧
    fxFormat "a - (b - c)" = Except.ok "a-(b-c)" ∧
    stripWs (str "a - ((b - c))") ≠ stripWs (str "a-(b-c)") := by
  refine ⟨rfl, rfl, ?_⟩
  decide

-- === Formatter totality on parser output (C6) ===

/-- Success of the formatter at fuel `n`, at every context precedence. -/

theorem fmtArgsList_mono {g g' : Expr → Nat → Option (List Char)}
    (hg : ∀ e ctx r, g e ctx = some r → g' e ctx = some r) :
    ∀ l ss, fmtArgsList g l = some ss → fmtArgsList g' l = some ss := by
  intro l
  induction l with
  | nil => intro ss h; exact h
  | cons a rest ih =>
    intro ss h
    simp only [fmtArgsList] at h ⊢
    cases hga : g a 0 with
    | none => rw [hga] at h; exact absurd h (by simp)
    | some s =>
      rw [hga] at h
      cases hrest : fmtArgsList g rest with
      | none => rw [hrest] at h; exact absurd h (by simp)
      | some ss2 =>
        rw [hrest] at h
        rw [hg a 0 s hga, ih ss2 hrest]
        exact h

theorem fmtCore_mono {g g' : Expr → Nat → Option (List Char)}
    (hg : ∀ e ctx r, g e ctx = some r → g' e ctx = some r) :
    ∀ e ctx r, fmtCore g e ctx = some r → fmtCore g' e ctx = some r := by
  intro e ctx r h
  match e with
  | Expr.Value v => exact h
  | Expr.Variable n => exact h
  | Expr.UnaryOp op o =>
    simp only [fmtCore] at h ⊢
    cases ho : g o 0 with
    | none => rw [ho] at h; exact absurd h (by simp)
    | some s => rw [ho] at h; rw [hg o 0 s ho]; exact h
  | Expr.BinaryOp l op r' =>
    match hop : OperatorMeta.get op with
    | none => exact absurd (by simpa only [fmtCore, hop] using h) (by simp)
    | some (p, a) =>
      simp only [fmtCore, hop] at h ⊢
      cases hl : g l (if a = Assoc.L then p else p + 1) with
      | none => rw [hl] at h; exact absurd h (by simp)
      | some lf =>
        rw [hl] at h
        cases hr : g r' (if a = Assoc.L then p + 1 else p) with
        | none => rw [hr] at h; exact absurd h (by simp)
        | some rf =>
          rw [hr] at h
          rw [hg l _ lf hl, hg r' _ rf hr]
          exact h
  | Expr.FuncCall n args =>
    simp only [fmtCore] at h ⊢
    cases hargs : fmtArgsList g args with
    | none => rw [hargs] at h; exact absurd h (by simp)
    | some ss =>
      rw [hargs] at h
      rw [fmtArgsList_mono hg args ss hargs]
      exact h

theorem fmtF_succ_mono :
    ∀ f e ctx r, fmtF f e ctx = some r → fmtF (f + 1) e ctx = some r := by
  intro f
  induction f with
  | zero => intro e ctx r h; exact absurd h (by simp [fmtF])
  | succ f ih =>
    intro e ctx r h
    show fmtCore (fmtF (f + 1)) e ctx = some r
    exact fmtCore_mono ih e ctx r h

theorem fmtF_mono {f g : Nat} (hfg : f ≤ g) :
    ∀ e ctx r, fmtF f e ctx = some r → fmtF g e ctx = some r := by
  induction g with
  | zero =>
    intro e ctx r h
    have : f = 0 := Nat.le_zero.mp hfg
    rw [this] at h; exact h
  | succ g ih =>
    intro e ctx r h
    rcases Nat.lt_or_ge f (g + 1) with hlt | hge
    · exact fmtF_succ_mono g e ctx r (ih (Nat.lt_succ_iff.mp hlt) e ctx r h)
    · have : f = g + 1 := Nat.le_antisymm hfg hge
      rw [this] at h; exact h

theorem FmtOk.mono {n m : Nat} {e : Expr} (hnm : n ≤ m) (h : FmtOk n e) : FmtOk m e := by
  intro ctx
  obtain ⟨r, hr⟩ := Option.isSome_iff_exists.mp (h ctx)
  exact Option.isSome_iff_exists.mpr ⟨r, fmtF_mono hnm e ctx r hr⟩

theorem FmtOk.value (v : List Char) : FmtOk 1 (Expr.Value v) := by
  intro ctx; simp [fmtF, fmtCore]

theorem FmtOk.variable (v : List Char) : FmtOk 1 (Expr.Variable v) := by
  intro ctx; simp [fmtF, fmtCore]

theorem FmtOk.unary {n : Nat} {o : Expr} (h : FmtOk n o) (op : List Char) :
    FmtOk (n + 1) (Expr.UnaryOp op o) := by
  intro ctx
  show (fmtCore (fmtF n) (Expr.UnaryOp op o) ctx).isSome
  simp only [fmtCore]
  obtain ⟨s, hs⟩ := Option.isSome_iff_exists.mp (h 0)
  rw [hs]
  simp

theorem fmtOk_get_of_binary {n : Nat} {a : Expr} {cop : List Char} {b : Expr}
    (h : FmtOk n (Expr.BinaryOp a cop b)) : (OperatorMeta.get cop).isSome := by
  cases n with
  | zero => exact absurd (h 0) (by simp [fmtF])
  | succ n =>
    have h0 := h 0
    cases hop : OperatorMeta.get cop with
    | none =>
      exfalso
      simp only [fmtF, fmtCore, hop] at h0
      exact (by simp at h0)
    | some pa => simp

theorem mustParen_isSome {p : Nat} {a : Assoc} {child : Expr} {side : Side} {n : Nat}
    (h : FmtOk n child) : (mustParenthesize p a child side).isSome := by
  match child with
  | Expr.Value v => simp [mustParenthesize]
  | Expr.Variable v => simp [mustParenthesize]
  | Expr.UnaryOp o e => simp [mustParenthesize]
  | Expr.FuncCall f args => simp [mustParenthesize]
  | Expr.BinaryOp x cop y =>
    have hg := fmtOk_get_of_binary h
    simp only [mustParenthesize]
    cases hop : OperatorMeta.get cop with
    | none => rw [hop] at hg; simp at hg
    | some pa => simp

theorem FmtOk.binary {n m : Nat} {l r : Expr} {v : List Char} {pa : Nat × Assoc}
    (hop : OperatorMeta.get v = some pa) (hl : FmtOk n l) (hr : FmtOk m r) :
    FmtOk (max n m + 1) (Expr.BinaryOp l v r) := by
  intro ctx
  show (fmtCore (fmtF (max n m)) (Expr.BinaryOp l v r) ctx).isSome
  have hl2 : FmtOk (max n m) l := FmtOk.mono (Nat.le_max_left n m) hl
  have hr2 : FmtOk (max n m) r := FmtOk.mono (Nat.le_max_right n m) hr
  match pa with
  | (p, a) =>
    simp only [fmtCore, hop]
    obtain ⟨lf, hlf⟩ := Option.isSome_iff_exists.mp (hl2 (if a = Assoc.L then p else p + 1))
    obtain ⟨rf, hrf⟩ := Option.isSome_iff_exists.mp (hr2 (if a = Assoc.L then p + 1 else p))
    obtain ⟨bl, hbl⟩ := Option.isSome_iff_exists.mp
      (mustParen_isSome hl : (mustParenthesize p a l Side.left).isSome)
    obtain ⟨br, hbr⟩ := Option.isSome_iff_exists.mp
      (mustParen_isSome hr : (mustParenthesize p a r Side.right).isSome)
    rw [hlf, hrf, hbl, hbr]
    simp

theorem fmtArgsList_isSome {g : Expr → Nat → Option (List Char)} {l : List Expr}
    (h : ∀ a ∈ l, (g a 0).isSome) : (fmtArgsList g l).isSome := by
  induction l with
  | nil => simp [fmtArgsList]
  | cons a rest ih =>
    obtain ⟨s, hs⟩ := Option.isSome_iff_exists.mp (h a (by simp))
    obtain ⟨ss, hss⟩ := Option.isSome_iff_exists.mp (ih (fun b hb => h b (by simp [hb])))
    simp [fmtArgsList, hs, hss]

theorem FmtOk.call {n : Nat} {args : List Expr} (h : ∀ a ∈ args, FmtOk n a)
    (v : List Char) : FmtOk (n + 1) (Expr.FuncCall v args) := by
  intro ctx
  show (fmtCore (fmtF n) (Expr.FuncCall v args) ctx).isSome
  simp only [fmtCore]
  obtain ⟨ss, hss⟩ := Option.isSome_iff_exists.mp
    (fmtArgsList_isSome (fun a ha => h a ha 0))
  rw [hss]
  simp

theorem currentTok_cons (t : Token) (ts : List Token) : currentTok (t :: ts) = t := rfl

theorem currentTok_nil : currentTok [] = (TK.EOF, []) := rfl

/-- The induction hypothesis shape for the `parse_expression` callback:
a successful parse consumes at least one token and yields a tree the
formatter handles at fuel equal to the number of consumed tokens. -/

theorem expectTok_ok {v : List Char} {ts ts' : List Token}
    (h : expectTok TK.OP v ts = Except.ok ts') :
    ts' = ts.drop 1 ∧ ts'.length < ts.length := by
  cases ts with
  | nil => exact absurd h (by simp [expectTok, currentTok])
  | cons t tail =>
    simp only [expectTok, currentTok] at h
    by_cases hc : t.1 = TK.OP ∧ t.2 = v
    · rw [if_pos hc] at h
      cases h
      exact ⟨rfl, by simp⟩
    · rw [if_neg hc] at h
      exact absurd h (by simp)

theorem parseLoop_inv {pe : Nat → List Token → Except (List Char) (Expr × List Token)}
    (hpe : PeProp pe) :
    ∀ f mp node toks e rest n,
      parseLoopWith pe f mp node toks = Except.ok (e, rest) → FmtOk n node →
      rest.length ≤ toks.length ∧ FmtOk (n + (toks.length - rest.length)) e := by
  intro f
  induction f with
  | zero =>
    intro mp node toks e rest n h hn
    exact absurd h (by simp [parseLoopWith])
  | succ f ih =>
    intro mp node toks e rest n h hn
    cases toks with
    | nil =>
      simp only [parseLoopWith, currentTok] at h
      cases h
      exact ⟨Nat.le_refl _, by simpa using hn⟩
    | cons t tail =>
      match t with
      | (tk, tv) =>
        cases tk with
        | OP =>
          cases hop : OperatorMeta.get tv with
          | none =>
            simp only [parseLoopWith, currentTok, hop] at h
            cases h
            exact ⟨Nat.le_refl _, by simpa using hn⟩
          | some pa =>
            match pa with
            | (prec, assoc) =>
              simp only [parseLoopWith, currentTok, hop, List.drop_succ_cons,
                List.drop_zero] at h
              by_cases hlt : prec < mp
              · rw [if_pos hlt] at h
                cases h
                exact ⟨Nat.le_refl _, by simpa using hn⟩
              · rw [if_neg hlt] at h
                cases hr : pe (if assoc = Assoc.L then prec + 1 else prec) tail with
                | error msg =>
                  rw [hr] at h
                  exact absurd h (by simp)
                | ok rt =>
                  rw [hr] at h
                  match rt with
                  | (right, t2) =>
                    have hr2 := hpe _ _ _ _ hr
                    have hb : FmtOk (max n (tail.length - t2.length) + 1)
                        (Expr.BinaryOp node tv right) :=
                      FmtOk.binary hop hn hr2.2
                    have hrec := ih mp (Expr.BinaryOp node tv right) t2 e rest
                      (max n (tail.length - t2.length) + 1) h hb
                    have h1 : t2.length < tail.length := hr2.1
                    have h2 : rest.length ≤ t2.length := hrec.1
                    refine ⟨by simp only [List.length_cons]; omega, ?_⟩
                    refine FmtOk.mono ?_ hrec.2
                    simp only [List.length_cons]
                    omega
        | NUMBER =>
          simp only [parseLoopWith, currentTok] at h
          cases h
          exact ⟨Nat.le_refl _, by simpa using hn⟩
        | ID =>
          simp only [parseLoopWith, currentTok] at h
          cases h
          exact ⟨Nat.le_refl _, by simpa using hn⟩
        | COMMA =>
          simp only [parseLoopWith, currentTok] at h
          cases h
          exact ⟨Nat.le_refl _, by simpa using hn⟩
        | EOF =>
          simp only [parseLoopWith, currentTok] at h
          cases h
          exact ⟨Nat.le_refl _, by simpa using hn⟩

theorem parseArgs_inv {pe : Nat → List Token → Except (List Char) (Expr × List Token)}
    (hpe : PeProp pe) :
    ∀ f toks l rest, parseArgsWith pe f toks = Except.ok (l, rest) →
      rest.length ≤ toks.length ∧ ∀ a ∈ l, FmtOk (toks.length - rest.length) a := by
  intro f
  induction f with
  | zero =>
    intro toks l rest h
    exact absurd h (by simp [parseArgsWith])
  | succ f ih =>
    intro toks l rest h
    simp only [parseArgsWith] at h
    by_cases hc : (currentTok toks).2 = str ","
    · rw [if_pos hc] at h
      cases hp : pe 1 (toks.drop 1) with
      | error m => simp only [hp] at h; exact absurd h (by simp)
      | ok at2 =>
        match at2 with
        | (a, t2) =>
          simp only [hp] at h
          cases hrec : parseArgsWith pe f t2 with
          | error m => rw [hrec] at h; exact absurd h (by simp [Except.map])
          | ok lr =>
            rw [hrec] at h
            match lr with
            | (l2, r2) =>
              simp only [Except.map] at h
              cases h
              have h1 := hpe _ _ _ _ hp
              have h2 := ih t2 l2 rest hrec
              have h1a : t2.length < toks.length - 1 := by
                have hx := h1.1
                simpa using hx
              have h2a : rest.length ≤ t2.length := h2.1
              refine ⟨by omega, ?_⟩
              intro b hb
              rcases List.mem_cons.mp hb with rfl | hb2
              · refine FmtOk.mono ?_ h1.2
                simp only [List.length_drop]
                omega
              · refine FmtOk.mono ?_ (h2.2 b hb2)
                omega
    · rw [if_neg hc] at h
      cases h
      exact ⟨Nat.le_refl _, by simp⟩

theorem parsePrimary_inv {pe : Nat → List Token → Except (List Char) (Expr × List Token)}
    (hpe : PeProp pe) :
    ∀ f toks e rest, parsePrimaryWith pe f toks = Except.ok (e, rest) →
      rest.length < toks.length ∧ FmtOk (toks.length - rest.length) e := by
  intro f
  induction f with
  | zero =>
    intro toks e rest h
    exact absurd h (by simp [parsePrimaryWith])
  | succ f ih =>
    intro toks e rest h
    cases toks with
    | nil => exact absurd h (by simp [parsePrimaryWith, currentTok])
    | cons t tail =>
      match t with
      | (tk, tv) =>
        cases tk with
        | NUMBER =>
          simp only [parsePrimaryWith, currentTok_cons, List.drop_succ_cons,
            List.drop_zero] at h
          injection h with h1
          injection h1 with he hr
          subst he
          subst hr
          refine ⟨by simp, ?_⟩
          have hx : ((TK.NUMBER, tv) :: tail).length - tail.length = 1 := by simp
          rw [hx]
          exact FmtOk.value tv
        | ID =>
          simp only [parsePrimaryWith, currentTok_cons, List.drop_succ_cons,
            List.drop_zero] at h
          by_cases hpar : (currentTok tail).2 = str "("
          · rw [if_pos hpar] at h
            by_cases hz : (currentTok (tail.drop 1)).2 = str ")"
            · rw [if_neg (not_not_intro hz)] at h
              cases hex : expectTok TK.OP (str ")") (tail.drop 1) with
              | error m => simp only [hex] at h; exact absurd h (by simp)
              | ok t5 =>
                simp only [hex] at h
                injection h with h1
                injection h1 with he hr
                subst he
                subst hr
                have f3 := expectTok_ok hex
                have f3a : t5.length < (tail.drop 1).length := f3.2
                simp only [List.length_drop] at f3a
                refine ⟨by simp only [List.length_cons]; omega, ?_⟩
                have hcall : FmtOk ((tail.length - t5.length) + 1) (Expr.FuncCall tv []) :=
                  FmtOk.call (fun a ha => absurd ha (List.not_mem_nil a)) tv
                refine FmtOk.mono ?_ hcall
                simp only [List.length_cons]
                omega
            · rw [if_pos hz] at h
              cases hp1 : pe 1 (tail.drop 1) with
              | error m => simp only [hp1] at h; exact absurd h (by simp)
              | ok p1 =>
                match p1 with
                | (a1, t3) =>
                  simp only [hp1] at h
                  cases hargs : parseArgsWith pe f t3 with
                  | error m => simp only [hargs] at h; exact absurd h (by simp)
                  | ok ar =>
                    match ar with
                    | (more, t4) =>
                      simp only [hargs] at h
                      cases hex : expectTok TK.OP (str ")") t4 with
                      | error m => simp only [hex] at h; exact absurd h (by simp)
                      | ok t5 =>
                        simp only [hex] at h
                        have f1 := hpe _ _ _ _ hp1
                        have f1a : t3.length < tail.length - 1 := by
                          have hx := f1.1
                          simpa using hx
                        have f2 := parseArgs_inv hpe f t3 more t4 hargs
                        have f3 := expectTok_ok hex
                        have f3a : t5.length < t4.length := f3.2
                        have f2a : t4.length ≤ t3.length := f2.1
                        cases more with
                        | nil =>
                          injection h with h1
                          injection h1 with he hr
                          subst he
                          subst hr
                          refine ⟨by simp only [List.length_cons]; omega, ?_⟩
                          have hu : FmtOk (((tail.drop 1).length - t3.length) + 1)
                              (Expr.UnaryOp tv a1) := FmtOk.unary f1.2 tv
                          refine FmtOk.mono ?_ hu
                          simp only [List.length_cons, List.length_drop]
                          omega
                        | cons m2 more2 =>
                          injection h with h1
                          injection h1 with he hr
                          subst he
                          subst hr
                          refine ⟨by simp only [List.length_cons]; omega, ?_⟩
                          have hargsOk : ∀ a ∈ a1 :: m2 :: more2,
                              FmtOk (tail.length - t5.length) a := by
                            intro a ha
                            rcases List.mem_cons.mp ha with rfl | hb
                            · refine FmtOk.mono ?_ f1.2
                              simp only [List.length_drop]
                              omega
                            · refine FmtOk.mono ?_ (f2.2 a hb)
                              omega
                          have hcall : FmtOk ((tail.length - t5.length) + 1)
                              (Expr.FuncCall tv (a1 :: m2 :: more2)) :=
                            FmtOk.call hargsOk tv
                          refine FmtOk.mono ?_ hcall
                          simp only [List.length_cons]
                          omega
          · rw [if_neg hpar] at h
            injection h with h1
            injection h1 with he hr
            subst he
            subst hr
            refine ⟨by simp, ?_⟩
            have hx : ((TK.ID, tv) :: tail).length - tail.length = 1 := by simp
            rw [hx]
            exact FmtOk.variable tv
        | OP =>
          simp only [parsePrimaryWith, currentTok_cons, List.drop_succ_cons,
            List.drop_zero] at h
          by_cases hl : tv = str "("
          · rw [if_pos hl] at h
            cases hp1 : pe 1 tail with
            | error m => simp only [hp1] at h; exact absurd h (by simp)
            | ok p1 =>
              match p1 with
              | (node, t2) =>
                simp only [hp1] at h
                cases hex : expectTok TK.OP (str ")") t2 with
                | error m => simp only [hex] at h; exact absurd h (by simp)
                | ok t3 =>
                  simp only [hex] at h
                  injection h with h1
                  injection h1 with he hr
                  subst he
                  subst hr
                  have f1 := hpe _ _ _ _ hp1
                  have f1a : t2.length < tail.length := f1.1
                  have f3 := expectTok_ok hex
                  have f3a : t3.length < t2.length := f3.2
                  refine ⟨by simp only [List.length_cons]; omega, ?_⟩
                  refine FmtOk.mono ?_ f1.2
                  simp only [List.length_cons]
                  omega
          · rw [if_neg hl] at h
            by_cases hm : tv = str "-"
            · rw [if_pos hm] at h
              cases hp1 : parsePrimaryWith pe f tail with
              | error m => simp only [hp1] at h; exact absurd h (by simp)
              | ok p1 =>
                match p1 with
                | (o, t2) =>
                  simp only [hp1] at h
                  injection h with h1
                  injection h1 with he hr
                  subst he
                  subst hr
                  have f1 := ih tail o t2 hp1
                  have f1a : t2.length < tail.length := f1.1
                  refine ⟨by simp only [List.length_cons]; omega, ?_⟩
                  have hu : FmtOk ((tail.length - t2.length) + 1)
                      (Expr.UnaryOp (str "-") o) := FmtOk.unary f1.2 (str "-")
                  refine FmtOk.mono ?_ hu
                  simp only [List.length_cons]
                  omega
            · rw [if_neg hm] at h
              exact absurd h (by simp)
        | COMMA => exact absurd h (by simp [parsePrimaryWith, currentTok])
        | EOF => exact absurd h (by simp [parsePrimaryWith, currentTok])

theorem parseExprF_inv : ∀ f, PeProp (parseExprF f) := by
  intro f
  induction f with
  | zero =>
    intro mp ts e r h
    exact absurd h (by simp [parseExprF])
  | succ f ih =>
    intro mp ts e r h
    simp only [parseExprF] at h
    cases hp : parsePrimaryWith (fun mp2 ts2 => parseExprF f mp2 ts2) f ts with
    | error m => simp only [hp] at h; exact absurd h (by simp)
    | ok nr =>
      match nr with
      | (node, mid) =>
        simp only [hp] at h
        have hpe2 : PeProp (fun mp2 ts2 => parseExprF f mp2 ts2) := ih
        have h1 := parsePrimary_inv hpe2 f ts node mid hp
        have h2 := parseLoop_inv hpe2 f mp node mid e r (ts.length - mid.length) h h1.2
        have h1a : mid.length < ts.length := h1.1
        have h2a : r.length ≤ mid.length := h2.1
        refine ⟨by omega, ?_⟩
        refine FmtOk.mono ?_ h2.2
        omega

theorem dropWhile_length_le (p : Char → Bool) :
    ∀ l : List Char, (List.dropWhile p l).length ≤ l.length := by
  intro l
  induction l with
  | nil => simp
  | cons a l ih =>
    by_cases hp : p a
    · rw [List.dropWhile_cons_of_pos hp]
      exact Nat.le_succ_of_le ih
    · rw [List.dropWhile_cons_of_neg hp]

theorem numMunch_rest_le {c : Char} (rest : List Char) (hc : c.isDigit = true) :
    (numMunch (c :: rest)).2.length ≤ rest.length := by
  have hdw := dropWhile_length_le Char.isDigit rest
  simp only [numMunch, List.dropWhile_cons_of_pos hc]
  by_cases hd : (List.dropWhile Char.isDigit rest).head? = some '.'
  · rw [if_pos hd]
    have h2 := dropWhile_length_le Char.isDigit (List.dropWhile Char.isDigit rest).tail
    have h3 : (List.dropWhile Char.isDigit rest).tail.length ≤
        (List.dropWhile Char.isDigit rest).length := by
      cases List.dropWhile Char.isDigit rest with
      | nil => simp
      | cons a l => simp
    show (List.dropWhile Char.isDigit (List.dropWhile Char.isDigit rest).tail).length ≤
      rest.length
    omega
  · rw [if_neg hd]
    exact hdw

theorem kwords_len {k : List Char} (hk : k ∈ kwords) : 1 ≤ k.length := by
  simp only [kwords, List.mem_cons, List.not_mem_nil, or_false] at hk
  rcases hk with rfl | rfl | rfl | rfl | rfl <;> decide

theorem twoCharOps_len {k : List Char} (hk : k ∈ twoCharOps) : 1 ≤ k.length := by
  simp only [twoCharOps, List.mem_cons, List.not_mem_nil, or_false] at hk
  rcases hk with rfl | rfl | rfl | rfl | rfl <;> decide

theorem findKw_mem {pw : Bool} {cs k : List Char} (h : findKw pw cs = some k) :
    k ∈ kwords := by
  simp only [findKw] at h
  by_cases hpw : pw = true
  · rw [if_pos hpw] at h; exact absurd h (by simp)
  · rw [if_neg hpw] at h
    exact List.mem_of_find?_eq_some h

theorem findTwo_mem {cs k : List Char} (h : findTwo cs = some k) : k ∈ twoCharOps :=
  List.mem_of_find?_eq_some h

theorem isWordChar_of_alpha {c : Char} (h : (c.isAlpha || c == '_') = true) :
    isWordChar c = true := by
  simp only [isWordChar]
  rcases Bool.or_eq_true_iff.mp h with h2 | h2
  · simp [h2]
  · simp [h2]

theorem scanTok_length :
    ∀ f pw cs ts, scanTok f pw cs = Except.ok ts → ts.length ≤ cs.length := by
  intro f
  induction f with
  | zero =>
    intro pw cs ts h
    cases cs with
    | nil =>
      simp only [scanTok] at h
      injection h with h1
      subst h1
      simp
    | cons c rest => exact absurd h (by simp [scanTok])
  | succ f ih =>
    intro pw cs ts h
    cases cs with
    | nil =>
      simp only [scanTok] at h
      injection h with h1
      subst h1
      simp
    | cons c rest =>
      simp only [scanTok, scanStep] at h
      by_cases hsp : isSpaceTab c = true
      · rw [if_pos hsp] at h
        have h1 := ih false _ ts h
        rw [List.dropWhile_cons_of_pos hsp] at h1
        have h2 := dropWhile_length_le isSpaceTab rest
        simp only [List.length_cons]
        omega
      · rw [if_neg hsp] at h
        cases hkw : findKw pw (c :: rest) with
        | some k =>
          simp only [hkw] at h
          cases hs : scanTok f true ((c :: rest).drop k.length) with
          | error m => rw [hs] at h; exact absurd h (by simp [Except.map])
          | ok ts2 =>
            rw [hs] at h
            simp only [Except.map] at h
            injection h with h1
            subst h1
            have h1 := ih _ _ _ hs
            have hk1 : 1 ≤ k.length := kwords_len (findKw_mem hkw)
            simp only [List.length_drop, List.length_cons] at h1 ⊢
            omega
        | none =>
          cases htw : findTwo (c :: rest) with
          | some k =>
            simp only [hkw, htw] at h
            cases hs : scanTok f false ((c :: rest).drop k.length) with
            | error m => rw [hs] at h; exact absurd h (by simp [Except.map])
            | ok ts2 =>
              rw [hs] at h
              simp only [Except.map] at h
              injection h with h1
              subst h1
              have h1 := ih _ _ _ hs
              have hk1 : 1 ≤ k.length := twoCharOps_len (findTwo_mem htw)
              simp only [List.length_drop, List.length_cons] at h1 ⊢
              omega
          | none =>
            simp only [hkw, htw] at h
            by_cases hone : oneCharOps.contains c = true
            · rw [if_pos hone] at h
              cases hs : scanTok f false rest with
              | error m => rw [hs] at h; exact absurd h (by simp [Except.map])
              | ok ts2 =>
                rw [hs] at h
                simp only [Except.map] at h
                injection h with h1
                subst h1
                have h1 := ih _ _ _ hs
                simp only [List.length_cons]
                omega
            · rw [if_neg hone] at h
              by_cases hdig : c.isDigit = true
              · rw [if_pos hdig] at h
                cases hs : scanTok f (chunkEndsWord (numMunch (c :: rest)).1 false)
                    (numMunch (c :: rest)).2 with
                | error m => rw [hs] at h; exact absurd h (by simp [Except.map])
                | ok ts2 =>
                  rw [hs] at h
                  simp only [Except.map] at h
                  injection h with h1
                  subst h1
                  have h1 := ih _ _ _ hs
                  have h2 := numMunch_rest_le rest hdig
                  simp only [List.length_cons]
                  omega
              · rw [if_neg hdig] at h
                by_cases hal : (c.isAlpha || c == '_') = true
                · rw [if_pos hal] at h
                  cases hs : scanTok f true ((c :: rest).dropWhile isWordChar) with
                  | error m => rw [hs] at h; exact absurd h (by simp [Except.map])
                  | ok ts2 =>
                    rw [hs] at h
                    simp only [Except.map] at h
                    injection h with h1
                    subst h1
                    have h1 := ih _ _ _ hs
                    rw [List.dropWhile_cons_of_pos (isWordChar_of_alpha hal)] at h1
                    have h2 := dropWhile_length_le isWordChar rest
                    simp only [List.length_cons]
                    omega
                · rw [if_neg hal] at h
                  by_cases hcm : c = ','
                  · rw [if_pos (by simp [hcm] : (c == ',') = true)] at h
                    cases hs : scanTok f false rest with
                    | error m => rw [hs] at h; exact absurd h (by simp [Except.map])
                    | ok ts2 =>
                      rw [hs] at h
                      simp only [Except.map] at h
                      injection h with h1
                      subst h1
                      have h1 := ih _ _ _ hs
                      simp only [List.length_cons]
                      omega
                  · rw [if_neg (by simp [hcm] : ¬((c == ',') = true))] at h
                    by_cases hnl : c = '\n'
                    · rw [if_pos hnl] at h
                      have h1 := ih _ _ _ h
                      simp only [List.length_cons]
                      omega
                    · rw [if_neg hnl] at h
                      exact absurd h (by simp)

/-- C6: formatter totality on parser output. For every string `s` that
`Parser.parse` accepts with tree `t`, formatting `t` succeeds — every
`BinaryOp` the parser builds carries an operator found in
`OperatorMeta.OPERATORS` (the loop only combines under a successful table
lookup), so the unknown-operator branch is unreachable and `format`
returns a string. The fuel `|s| + 2` exceeds the tree depth, which the
proof bounds by the number of consumed tokens. -/

theorem c6_formatter_total (s : String) (t : Expr)
    (h : Parser.parse s = Except.ok t) :
    (fmtF (s.data.length + 2) t 0).isSome := by
  simp only [Parser.parse] at h
  cases hp : parseChars s.data with
  | error m => rw [hp] at h; exact absurd h (by simp)
  | ok e =>
    rw [hp] at h
    injection h with h1
    subst h1
    simp only [parseChars] at hp
    cases ht : tokenizeL s.data with
    | error m => simp only [ht] at hp; exact absurd hp (by simp)
    | ok toks =>
      simp only [ht, parseToks] at hp
      cases hx : parseExprF (2 * toks.length + 4) 1 toks with
      | error m => simp only [hx] at hp; exact absurd hp (by simp)
      | ok er =>
        match er with
        | (e2, rest) =>
          simp only [hx] at hp
          by_cases hEOF : (currentTok rest).1 = TK.EOF
          · rw [if_pos hEOF] at hp
            injection hp with h2
            subst h2
            have hinv := parseExprF_inv (2 * toks.length + 4) 1 toks e2 rest hx
            have hlen : toks.length ≤ s.data.length := by
              simp only [tokenizeL] at ht
              exact scanTok_length (s.data.length + 1) false s.data toks ht
            have hr : rest.length < toks.length := hinv.1
            exact FmtOk.mono (by omega) hinv.2 0
          · rw [if_neg hEOF] at hp
            exact absurd hp (by simp)

/-- Witness for C6 at the concrete input `"a + b * c"`. -/

theorem c6_formatter_total_witness :
    (fmtF (("a + b * c" : String).data.length + 2)
      (Expr.BinaryOp (Expr.Variable (str "a")) (str "+")
        (Expr.BinaryOp (Expr.Variable (str "b")) (str "*")
          (Expr.Variable (str "c")))) 0).isSome :=
  c6_formatter_total "a + b * c" _ rfl

-- === Round-trip infrastructure: tokenizer composition (C1) ===

theorem beq_false_right {p : Char → Bool} {a c : Char} (ha : p a = true)
    (hc : p c = false) : (a == c) = false := by
  cases h : (a == c) with
  | false => rfl
  | true =>
    exfalso
    have he : a = c := beq_iff_eq.mp h
    rw [he, hc] at ha
    exact absurd ha (by simp)

theorem beq_false_left {p : Char → Bool} {a c : Char} (ha : p a = false)
    (hc : p c = true) : (a == c) = false := by
  cases h : (a == c) with
  | false => rfl
  | true =>
    exfalso
    have he : a = c := beq_iff_eq.mp h
    rw [he, hc] at ha
    exact absurd ha (by simp)

theorem scanStep_mono {go go2 : Bool → List Char → Except (List Char) (List Token)}
    (hg : ∀ b cs ts, go b cs = Except.ok ts → go2 b cs = Except.ok ts) :
    ∀ b cs ts, scanStep go b cs = Except.ok ts → scanStep go2 b cs = Except.ok ts := by
  intro b cs ts h
  cases cs with
  | nil => exact h
  | cons c rest =>
    simp only [scanStep] at h ⊢
    by_cases hsp : isSpaceTab c = true
    · rw [if_pos hsp] at h ⊢
      exact hg _ _ _ h
    · rw [if_neg hsp] at h ⊢
      cases hkw : findKw b (c :: rest) with
      | some k =>
        simp only [hkw] at h ⊢
        cases hs : go true ((c :: rest).drop k.length) with
        | error m => rw [hs] at h; exact absurd h (by simp [Except.map])
        | ok ts2 => rw [hs] at h; rw [hg _ _ _ hs]; exact h
      | none =>
        simp only [hkw] at h ⊢
        cases htw : findTwo (c :: rest) with
        | some k =>
          simp only [htw] at h ⊢
          cases hs : go false ((c :: rest).drop k.length) with
          | error m => rw [hs] at h; exact absurd h (by simp [Except.map])
          | ok ts2 => rw [hs] at h; rw [hg _ _ _ hs]; exact h
        | none =>
          simp only [htw] at h ⊢
          by_cases hone : oneCharOps.contains c = true
          · rw [if_pos hone] at h ⊢
            cases hs : go false rest with
            | error m => rw [hs] at h; exact absurd h (by simp [Except.map])
            | ok ts2 => rw [hs] at h; rw [hg _ _ _ hs]; exact h
          · rw [if_neg hone] at h ⊢
            by_cases hdig : c.isDigit = true
            · rw [if_pos hdig] at h ⊢
              cases hs : go (chunkEndsWord (numMunch (c :: rest)).1 false)
                  (numMunch (c :: rest)).2 with
              | error m => rw [hs] at h; exact absurd h (by simp [Except.map])
              | ok ts2 => rw [hs] at h; rw [hg _ _ _ hs]; exact h
            · rw [if_neg hdig] at h ⊢
              by_cases hal : (c.isAlpha || c == '_') = true
              · rw [if_pos hal] at h ⊢
                cases hs : go true ((c :: rest).dropWhile isWordChar) with
                | error m => rw [hs] at h; exact absurd h (by simp [Except.map])
                | ok ts2 => rw [hs] at h; rw [hg _ _ _ hs]; exact h
              · rw [if_neg hal] at h ⊢
                by_cases hcm : (c == ',') = true
                · rw [if_pos hcm] at h ⊢
                  cases hs : go false rest with
                  | error m => rw [hs] at h; exact absurd h (by simp [Except.map])
                  | ok ts2 => rw [hs] at h; rw [hg _ _ _ hs]; exact h
                · rw [if_neg hcm] at h ⊢
                  by_cases hnl : c = '\n'
                  · rw [if_pos hnl] at h ⊢
                    exact hg _ _ _ h
                  · rw [if_neg hnl] at h ⊢
                    exact h

theorem scanTok_succ_mono :
    ∀ f b cs ts, scanTok f b cs = Except.ok ts → scanTok (f + 1) b cs = Except.ok ts := by
  intro f
  induction f with
  | zero =>
    intro b cs ts h
    cases cs with
    | nil => simp only [scanTok] at h; simp only [scanTok, scanStep]; exact h
    | cons c rest => exact absurd h (by simp [scanTok])
  | succ f ih =>
    intro b cs ts h
    show scanStep (scanTok (f + 1)) b cs = Except.ok ts
    exact scanStep_mono ih b cs ts h

theorem scanTok_mono {f g : Nat} (hfg : f ≤ g) :
    ∀ b cs ts, scanTok f b cs = Except.ok ts → scanTok g b cs = Except.ok ts := by
  induction g with
  | zero =>
    intro b cs ts h
    have : f = 0 := Nat.le_zero.mp hfg
    rw [this] at h
    exact h
  | succ g ih =>
    intro b cs ts h
    rcases Nat.lt_or_ge f (g + 1) with hlt | hge
    · exact scanTok_succ_mono g b cs ts (ih (Nat.lt_succ_iff.mp hlt) b cs ts h)
    · have : f = g + 1 := Nat.le_antisymm hfg hge
      rw [this] at h
      exact h

/-- Characters that may legally follow a rendered fragment: the formatter
only ever continues with a space, a closing parenthesis, a comma (always
followed by a space), or an opening parenthesis. -/

theorem scanTok_nil (F : Nat) (b : Bool) : scanTok F b [] = Except.ok [] := by
  cases F with
  | zero => rfl
  | succ F => rfl

theorem isWordChar_not_space {c : Char} (h : isWordChar c = true) :
    isSpaceTab c = false := by
  cases hs : isSpaceTab c with
  | false => rfl
  | true =>
    exfalso
    rcases Bool.or_eq_true_iff.mp hs with h2 | h2
    · rw [beq_iff_eq.mp h2] at h
      exact absurd h (by decide)
    · rw [beq_iff_eq.mp h2] at h
      exact absurd h (by decide)

theorem isDigit_word {c : Char} (h : c.isDigit = true) : isWordChar c = true := by
  simp [isWordChar, h]

theorem alpha_word {c : Char} (h : (c.isAlpha || c == '_') = true) :
    isWordChar c = true := by
  rcases Bool.or_eq_true_iff.mp h with h2 | h2 <;> simp [isWordChar, h2]

theorem safe_head_nonword {c : Char} (h : c = ' ' ∨ c = ')' ∨ c = ',' ∨ c = '(') :
    isWordChar c = false := by
  rcases h with rfl | rfl | rfl | rfl <;> decide

theorem findKw_none_of_nonword {b : Bool} {c : Char} {rest : List Char}
    (hc : isWordChar c = false) : findKw b (c :: rest) = none := by
  cases b with
  | true => simp [findKw]
  | false =>
    have h1 : ('a' == c) = false := beq_false_right (by decide) hc
    have h2 : ('o' == c) = false := beq_false_right (by decide) hc
    have h3 : ('n' == c) = false := beq_false_right (by decide) hc
    have h4 : ('i' == c) = false := beq_false_right (by decide) hc
    simp [findKw, kwords, str, List.find?, List.isPrefixOf, h1, h2, h3, h4]

/-- On a rest whose head is a safe character, the scan does not depend on
the incoming word-boundary flag. -/

theorem scanTok_flag_safe {rs : List Char} (h : SafeRest rs) (F : Nat) (b : Bool) :
    scanTok F b rs = scanTok F false rs := by
  cases rs with
  | nil => rw [scanTok_nil, scanTok_nil]
  | cons c rs2 =>
    cases F with
    | zero => rfl
    | succ F =>
      show scanStep (scanTok F) b (c :: rs2) = scanStep (scanTok F) false (c :: rs2)
      have hc : isWordChar c = false := safe_head_nonword h
      by_cases hsp : isSpaceTab c = true
      · simp only [scanStep, if_pos hsp]
      · simp only [scanStep, if_neg hsp,
          @findKw_none_of_nonword b c rs2 hc,
          @findKw_none_of_nonword false c rs2 hc]

/-- The text shape of an `ID` token: nonempty, head `[A-Za-z_]`, all word
characters. -/

theorem takeWhile_all_append {p : Char → Bool} :
    ∀ (n rs : List Char), (∀ x ∈ n, p x = true) →
      (∀ c2 rs2, rs = c2 :: rs2 → p c2 = false) →
      (n ++ rs).takeWhile p = n ∧ (n ++ rs).dropWhile p = rs := by
  intro n
  induction n with
  | nil =>
    intro rs hn hr
    cases rs with
    | nil => simp
    | cons c rs2 =>
      simp only [List.nil_append]
      constructor
      · rw [List.takeWhile_cons_of_neg]
        simp [hr c rs2 rfl]
      · rw [List.dropWhile_cons_of_neg]
        simp [hr c rs2 rfl]
  | cons a n2 ih =>
    intro rs hn hr
    have ha : p a = true := hn a (by simp)
    have h2 := ih rs (fun x hx => hn x (by simp [hx])) hr
    constructor
    · simp only [List.cons_append, List.takeWhile_cons_of_pos ha, h2.1]
    · simp only [List.cons_append, List.dropWhile_cons_of_pos ha, h2.2]

/-- A keyword (nonempty, all word characters) never matches with both
boundaries at the start of `n ++ rs` when `n` is an all-word text distinct
from it and `rs` starts safely. -/

theorem kw_prefix_fail :
    ∀ (n k rs : List Char), (∀ x ∈ k, isWordChar x = true) → k ≠ [] →
      (∀ x ∈ n, isWordChar x = true) → n ≠ k → SafeRest rs →
      (List.isPrefixOf k (n ++ rs) &&
        (match (n ++ rs).drop k.length with
         | [] => true
         | c :: _ => !(isWordChar c))) = false := by
  intro n
  induction n with
  | nil =>
    intro k rs hk hk0 hn hne hrs
    cases k with
    | nil => exact absurd rfl hk0
    | cons k0 k2 =>
      cases rs with
      | nil => simp [List.isPrefixOf]
      | cons c rs2 =>
        have hc : isWordChar c = false := safe_head_nonword hrs
        have hk0w : isWordChar k0 = true := hk k0 (by simp)
        have : (k0 == c) = false := beq_false_right hk0w hc
        simp [List.isPrefixOf, this]
  | cons a n2 ih =>
    intro k rs hk hk0 hn hne hrs
    cases k with
    | nil => exact absurd rfl hk0
    | cons k0 k2 =>
      by_cases hka : (k0 == a) = true
      · have hae : k0 = a := beq_iff_eq.mp hka
        subst hae
        cases k2 with
        | nil =>
          cases n2 with
          | nil => exact absurd rfl hne
          | cons b n3 =>
            have hb : isWordChar b = true := hn b (by simp)
            simp [List.isPrefixOf, hka, List.drop, hb]
        | cons k1 k3 =>
          have h2 := ih (k1 :: k3) rs (fun x hx => hk x (by simp [hx]))
            (by simp) (fun x hx => hn x (by simp [hx]))
            (by intro he; rw [he] at hne; exact hne rfl) hrs
          simp only [List.cons_append, List.isPrefixOf, hka, Bool.true_and,
            List.length_cons, List.drop_succ_cons]
          exact h2
      · simp [List.isPrefixOf, List.cons_append, hka]

theorem findKw_none_of_id {n rs : List Char} (hn : IdText n) (hnk : n ∉ kwords)
    (hrs : SafeRest rs) : findKw false (n ++ rs) = none := by
  simp only [findKw, if_neg (by simp : ¬(false = true))]
  rw [List.find?_eq_none]
  intro k hkmem
  have hkw : ∀ x ∈ k, isWordChar x = true := by
    intro x hx
    have : ∀ k2 ∈ kwords, ∀ x2 ∈ k2, isWordChar x2 = true := by decide
    exact this k hkmem x hx
  have hk0 : k ≠ [] := by
    have : ∀ k2 ∈ kwords, k2 ≠ [] := by decide
    exact this k hkmem
  have hword : ∀ x ∈ n, isWordChar x = true := by
    match n, hn with
    | c :: n2, ⟨h1, h2⟩ => exact h2
  have hne : n ≠ k := fun he => hnk (he ▸ hkmem)
  intro hp
  have := kw_prefix_fail n k rs hkw hk0 hword hne hrs
  rw [hp] at this
  exact absurd this (by simp)

theorem oneCharOps_no_word {c : Char} (h : isWordChar c = true) :
    oneCharOps.contains c = false := by
  cases hc : oneCharOps.contains c with
  | false => rfl
  | true =>
    exfalso
    have hmem : c ∈ oneCharOps := List.contains_iff_exists_mem_beq.mp hc |>.elim
      (fun a ha => by
        have : c = a := beq_iff_eq.mp ha.2
        rw [this]; exact ha.1)
    have : ∀ x ∈ oneCharOps, isWordChar x = false := by decide
    rw [this c hmem] at h
    exact absurd h (by simp)

theorem findTwo_none_of_word {c : Char} {rest : List Char}
    (hc : isWordChar c = true) : findTwo (c :: rest) = none := by
  have h1 : ('=' == c) = false := beq_false_left (by decide) hc
  have h2 : ('!' == c) = false := beq_false_left (by decide) hc
  have h3 : ('<' == c) = false := beq_false_left (by decide) hc
  have h4 : ('>' == c) = false := beq_false_left (by decide) hc
  have h5 : ('*' == c) = false := beq_false_left (by decide) hc
  simp [findTwo, twoCharOps, str, List.find?, List.isPrefixOf, h1, h2, h3, h4, h5]

theorem alpha_not_digit {c : Char} (h : (c.isAlpha || c == '_') = true) :
    c.isDigit = false := by
  cases hd : c.isDigit with
  | false => rfl
  | true =>
    exfalso
    rcases Bool.or_eq_true_iff.mp h with h2 | h2
    · simp only [Char.isDigit, Bool.and_eq_true, decide_eq_true_eq] at hd
      simp only [Char.isAlpha, Char.isUpper, Char.isLower, Bool.or_eq_true,
        Bool.and_eq_true, decide_eq_true_eq] at h2
      rcases h2 with ⟨ha, hb⟩ | ⟨ha, hb⟩
      · have h3 : (65 : UInt32).toNat ≤ c.val.toNat := ha
        have h4 : c.val.toNat ≤ (57 : UInt32).toNat := hd.2
        have h5 := Nat.le_trans h3 h4
        exact absurd h5 (by decide)
      · have h3 : (97 : UInt32).toNat ≤ c.val.toNat := ha
        have h4 : c.val.toNat ≤ (57 : UInt32).toNat := hd.2
        have h5 := Nat.le_trans h3 h4
        exact absurd h5 (by decide)
    · rw [beq_iff_eq.mp h2] at hd
      exact absurd hd (by decide)

theorem scan_lparen (F : Nat) (b : Bool) (rs : List Char) :
    scanTok (F + 1) b ('(' :: rs) =
      (scanTok F false rs).map (fun ts => (TK.OP, str "(") :: ts) := by
  show scanStep (scanTok F) b ('(' :: rs) = _
  rw [scanStep]
  rw [@findKw_none_of_nonword b '(' rs (by decide)]
  simp [isSpaceTab, findTwo, twoCharOps, str, List.find?, List.isPrefixOf, oneCharOps]

theorem scan_rparen (F : Nat) (b : Bool) (rs : List Char) :
    scanTok (F + 1) b (')' :: rs) =
      (scanTok F false rs).map (fun ts => (TK.OP, str ")") :: ts) := by
  show scanStep (scanTok F) b (')' :: rs) = _
  rw [scanStep]
  rw [@findKw_none_of_nonword b ')' rs (by decide)]
  simp [isSpaceTab, findTwo, twoCharOps, str, List.find?, List.isPrefixOf, oneCharOps]

theorem scan_comma (F : Nat) (b : Bool) (rs : List Char) :
    scanTok (F + 1) b (',' :: rs) =
      (scanTok F false rs).map (fun ts => (TK.COMMA, str ",") :: ts) := by
  show scanStep (scanTok F) b (',' :: rs) = _
  rw [scanStep]
  rw [@findKw_none_of_nonword b ',' rs (by decide)]
  simp [isSpaceTab, findTwo, twoCharOps, str, List.find?, List.isPrefixOf,
    oneCharOps, Char.isDigit, Char.isAlpha, Char.isUpper, Char.isLower]

theorem scan_space (F : Nat) (b : Bool) {rs : List Char}
    (h : ∀ c t, rs = c :: t → isSpaceTab c = false) :
    scanTok (F + 1) b (' ' :: rs) = scanTok F false rs := by
  show scanStep (scanTok F) b (' ' :: rs) = _
  rw [scanStep]
  rw [if_pos (by decide : isSpaceTab ' ' = true)]
  rw [List.dropWhile_cons_of_pos (by decide : isSpaceTab ' ' = true)]
  congr 1
  cases rs with
  | nil => rfl
  | cons c rs2 =>
    exact List.dropWhile_cons_of_neg (by simp [h c rs2 rfl])

theorem safeRest_head_not_digit {rs : List Char} (h : SafeRest rs) :
    ∀ c2 rs2, rs = c2 :: rs2 → c2.isDigit = false := by
  intro c2 rs2 he
  subst he
  rcases h with rfl | rfl | rfl | rfl <;> decide

theorem safeRest_head_not_word {rs : List Char} (h : SafeRest rs) :
    ∀ c2 rs2, rs = c2 :: rs2 → isWordChar c2 = false := by
  intro c2 rs2 he
  subst he
  exact safe_head_nonword h

theorem numMunch_exact {v rs : List Char} (hv : NumText v) (hrs : SafeRest rs) :
    numMunch (v ++ rs) = (v, rs) := by
  obtain ⟨ds, tl, rfl, hds0, hdsd, htl⟩ := hv
  rcases htl with rfl | ⟨ds2, rfl, hds2⟩
  · simp only [List.append_nil]
    have htk := takeWhile_all_append ds rs hdsd (safeRest_head_not_digit hrs)
    simp only [numMunch, htk.1, htk.2]
    cases rs with
    | nil => simp
    | cons c rs2 =>
      have hc : ¬((c :: rs2).head? = some '.') := by
        rcases hrs with rfl | rfl | rfl | rfl <;> simp
      rw [if_neg hc]
  · have hassoc : (ds ++ '.' :: ds2) ++ rs = ds ++ ('.' :: (ds2 ++ rs)) := by simp
    rw [hassoc]
    have htk := takeWhile_all_append ds ('.' :: (ds2 ++ rs)) hdsd (by intro c2 rs2 he; injection he with h1 h2; subst h1; decide)
    have htk2 := takeWhile_all_append ds2 rs hds2 (safeRest_head_not_digit hrs)
    simp only [numMunch, htk.1, htk.2, List.head?, List.tail, if_pos rfl,
      htk2.1, htk2.2]
    simp

theorem findKw_none_of_digit {c : Char} {rest : List Char} (hc : c.isDigit = true) :
    findKw false (c :: rest) = none := by
  have h1 : ('a' == c) = false := beq_false_left (by decide) hc
  have h2 : ('o' == c) = false := beq_false_left (by decide) hc
  have h3 : ('n' == c) = false := beq_false_left (by decide) hc
  have h4 : ('i' == c) = false := beq_false_left (by decide) hc
  simp [findKw, kwords, str, List.find?, List.isPrefixOf, h1, h2, h3, h4]

theorem scan_num_step {v rs : List Char} (hv : NumText v) (hrs : SafeRest rs) (F : Nat) :
    scanTok (F + 1) false (v ++ rs) =
      (scanTok F (chunkEndsWord v false) rs).map (fun ts => (TK.NUMBER, v) :: ts) := by
  obtain ⟨ds, tl, he, hds0, hdsd, htl⟩ := hv
  match ds, hds0 with
  | d :: ds', _ =>
    have hd : d.isDigit = true := hdsd d (by simp)
    have hvcons : v ++ rs = d :: ((ds' ++ tl) ++ rs) := by simp [he]
    rw [hvcons]
    show scanStep (scanTok F) false (d :: ((ds' ++ tl) ++ rs)) = _
    rw [scanStep]
    rw [if_neg (by rw [isWordChar_not_space (isDigit_word hd)]; simp)]
    rw [findKw_none_of_digit hd]
    rw [findTwo_none_of_word (isDigit_word hd)]
    rw [if_neg (by rw [oneCharOps_no_word (isDigit_word hd)]; simp)]
    rw [if_pos hd]
    have hmm : numMunch (d :: ((ds' ++ tl) ++ rs)) = (v, rs) := by
      rw [show d :: ((ds' ++ tl) ++ rs) = v ++ rs by simp [he]]
      exact numMunch_exact ⟨d :: ds', tl, he, by simp, hdsd, htl⟩ hrs
    rw [hmm]

theorem scan_id_step {n rs : List Char} (hn : IdText n) (hnk : n ∉ kwords)
    (hrs : SafeRest rs) (F : Nat) :
    scanTok (F + 1) false (n ++ rs) =
      (scanTok F true rs).map (fun ts => (TK.ID, n) :: ts) := by
  match n, hn with
  | c :: n2, ⟨hca, hall⟩ =>
    have hw : isWordChar c = true := alpha_word hca
    have htk := takeWhile_all_append (c :: n2) rs hall (safeRest_head_not_word hrs)
    show scanStep (scanTok F) false ((c :: n2) ++ rs) = _
    rw [show (c :: n2) ++ rs = c :: (n2 ++ rs) from rfl]
    rw [scanStep]
    rw [if_neg (by rw [isWordChar_not_space hw]; simp)]
    have hid : IdText (c :: n2) := ⟨hca, hall⟩
    rw [show c :: (n2 ++ rs) = (c :: n2) ++ rs from rfl,
      findKw_none_of_id hid hnk hrs]
    rw [show (c :: n2) ++ rs = c :: (n2 ++ rs) from rfl]
    rw [findTwo_none_of_word hw]
    rw [if_neg (by rw [oneCharOps_no_word hw]; simp)]
    rw [if_neg (by rw [alpha_not_digit hca]; simp)]
    rw [if_pos hca]
    rw [show c :: (n2 ++ rs) = (c :: n2) ++ rs from rfl, htk.1, htk.2]

theorem lookup_mem {α β : Type} [BEq α] :
    ∀ (l : List (α × β)) (a : α) (b : β), List.lookup a l = some b →
      ∃ a2, (a2, b) ∈ l ∧ (a == a2) = true := by
  intro l
  induction l with
  | nil => intro a b h; exact absurd h (by simp [List.lookup])
  | cons p l2 ih =>
    intro a b h
    rw [List.lookup] at h
    cases hab : (a == p.1) with
    | true =>
      simp only [hab] at h
      injection h with h2
      exact ⟨p.1, by rw [← h2]; simp, hab⟩
    | false =>
      simp only [hab] at h
      obtain ⟨a2, hm, hb⟩ := ih a b h
      exact ⟨a2, by simp [hm], hb⟩

theorem get_mem {op : List Char} {pa : Nat × Assoc}
    (h : OperatorMeta.get op = some pa) : (op, pa) ∈ OperatorMeta.OPERATORS := by
  obtain ⟨a2, hm, hb⟩ := lookup_mem OperatorMeta.OPERATORS op pa h
  have : op = a2 := by
    exact beq_iff_eq.mp hb
  rw [this]
  exact hm

/-- Composable scanning: `seg` scans to exactly `xt` in front of any
safely-headed continuation. -/

theorem op_table_cases {op : List Char} {pa : Nat × Assoc}
    (hm : (op, pa) ∈ OperatorMeta.OPERATORS) :
    op = str "or" ∨ op = str "and" ∨ op = str "not" ∨ op = str "==" ∨ op = str "!=" ∨ op = str "<" ∨ op = str ">" ∨ op = str "<=" ∨ op = str ">=" ∨ op = str "+" ∨ op = str "-" ∨ op = str "*" ∨ op = str "/" ∨ op = str "%" ∨ op = str "**" := by
  simp only [OperatorMeta.OPERATORS, List.mem_cons, List.not_mem_nil, or_false,
    Prod.mk.injEq] at hm
  rcases hm with ⟨h,-⟩|⟨h,-⟩|⟨h,-⟩|⟨h,-⟩|⟨h,-⟩|⟨h,-⟩|⟨h,-⟩|⟨h,-⟩|⟨h,-⟩|⟨h,-⟩|⟨h,-⟩|⟨h,-⟩|⟨h,-⟩|⟨h,-⟩|⟨h,-⟩ <;> simp [h]

theorem op_len_pos {op : List Char} {pa : Nat × Assoc}
    (hm : (op, pa) ∈ OperatorMeta.OPERATORS) : 1 ≤ op.length := by
  rcases op_table_cases hm with rfl|rfl|rfl|rfl|rfl|rfl|rfl|rfl|rfl|rfl|rfl|rfl|rfl|rfl|rfl <;> decide

theorem op_goodhead {op : List Char} {pa : Nat × Assoc}
    (hm : (op, pa) ∈ OperatorMeta.OPERATORS) : GoodHead op := by
  rcases op_table_cases hm with rfl|rfl|rfl|rfl|rfl|rfl|rfl|rfl|rfl|rfl|rfl|rfl|rfl|rfl|rfl <;>
    exact ⟨_, _, rfl, by decide⟩


/-- Scanning a registered operator followed by a space emits a single `OP`
token and continues after the space with a cleared boundary flag. -/

theorem scan_op_sp {op : List Char} {pa : Nat × Assoc}
    (hm : (op, pa) ∈ OperatorMeta.OPERATORS) (N : Nat) {rs : List Char}
    (h : ∀ c t, rs = c :: t → isSpaceTab c = false) :
    scanTok (N + 2) false (op ++ ' ' :: rs) =
      (scanTok N false rs).map (fun ts => (TK.OP, op) :: ts) := by
  rcases op_table_cases hm with rfl|rfl|rfl|rfl|rfl|rfl|rfl|rfl|rfl|rfl|rfl|rfl|rfl|rfl|rfl
  · have h1 : scanTok (N + 2) false (str "or" ++ ' ' :: rs) =
        (scanTok (N + 1) true (' ' :: rs)).map (fun ts => (TK.OP, str "or") :: ts) := rfl
    rw [h1, scan_space N true h]
  · have h1 : scanTok (N + 2) false (str "and" ++ ' ' :: rs) =
        (scanTok (N + 1) true (' ' :: rs)).map (fun ts => (TK.OP, str "and") :: ts) := rfl
    rw [h1, scan_space N true h]
  · have h1 : scanTok (N + 2) false (str "not" ++ ' ' :: rs) =
        (scanTok (N + 1) true (' ' :: rs)).map (fun ts => (TK.OP, str "not") :: ts) := rfl
    rw [h1, scan_space N true h]
  · have h1 : scanTok (N + 2) false (str "==" ++ ' ' :: rs) =
        (scanTok (N + 1) false (' ' :: rs)).map (fun ts => (TK.OP, str "==") :: ts) := rfl
    rw [h1, scan_space N false h]
  · have h1 : scanTok (N + 2) false (str "!=" ++ ' ' :: rs) =
        (scanTok (N + 1) false (' ' :: rs)).map (fun ts => (TK.OP, str "!=") :: ts) := rfl
    rw [h1, scan_space N false h]
  · have h1 : scanTok (N + 2) false (str "<" ++ ' ' :: rs) =
        (scanTok (N + 1) false (' ' :: rs)).map (fun ts => (TK.OP, str "<") :: ts) := rfl
    rw [h1, scan_space N false h]
  · have h1 : scanTok (N + 2) false (str ">" ++ ' ' :: rs) =
        (scanTok (N + 1) false (' ' :: rs)).map (fun ts => (TK.OP, str ">") :: ts) := rfl
    rw [h1, scan_space N false h]
  · have h1 : scanTok (N + 2) false (str "<=" ++ ' ' :: rs) =
        (scanTok (N + 1) false (' ' :: rs)).map (fun ts => (TK.OP, str "<=") :: ts) := rfl
    rw [h1, scan_space N false h]
  · have h1 : scanTok (N + 2) false (str ">=" ++ ' ' :: rs) =
        (scanTok (N + 1) false (' ' :: rs)).map (fun ts => (TK.OP, str ">=") :: ts) := rfl
    rw [h1, scan_space N false h]
  · have h1 : scanTok (N + 2) false (str "+" ++ ' ' :: rs) =
        (scanTok (N + 1) false (' ' :: rs)).map (fun ts => (TK.OP, str "+") :: ts) := rfl
    rw [h1, scan_space N false h]
  · have h1 : scanTok (N + 2) false (str "-" ++ ' ' :: rs) =
        (scanTok (N + 1) false (' ' :: rs)).map (fun ts => (TK.OP, str "-") :: ts) := rfl
    rw [h1, scan_space N false h]
  · have h1 : scanTok (N + 2) false (str "*" ++ ' ' :: rs) =
        (scanTok (N + 1) false (' ' :: rs)).map (fun ts => (TK.OP, str "*") :: ts) := rfl
    rw [h1, scan_space N false h]
  · have h1 : scanTok (N + 2) false (str "/" ++ ' ' :: rs) =
        (scanTok (N + 1) false (' ' :: rs)).map (fun ts => (TK.OP, str "/") :: ts) := rfl
    rw [h1, scan_space N false h]
  · have h1 : scanTok (N + 2) false (str "%" ++ ' ' :: rs) =
        (scanTok (N + 1) false (' ' :: rs)).map (fun ts => (TK.OP, str "%") :: ts) := rfl
    rw [h1, scan_space N false h]
  · have h1 : scanTok (N + 2) false (str "**" ++ ' ' :: rs) =
        (scanTok (N + 1) false (' ' :: rs)).map (fun ts => (TK.OP, str "**") :: ts) := rfl
    rw [h1, scan_space N false h]

/-- The unary-minus step: `-` scans as a one-character operator in front of
any continuation. -/

theorem scan_dash (F : Nat) (rs : List Char) :
    scanTok (F + 1) false ('-' :: rs) =
      (scanTok F false rs).map (fun ts => (TK.OP, str "-") :: ts) := rfl

/-- Fuel-slack form of `RScan`. -/

theorem RScan_le {seg : List Char} {xt : List Token} (h : RScan seg xt)
    {rs : List Char} {F G : Nat} {ts' : List Token} (hrs : SafeRest rs)
    (hok : scanTok F false rs = Except.ok ts') (hle : seg.length + F ≤ G) :
    scanTok G false (seg ++ rs) = Except.ok (xt ++ ts') :=
  scanTok_mono hle false (seg ++ rs) (xt ++ ts') (h rs F ts' hrs hok)

/-- An identifier that is not a keyword scans as a single `ID` token. -/

theorem RScan_id {n : List Char} (hn : IdText n) (hnk : n ∉ kwords) :
    RScan n [(TK.ID, n)] := by
  intro rs F ts' hrs hok
  have hlen : 1 ≤ n.length := by
    match n, hn with
    | c :: n2, _ => simp
  have h1 := scan_id_step hn hnk hrs (n.length - 1 + F)
  rw [show n.length - 1 + F + 1 = n.length + F by omega] at h1
  rw [h1, scanTok_flag_safe hrs (n.length - 1 + F) true,
    scanTok_mono (by omega : F ≤ n.length - 1 + F) false rs ts' hok]
  rfl

/-- A numeric literal scans as a single `NUMBER` token. -/

theorem RScan_num {v : List Char} (hv : NumText v) : RScan v [(TK.NUMBER, v)] := by
  intro rs F ts' hrs hok
  have hlen : 1 ≤ v.length := by
    obtain ⟨ds, tl, rfl, hds0, -, -⟩ := hv
    match ds, hds0 with
    | d :: ds2, _ => simp only [List.length_append, List.length_cons]; omega
  have h1 := scan_num_step hv hrs (v.length - 1 + F)
  rw [show v.length - 1 + F + 1 = v.length + F by omega] at h1
  rw [h1, scanTok_flag_safe hrs (v.length - 1 + F) (chunkEndsWord v false),
    scanTok_mono (by omega : F ≤ v.length - 1 + F) false rs ts' hok]
  rfl

/-- Wrapping a scannable fragment in parentheses. -/

theorem RScan_wrap {seg : List Char} {xt : List Token} (h : RScan seg xt) :
    RScan ('(' :: (seg ++ [')'])) ((TK.OP, str "(") :: (xt ++ [(TK.OP, str ")")])) := by
  intro rs F ts' hrs hok
  have hin : scanTok (1 + F) false (')' :: rs) = Except.ok ((TK.OP, str ")") :: ts') := by
    rw [show 1 + F = F + 1 by omega, scan_rparen, hok]; rfl
  have hsafe : SafeRest (')' :: rs) := Or.inr (Or.inl rfl)
  have h2 := h (')' :: rs) (1 + F) ((TK.OP, str ")") :: ts') hsafe hin
  show scanTok (('(' :: (seg ++ [')'])).length + F) false
      (('(' :: (seg ++ [')'])) ++ rs) = _
  rw [show ('(' :: (seg ++ [')'])) ++ rs = '(' :: (seg ++ (')' :: rs)) by simp]
  rw [show ('(' :: (seg ++ [')'])).length + F = (seg.length + (1 + F)) + 1 by
    simp only [List.length_cons, List.length_append, List.length_nil]; omega]
  rw [scan_lparen, h2]
  simp [Except.map]

/-- Scanning the rendered form of a binary node: left fragment, spaces, the
operator, and the right fragment. -/

theorem RScan_binop {l r op : List Char} {xl xr : List Token} {pa : Nat × Assoc}
    (hm : (op, pa) ∈ OperatorMeta.OPERATORS)
    (hl : RScan l xl) (hr : RScan r xr) (hgr : GoodHead r) :
    RScan (l ++ ' ' :: (op ++ ' ' :: r)) (xl ++ (TK.OP, op) :: xr) := by
  intro rs F ts' hrs hok
  obtain ⟨c, t, rfl, hc⟩ := hgr
  obtain ⟨c0, op2, hoe, hc0⟩ := op_goodhead hm
  have hop1 : 1 ≤ op.length := op_len_pos hm
  have h3 : scanTok ((c :: t).length + F) false ((c :: t) ++ rs) = Except.ok (xr ++ ts') :=
    hr rs F ts' hrs hok
  have h2 : scanTok ((op.length - 1 + ((c :: t).length + F)) + 2) false
      (op ++ ' ' :: ((c :: t) ++ rs)) = Except.ok ((TK.OP, op) :: (xr ++ ts')) := by
    rw [scan_op_sp hm (op.length - 1 + ((c :: t).length + F))
      (by
        intro c2 t2 he2
        have he3 : c :: (t ++ rs) = c2 :: t2 := he2
        injection he3 with e1 e2
        rw [← e1]; exact hc)]
    rw [scanTok_mono (by omega : (c :: t).length + F ≤ op.length - 1 + ((c :: t).length + F))
      false ((c :: t) ++ rs) (xr ++ ts') h3]
    rfl
  have h1 : scanTok ((op.length - 1 + ((c :: t).length + F)) + 3) false
      (' ' :: (op ++ ' ' :: ((c :: t) ++ rs))) = Except.ok ((TK.OP, op) :: (xr ++ ts')) := by
    rw [show (op.length - 1 + ((c :: t).length + F)) + 3
        = ((op.length - 1 + ((c :: t).length + F)) + 2) + 1 by omega]
    rw [scan_space ((op.length - 1 + ((c :: t).length + F)) + 2) false
      (by
        intro c2 t2 he2
        rw [hoe] at he2
        have he3 : c0 :: (op2 ++ ' ' :: ((c :: t) ++ rs)) = c2 :: t2 := he2
        injection he3 with e1 e2
        rw [← e1]; exact hc0)]
    exact h2
  have hsafe : SafeRest (' ' :: (op ++ ' ' :: ((c :: t) ++ rs))) := Or.inl rfl
  have h0 := hl (' ' :: (op ++ ' ' :: ((c :: t) ++ rs)))
    ((op.length - 1 + ((c :: t).length + F)) + 3)
    ((TK.OP, op) :: (xr ++ ts')) hsafe h1
  rw [show (l ++ ' ' :: (op ++ ' ' :: (c :: t))) ++ rs
      = l ++ (' ' :: (op ++ ' ' :: ((c :: t) ++ rs))) by simp]
  rw [show (l ++ ' ' :: (op ++ ' ' :: (c :: t))).length + F
      = l.length + ((op.length - 1 + ((c :: t).length + F)) + 3) by
    simp only [List.length_append, List.length_cons]; omega]
  rw [h0]
  simp

/-- The rendered form of the `-` unary operator: `-(` fragment `)`. -/

theorem RScan_uminus {seg : List Char} {xt : List Token} (h : RScan seg xt) :
    RScan (str "-" ++ ('(' :: (seg ++ [')'])))
      ((TK.OP, str "-") :: ((TK.OP, str "(") :: (xt ++ [(TK.OP, str ")")]))) := by
  intro rs F ts' hrs hok
  have h2 := RScan_wrap h rs F ts' hrs hok
  show scanTok (('-' :: ('(' :: (seg ++ [')']))).length + F) false
      (('-' :: ('(' :: (seg ++ [')']))) ++ rs) = _
  simp only [List.length_cons, List.cons_append] at h2 ⊢
  rw [show (seg ++ [')']).length + 1 + 1 + F = ((seg ++ [')']).length + 1 + F) + 1 by omega]
  rw [scan_dash, h2]
  rfl

/-- The rendered form of a call head: the identifier, `(`, a fragment,
`)`. -/

theorem RScan_uname {n seg : List Char} {xt : List Token}
    (hn : IdText n) (hnk : n ∉ kwords) (h : RScan seg xt) :
    RScan (n ++ ('(' :: (seg ++ [')'])))
      ((TK.ID, n) :: ((TK.OP, str "(") :: (xt ++ [(TK.OP, str ")")]))) := by
  intro rs F ts' hrs hok
  have hlen : 1 ≤ n.length := by
    match n, hn with
    | c :: n2, _ => simp
  have h2 := RScan_wrap h rs F ts' hrs hok
  have hsafe : SafeRest (('(' :: (seg ++ [')'])) ++ rs) := by
    simp only [List.cons_append]
    exact Or.inr (Or.inr (Or.inr rfl))
  have h1 := scan_id_step hn hnk hsafe
    (n.length - 1 + (('(' :: (seg ++ [')'])).length + F))
  rw [show n.length - 1 + (('(' :: (seg ++ [')'])).length + F) + 1
      = n.length + (('(' :: (seg ++ [')'])).length + F) by omega] at h1
  rw [show (n ++ ('(' :: (seg ++ [')']))).length + F
      = n.length + (('(' :: (seg ++ [')'])).length + F) by
    simp only [List.length_append, List.length_cons, List.length_nil]; omega]
  rw [show (n ++ ('(' :: (seg ++ [')']))) ++ rs = n ++ (('(' :: (seg ++ [')'])) ++ rs) by simp]
  rw [h1, scanTok_flag_safe hsafe _ true]
  rw [scanTok_mono (by simp only [List.length_cons]; omega) false _ _ h2]
  rfl

/-- The token counterpart of `joinCommaSp`: argument token lists joined by
`COMMA` tokens. -/

theorem goodhead_append {a : List Char} (b : List Char) (h : GoodHead a) :
    GoodHead (a ++ b) := by
  obtain ⟨c, t, rfl, hc⟩ := h
  exact ⟨c, t ++ b, rfl, hc⟩

theorem goodhead_join {a : List Char} {L : List (List Char)} (h : GoodHead a) :
    GoodHead (joinCommaSp (a :: L)) := by
  cases L with
  | nil => exact h
  | cons b L2 => exact goodhead_append _ h

/-- Scanning a comma-and-space separated list of scannable fragments. -/

theorem RScan_join :
    ∀ (ps : List (List Char × List Token)),
      (∀ p ∈ ps, RScan p.1 p.2 ∧ GoodHead p.1) →
      RScan (joinCommaSp (ps.map Prod.fst)) (joinCommaToks (ps.map Prod.snd)) := by
  intro ps
  induction ps with
  | nil =>
    intro _ rs F ts' hrs hok
    simp only [List.map_nil, joinCommaSp, joinCommaToks, List.length_nil,
      List.nil_append, Nat.zero_add]
    exact hok
  | cons p ps2 ih =>
    intro hall
    cases ps2 with
    | nil =>
      simpa only [List.map_cons, List.map_nil, joinCommaSp, joinCommaToks]
        using (hall p (by simp)).1
    | cons q ps3 =>
      intro rs F ts' hrs hok
      obtain ⟨hp, hgp⟩ := hall p (by simp)
      have hih : RScan (joinCommaSp ((q :: ps3).map Prod.fst))
          (joinCommaToks ((q :: ps3).map Prod.snd)) :=
        ih (fun x hx => hall x (List.mem_cons_of_mem p hx))
      have hJ := hih rs F ts' hrs hok
      obtain ⟨c, t, hje, hc⟩ : GoodHead (joinCommaSp ((q :: ps3).map Prod.fst)) := by
        simp only [List.map_cons]
        exact goodhead_join (hall q (by simp)).2
      have hsp : scanTok ((joinCommaSp ((q :: ps3).map Prod.fst)).length + F + 1) false
          (' ' :: (joinCommaSp ((q :: ps3).map Prod.fst) ++ rs)) =
          Except.ok (joinCommaToks ((q :: ps3).map Prod.snd) ++ ts') := by
        rw [scan_space ((joinCommaSp ((q :: ps3).map Prod.fst)).length + F) false
          (by
            intro c2 t2 he2
            rw [hje, List.cons_append] at he2
            injection he2 with e1 e2
            rw [← e1]; exact hc)]
        exact hJ
      have hcm : scanTok ((joinCommaSp ((q :: ps3).map Prod.fst)).length + F + 1 + 1) false
          (',' :: (' ' :: (joinCommaSp ((q :: ps3).map Prod.fst) ++ rs))) =
          Except.ok ((TK.COMMA, str ",") ::
            (joinCommaToks ((q :: ps3).map Prod.snd) ++ ts')) := by
        rw [scan_comma, hsp]
        rfl
      have hsafe : SafeRest (',' :: (' ' :: (joinCommaSp ((q :: ps3).map Prod.fst) ++ rs))) :=
        Or.inr (Or.inr (Or.inl rfl))
      have h0 := hp (',' :: (' ' :: (joinCommaSp ((q :: ps3).map Prod.fst) ++ rs)))
        ((joinCommaSp ((q :: ps3).map Prod.fst)).length + F + 1 + 1)
        ((TK.COMMA, str ",") :: (joinCommaToks ((q :: ps3).map Prod.snd) ++ ts'))
        hsafe hcm
      simp only [List.map_cons, joinCommaSp, joinCommaToks]
      rw [show (p.1 ++ ',' :: ' ' :: joinCommaSp (q.1 :: ps3.map Prod.fst)) ++ rs
          = p.1 ++ (',' :: (' ' :: (joinCommaSp (q.1 :: ps3.map Prod.fst) ++ rs))) by simp]
      rw [show (p.1 ++ ',' :: ' ' :: joinCommaSp (q.1 :: ps3.map Prod.fst)).length + F
          = p.1.length + ((joinCommaSp (q.1 :: ps3.map Prod.fst)).length + F + 1 + 1) by
        simp only [List.length_append, List.length_cons]; omega]
      rw [show (joinCommaSp ((q :: ps3).map Prod.fst)) = joinCommaSp (q.1 :: ps3.map Prod.fst)
          from by simp only [List.map_cons]] at h0
      rw [show (joinCommaToks ((q :: ps3).map Prod.snd)) = joinCommaToks (q.2 :: ps3.map Prod.snd)
          from by simp only [List.map_cons]] at h0
      rw [h0]
      simp

/-- Scanning a rendered call: identifier, `(`, comma-separated argument
fragments, `)`. -/

theorem RScan_call {n : List Char} {ps : List (List Char × List Token)}
    (hn : IdText n) (hnk : n ∉ kwords)
    (hps : ∀ p ∈ ps, RScan p.1 p.2 ∧ GoodHead p.1) :
    RScan (n ++ ('(' :: (joinCommaSp (ps.map Prod.fst) ++ [')'])))
      ((TK.ID, n) :: ((TK.OP, str "(") ::
        (joinCommaToks (ps.map Prod.snd) ++ [(TK.OP, str ")")]))) :=
  RScan_uname hn hnk (RScan_join ps hps)

-- === Phase C: re-parsing rendered token streams ===

/-- The continuation never begins with a `(`-valued token, so an
identifier just before it is not mistaken for a call head. -/

theorem stopper_nil (m : Nat) : Stopper m [] := by
  intro t r2 he
  exact absurd he (by simp)

theorem stopper_of_head_not_op {m : Nat} {t : Token} {r : List Token}
    (h : ¬ t.1 = TK.OP) : Stopper m (t :: r) := by
  intro t2 r2 he hop
  injection he with e1 e2
  rw [← e1] at hop
  exact absurd hop h

theorem stopper_of_get_none {m : Nat} {t : Token} {r : List Token}
    (h : OperatorMeta.get t.2 = none) : Stopper m (t :: r) := by
  intro t2 r2 he hop pa hg
  injection he with e1 e2
  rw [← e1] at hg
  rw [h] at hg
  exact Option.noConfusion hg

theorem stopper_of_lt {m : Nat} {t : Token} {r : List Token} {pa : Nat × Assoc}
    (hg : OperatorMeta.get t.2 = some pa) (h : pa.1 < m) : Stopper m (t :: r) := by
  intro t2 r2 he hop pa2 hg2
  injection he with e1 e2
  rw [← e1] at hg2
  rw [hg] at hg2
  injection hg2 with e3
  rw [← e3]
  exact h

theorem notlparen_nil : NotLParen [] := by
  intro t r2 he
  exact absurd he (by simp)

theorem notlparen_cons {t : Token} {r : List Token} (h : ¬ t.2 = str "(") :
    NotLParen (t :: r) := by
  intro t2 r2 he
  injection he with e1 e2
  rw [← e1]
  exact h

theorem get_rparen_none : OperatorMeta.get (str ")") = none := rfl

theorem expectTok_rparen (r : List Token) :
    expectTok TK.OP (str ")") ((TK.OP, str ")") :: r) = Except.ok r := rfl

/-- With a stopper at the head, the operator loop returns its accumulator
unchanged. -/

theorem loop_stop (pe : Nat → List Token → Except (List Char) (Expr × List Token))
    {m : Nat} {rest : List Token} (hs : Stopper m rest) (f : Nat) (n : Expr) :
    parseLoopWith pe (f + 1) m n rest = Except.ok (n, rest) := by
  cases rest with
  | nil => rfl
  | cons t r2 =>
    obtain ⟨k, v⟩ := t
    cases k with
    | OP =>
      show parseLoopWith pe (f + 1) m n ((TK.OP, v) :: r2) = _
      simp only [parseLoopWith, currentTok]
      cases hg : OperatorMeta.get v with
      | none => rfl
      | some pa =>
        obtain ⟨prec, assoc⟩ := pa
        have hlt : prec < m := hs (TK.OP, v) r2 rfl rfl (prec, assoc) hg
        simp only [if_pos hlt]
    | NUMBER => rfl
    | ID => rfl
    | COMMA => rfl
    | EOF => rfl

/-- A primary unit followed by a stopper is a full expression unit at any
minimum precedence. -/

theorem prim_to_exprF {e : Expr} {xt : List Token} (h : PrimTok e xt) :
    ∀ F m rest, Stopper m rest → NotLParen rest → xt.length + rest.length + 3 ≤ F →
      parseExprF F m (xt ++ rest) = Except.ok (e, rest) := by
  intro F m rest hs hnl hF
  match F, hF with
  | Nat.succ F', hF =>
    have h1 := h F' F' rest hnl (by omega) (by omega)
    simp only [parseExprF]
    rw [h1]
    show parseLoopWith (fun mp ts => parseExprF F' mp ts) F' m e rest = _
    match F', hF with
    | Nat.succ f, _ => exact loop_stop _ hs f e

theorem prim_arg {e : Expr} {xt : List Token} (h : PrimTok e xt) : ArgSem e xt := by
  intro F rest hs hnl hF
  exact prim_to_exprF h F 1 rest hs hnl hF

theorem exprSem_arg {e : Expr} {p : Nat} {xt : List Token} (hp : 1 ≤ p)
    (h : ExprSem e p xt) : ArgSem e xt := by
  intro F rest hs hnl hF
  exact h F 1 rest hp hs hnl hF

/-- A `NUMBER` token is a primary. -/

theorem prim_value {v : List Char} : PrimTok (Expr.Value v) [(TK.NUMBER, v)] := by
  intro F fp rest hnl hfp hF
  match fp, hfp with
  | Nat.succ f, _ => rfl

/-- An `ID` token not followed by `(` is a variable primary. -/

theorem prim_var {n : List Char} : PrimTok (Expr.Variable n) [(TK.ID, n)] := by
  intro F fp rest hnl hfp hF
  match fp, hfp with
  | Nat.succ f, _ =>
    cases rest with
    | nil => rfl
    | cons t r2 =>
      show parsePrimaryWith (fun mp ts => parseExprF F mp ts) (Nat.succ f)
        ((TK.ID, n) :: (t :: r2)) = _
      simp only [parsePrimaryWith, currentTok, List.drop]
      rw [if_neg (hnl t r2 rfl)]

/-- A parenthesized full expression is a primary. -/

theorem prim_wrap {e : Expr} {xt : List Token} {p : Nat}
    (hp1 : 1 ≤ p) (hsem : ExprSem e p xt) :
    PrimTok e ((TK.OP, str "(") :: (xt ++ [(TK.OP, str ")")])) := by
  intro F fp rest hnl hfp hF
  match fp, hfp with
  | Nat.succ f, hfp =>
    have hstop : Stopper 1 ((TK.OP, str ")") :: rest) :=
      stopper_of_get_none get_rparen_none
    have hnl2 : NotLParen ((TK.OP, str ")") :: rest) :=
      notlparen_cons (by decide)
    have hin := hsem F 1 ((TK.OP, str ")") :: rest) hp1 hstop hnl2
      (by simp only [List.length_cons, List.length_append, List.length_nil] at hF ⊢; omega)
    show parsePrimaryWith (fun mp ts => parseExprF F mp ts) (Nat.succ f)
      ((TK.OP, str "(") :: ((xt ++ [(TK.OP, str ")")]) ++ rest)) = _
    simp only [parsePrimaryWith, currentTok, List.drop, List.append_assoc,
      List.cons_append, List.nil_append]
    rw [if_pos trivial]
    simp only [hin, expectTok_rparen]

/-- A `-` token in front of a primary is a unary-minus primary. -/

theorem prim_uminus {e : Expr} {xt : List Token} (h : PrimTok e xt) :
    PrimTok (Expr.UnaryOp (str "-") e) ((TK.OP, str "-") :: xt) := by
  intro F fp rest hnl hfp hF
  match fp, hfp with
  | Nat.succ f, hfp =>
    have h1 := h F f rest hnl
      (by simp only [List.length_cons] at hfp; omega)
      (by simp only [List.length_cons] at hF; omega)
    show parsePrimaryWith (fun mp ts => parseExprF F mp ts) (Nat.succ f)
      ((TK.OP, str "-") :: (xt ++ rest)) = _
    simp only [parsePrimaryWith, currentTok, List.drop]
    rw [if_pos trivial]
    simp only [h1]
    rw [if_neg (by decide : ¬ str "-" = str "(")]

/-- The head token of a rendered fragment: present, and never a `)`. -/

theorem join_toks_eq :
    ∀ (qs : List (Expr × List Token)) (q : Expr × List Token),
      joinCommaToks ((q :: qs).map Prod.snd) = q.2 ++ argsTail qs := by
  intro qs
  induction qs with
  | nil => intro q; simp [joinCommaToks, argsTail]
  | cons r qs2 ih =>
    intro q
    simp only [List.map_cons, joinCommaToks, argsTail]
    have h2 := ih r
    simp only [List.map_cons] at h2
    rw [h2]

/-- The `parse_primary` argument loop over a comma-led stream of rendered
arguments. -/

theorem args_parse :
    ∀ (qs : List (Expr × List Token)) (fa F : Nat) (rest : List Token),
      (∀ q ∈ qs, ArgSem q.1 q.2) →
      (argsTail qs).length + rest.length + 2 ≤ fa →
      (argsTail qs).length + rest.length + 4 ≤ F →
      parseArgsWith (fun mp ts => parseExprF F mp ts) fa
          (argsTail qs ++ ((TK.OP, str ")") :: rest)) =
        Except.ok (qs.map Prod.fst, (TK.OP, str ")") :: rest) := by
  intro qs
  induction qs with
  | nil =>
    intro fa F rest hq hfa hF
    match fa, hfa with
    | Nat.succ fa', _ => rfl
  | cons q qs2 ih =>
    intro fa F rest hq hfa hF
    match fa, hfa with
    | Nat.succ fa', hfa =>
      have hstop : Stopper 1 (argsTail qs2 ++ ((TK.OP, str ")") :: rest)) := by
        cases hqs : qs2 with
        | nil => exact stopper_of_get_none get_rparen_none
        | cons r qs3 =>
          show Stopper 1 ((TK.COMMA, str ",") ::
            ((r.2 ++ argsTail qs3) ++ ((TK.OP, str ")") :: rest)))
          exact stopper_of_head_not_op (by decide)
      have hnl : NotLParen (argsTail qs2 ++ ((TK.OP, str ")") :: rest)) := by
        cases hqs : qs2 with
        | nil => exact notlparen_cons (by decide)
        | cons r qs3 =>
          show NotLParen ((TK.COMMA, str ",") ::
            ((r.2 ++ argsTail qs3) ++ ((TK.OP, str ")") :: rest)))
          exact notlparen_cons (by decide)
      have harg := (hq q (by simp)) F (argsTail qs2 ++ ((TK.OP, str ")") :: rest)) hstop hnl
        (by
          simp only [argsTail, List.length_append, List.length_cons] at hF ⊢
          omega)
      have hrec := ih fa' F rest (fun x hx => hq x (by simp [hx]))
        (by simp only [argsTail, List.length_append, List.length_cons] at hfa ⊢; omega)
        (by simp only [argsTail, List.length_append, List.length_cons] at hF ⊢; omega)
      show parseArgsWith (fun mp ts => parseExprF F mp ts) (Nat.succ fa')
        (((TK.COMMA, str ",") :: (q.2 ++ argsTail qs2)) ++ ((TK.OP, str ")") :: rest)) = _
      simp only [parseArgsWith, currentTok, List.cons_append, List.drop]
      rw [if_pos trivial]
      simp only [List.append_eq, List.append_assoc]
      simp only [harg, hrec, Except.map, List.map_cons]

/-- An empty call `n()` is a primary. -/

theorem prim_call0 {n : List Char} :
    PrimTok (Expr.FuncCall n [])
      [(TK.ID, n), (TK.OP, str "("), (TK.OP, str ")")] := by
  intro F fp rest hnl hfp hF
  match fp, hfp with
  | Nat.succ f, _ => rfl

/-- A one-argument call `n(a)` is a primary and yields `UnaryOp n a`. -/

theorem prim_call1 {n : List Char} {a : Expr} {xa : List Token}
    (ha : ArgSem a xa) (hh : TokHead xa) :
    PrimTok (Expr.UnaryOp n a)
      ((TK.ID, n) :: ((TK.OP, str "(") :: (xa ++ [(TK.OP, str ")")]))) := by
  intro F fp rest hnl hfp hF
  match fp, hfp with
  | Nat.succ f, hfp =>
    obtain ⟨t0, tr, he0, ht0⟩ := hh
    subst he0
    have hstop : Stopper 1 ((TK.OP, str ")") :: rest) :=
      stopper_of_get_none get_rparen_none
    have hnl2 : NotLParen ((TK.OP, str ")") :: rest) :=
      notlparen_cons (by decide)
    have hin := ha F ((TK.OP, str ")") :: rest) hstop hnl2
      (by simp only [List.length_cons, List.length_append, List.length_nil] at hF ⊢; omega)
    have hargs := args_parse [] f F rest (by simp)
      (by simp only [argsTail, List.length_nil, List.length_cons] at hfp ⊢; omega)
      (by simp only [argsTail, List.length_nil, List.length_cons] at hF ⊢; omega)
    simp only [argsTail, List.nil_append] at hargs
    simp only [List.cons_append, List.append_assoc, List.nil_append] at hin ⊢
    show parsePrimaryWith (fun mp ts => parseExprF F mp ts) (Nat.succ f)
      ((TK.ID, n) :: ((TK.OP, str "(") :: (t0 :: (tr ++ ((TK.OP, str ")") :: rest))))) = _
    simp only [parsePrimaryWith, currentTok, List.drop]
    rw [if_pos trivial, if_pos ht0]
    simp only [hin, hargs, expectTok_rparen, List.map_nil]

/-- A call with two or more arguments is a primary and yields `FuncCall`. -/

theorem prim_callN {n : List Char} {a : Expr} {xa : List Token}
    {qs : List (Expr × List Token)}
    (ha : ArgSem a xa) (hh : TokHead xa) (hqs : qs ≠ [])
    (hq : ∀ q ∈ qs, ArgSem q.1 q.2) :
    PrimTok (Expr.FuncCall n (a :: qs.map Prod.fst))
      ((TK.ID, n) :: ((TK.OP, str "(") :: ((xa ++ argsTail qs) ++ [(TK.OP, str ")")]))) := by
  intro F fp rest hnl hfp hF
  match fp, hfp with
  | Nat.succ f, hfp =>
    obtain ⟨t0, tr, he0, ht0⟩ := hh
    subst he0
    match qs, hqs with
    | q1 :: qs2, _ =>
      have hstop : Stopper 1 (argsTail (q1 :: qs2) ++ ((TK.OP, str ")") :: rest)) := by
        show Stopper 1 ((TK.COMMA, str ",") ::
          ((q1.2 ++ argsTail qs2) ++ ((TK.OP, str ")") :: rest)))
        exact stopper_of_head_not_op (by decide)
      have hnl2 : NotLParen (argsTail (q1 :: qs2) ++ ((TK.OP, str ")") :: rest)) := by
        show NotLParen ((TK.COMMA, str ",") ::
          ((q1.2 ++ argsTail qs2) ++ ((TK.OP, str ")") :: rest)))
        exact notlparen_cons (by decide)
      have hin := ha F (argsTail (q1 :: qs2) ++ ((TK.OP, str ")") :: rest)) hstop hnl2
        (by
          simp only [argsTail, List.length_cons, List.length_append, List.length_nil] at hF ⊢
          omega)
      have hargs := args_parse (q1 :: qs2) f F rest hq
        (by simp only [argsTail, List.length_cons, List.length_append, List.length_nil] at hfp ⊢; omega)
        (by simp only [argsTail, List.length_cons, List.length_append, List.length_nil] at hF ⊢; omega)
      simp only [argsTail, List.cons_append, List.append_assoc, List.nil_append] at hin hargs ⊢
      show parsePrimaryWith (fun mp ts => parseExprF F mp ts) (Nat.succ f)
        ((TK.ID, n) :: ((TK.OP, str "(") :: (t0 :: (tr ++ ((TK.COMMA, str ",") ::
          (q1.2 ++ (argsTail qs2 ++ ((TK.OP, str ")") :: rest)))))))) = _
      simp only [parsePrimaryWith, currentTok, List.drop]
      rw [if_pos trivial, if_pos ht0]
      simp only [hin, hargs, expectTok_rparen, List.map_cons]

theorem op_ne_lparen {op : List Char} {pa : Nat × Assoc}
    (hm : (op, pa) ∈ OperatorMeta.OPERATORS) : ¬ op = str "(" := by
  rcases op_table_cases hm with rfl|rfl|rfl|rfl|rfl|rfl|rfl|rfl|rfl|rfl|rfl|rfl|rfl|rfl|rfl <;>
    decide

theorem stopper_mono {m m2 : Nat} {rest : List Token} (hle : m ≤ m2)
    (h : Stopper m rest) : Stopper m2 rest := by
  intro t r2 he hop pa hg
  exact Nat.lt_of_lt_of_le (h t r2 he hop pa hg) hle

/-- One link of a left-associative chain: operator, right operand, and the
operand's rendered tokens. -/

theorem prim_exprSem {e : Expr} {xt : List Token} (p : Nat) (h : PrimTok e xt) :
    ExprSem e p xt := by
  intro F m rest hm hs hnl hF
  exact prim_to_exprF h F m rest hs hnl hF

/-- The operator loop folds a left-associative chain of links of
precedence `p ≥ m` and stops at the continuation. -/

theorem loop_chain :
    ∀ (its : List ChainItem) (p m F f : Nat) (n0 : Expr) (rest : List Token),
      ItemsOK p its → m ≤ p → Stopper m rest → NotLParen rest →
      (flatItems its).length + rest.length + 2 ≤ f →
      (flatItems its).length + rest.length + 2 ≤ F →
      parseLoopWith (fun mp ts => parseExprF F mp ts) f m n0 (flatItems its ++ rest) =
        Except.ok (foldItems n0 its, rest) := by
  intro its
  induction its with
  | nil =>
    intro p m F f n0 rest hok hm hs hnl hf hF
    match f, hf with
    | Nat.succ f2, _ =>
      show parseLoopWith _ (f2 + 1) m n0 ([] ++ rest) = _
      rw [List.nil_append]
      exact loop_stop _ hs f2 n0
  | cons it its2 ih =>
    intro p m F f n0 rest hok hm hs hnl hf hF
    obtain ⟨hg, hpr⟩ := hok it (by simp)
    match f, hf with
    | Nat.succ f2, hf =>
      have hstop2 : Stopper (p + 1) (flatItems its2 ++ rest) := by
        cases hits : its2 with
        | nil =>
          simp only [flatItems, List.nil_append]
          exact stopper_mono (by omega) hs
        | cons jt its3 =>
          show Stopper (p + 1) ((TK.OP, jt.1) :: ((jt.2.2 ++ flatItems its3) ++ rest))
          exact stopper_of_lt (hok jt (by simp [hits])).1 (by omega)
      have hnl2 : NotLParen (flatItems its2 ++ rest) := by
        cases hits : its2 with
        | nil =>
          simp only [flatItems, List.nil_append]
          exact hnl
        | cons jt its3 =>
          show NotLParen ((TK.OP, jt.1) :: ((jt.2.2 ++ flatItems its3) ++ rest))
          exact notlparen_cons (op_ne_lparen (get_mem (hok jt (by simp [hits])).1))
      have hrhs := prim_to_exprF hpr F (p + 1) (flatItems its2 ++ rest) hstop2 hnl2
        (by
          simp only [flatItems, List.length_cons, List.length_append] at hF ⊢
          omega)
      have hrec := ih p m F f2 (Expr.BinaryOp n0 it.1 it.2.1) rest
        (fun x hx => hok x (by simp [hx])) hm hs hnl
        (by simp only [flatItems, List.length_cons, List.length_append] at hf ⊢; omega)
        (by simp only [flatItems, List.length_cons, List.length_append] at hF ⊢; omega)
      show parseLoopWith (fun mp ts => parseExprF F mp ts) (Nat.succ f2) m n0
        ((TK.OP, it.1) :: ((it.2.2 ++ flatItems its2) ++ rest)) = _
      simp only [parseLoopWith, currentTok, List.drop]
      simp only [hg]
      rw [if_neg (by omega : ¬ p < m)]
      rw [if_pos trivial]
      simp only [List.append_assoc] at hrhs ⊢
      simp only [hrhs, hrec]
      rfl

/-- A bare left-associative chain: a primary head followed by links, all
at precedence `p`. -/

theorem chainL_sem {e : Expr} {p : Nat} {xt : List Token} (h : ChainL e p xt) :
    ExprSem e p xt := by
  obtain ⟨e0, x0, its, hne, hpr, hok, rfl, rfl⟩ := h
  intro F m rest hm hs hnl hF
  match F, hF with
  | Nat.succ F2, hF =>
    have hnl0 : NotLParen (flatItems its ++ rest) := by
      match its, hne with
      | jt :: its3, _ =>
        show NotLParen ((TK.OP, jt.1) :: ((jt.2.2 ++ flatItems its3) ++ rest))
        exact notlparen_cons (op_ne_lparen (get_mem (hok jt (by simp)).1))
    have hp0 := hpr F2 F2 (flatItems its ++ rest) hnl0
      (by simp only [List.length_append] at hF ⊢; omega)
      (by simp only [List.length_append] at hF ⊢; omega)
    have hlp := loop_chain its p m F2 F2 e0 rest hok hm hs hnl
      (by simp only [List.length_append] at hF ⊢; omega)
      (by simp only [List.length_append] at hF ⊢; omega)
    simp only [parseExprF]
    simp only [List.append_assoc] at hp0 ⊢
    simp only [hp0, hlp]

theorem chainR_sem {e : Expr} {p : Nat} {xt : List Token} (h : ChainR e p xt) :
    ExprSem e p xt := by
  obtain ⟨e0, x0, op, r, xr, rfl, hg, hpr, rfl, hsem⟩ := h
  intro F m rest hm hs hnl hF
  match F, hF with
  | Nat.succ F2, hF =>
    have hnl0 : NotLParen (((TK.OP, op) :: xr) ++ rest) :=
      notlparen_cons (op_ne_lparen (get_mem hg))
    have hp0 := hpr F2 F2 (((TK.OP, op) :: xr) ++ rest) hnl0
      (by simp only [List.length_append, List.length_cons] at hF ⊢; omega)
      (by simp only [List.length_append, List.length_cons] at hF ⊢; omega)
    have hr := hsem F2 p rest (Nat.le_refl p) (stopper_mono hm hs) hnl
      (by simp only [List.length_append, List.length_cons] at hF ⊢; omega)
    simp only [parseExprF]
    simp only [List.append_assoc] at hp0 ⊢
    simp only [hp0]
    match F2, (by omega : 2 ≤ F2) with
    | Nat.succ F3, h23 =>
      show parseLoopWith (fun mp ts => parseExprF (Nat.succ F3) mp ts) (Nat.succ F3) m e0
        ((TK.OP, op) :: (xr ++ rest)) = _
      simp only [parseLoopWith, currentTok, List.drop]
      simp only [hg]
      rw [if_neg (by omega : ¬ p < m)]
      rw [if_neg (by decide : ¬ Assoc.R = Assoc.L)]
      have hr2 : parseExprF (Nat.succ F3) p (xr ++ rest) = Except.ok (r, rest) := hr
      simp only [hr2]
      match F3, (by omega : 1 ≤ F3) with
      | Nat.succ F4, _ =>
        exact loop_stop _ hs F4 (Expr.BinaryOp e0 op r)

-- === Phase D: what the formatter's output guarantees ===

/-- Unary operators producible by the parser: `-` or a call-head name. -/

theorem same_prec_assoc :
    ∀ q1 ∈ OperatorMeta.OPERATORS, ∀ q2 ∈ OperatorMeta.OPERATORS,
      q1.2.1 = q2.2.1 → q1.2.2 = q2.2.2 := by
  intro q1 h1 q2 h2
  simp only [OperatorMeta.OPERATORS, List.mem_cons, List.not_mem_nil, or_false] at h1 h2
  rcases h1 with rfl|rfl|rfl|rfl|rfl|rfl|rfl|rfl|rfl|rfl|rfl|rfl|rfl|rfl|rfl <;>
    rcases h2 with rfl|rfl|rfl|rfl|rfl|rfl|rfl|rfl|rfl|rfl|rfl|rfl|rfl|rfl|rfl <;>
    (intro he; first | rfl | exact absurd he (by decide))

/-- Registered precedences are at least 1. -/

theorem op_prec_table : ∀ q ∈ OperatorMeta.OPERATORS, 1 ≤ q.2.1 := by
  intro q hq
  simp only [OperatorMeta.OPERATORS, List.mem_cons, List.not_mem_nil, or_false] at hq
  rcases hq with rfl|rfl|rfl|rfl|rfl|rfl|rfl|rfl|rfl|rfl|rfl|rfl|rfl|rfl|rfl <;> decide

theorem op_prec_pos {op : List Char} {p : Nat} {a : Assoc}
    (hg : OperatorMeta.get op = some (p, a)) : 1 ≤ p :=
  op_prec_table (op, (p, a)) (get_mem hg)

theorem numtext_goodhead {v : List Char} (hv : NumText v) : GoodHead v := by
  obtain ⟨ds, tl, rfl, hne, hdsd, -⟩ := hv
  match ds, hne with
  | d :: ds2, _ =>
    exact ⟨d, ds2 ++ tl, rfl, isWordChar_not_space (isDigit_word (hdsd d (by simp)))⟩

theorem idtext_goodhead {n : List Char} (hn : IdText n) : GoodHead n := by
  match n, hn with
  | c :: n2, ⟨hca, _⟩ =>
    exact ⟨c, n2, rfl, isWordChar_not_space (alpha_word hca)⟩

theorem numtext_ne_rparen {v : List Char} (hv : NumText v) : ¬ v = str ")" := by
  intro he
  obtain ⟨ds, tl, hsp, hne, hdsd, -⟩ := hv
  match ds, hne with
  | d :: ds2, _ =>
    rw [hsp, List.cons_append] at he
    injection he with e1 e2
    have hd := hdsd d (by simp)
    rw [e1] at hd
    exact absurd hd (by decide)

theorem idtext_ne_rparen {n : List Char} (hn : IdText n) : ¬ n = str ")" := by
  intro he
  match n, hn with
  | c :: n2, ⟨hca, _⟩ =>
    injection he with e1 e2
    rw [e1] at hca
    exact absurd hca (by decide)

/-- The guarantees carried by a bare render of `e`: it scans back to a
token list with a good head, and that token list re-parses to `e`, either
as a primary or as a bare operator chain at the root precedence. -/

theorem exprSem_mono {e : Expr} {p q : Nat} {xt : List Token}
    (h : ExprSem e p xt) (hle : q ≤ p) : ExprSem e q xt := by
  intro F m rest hm hs hnl hF
  exact h F m rest (Nat.le_trans hm hle) hs hnl hF

/-- A rendered fragment parses as a full expression at the default minimum
precedence. -/

theorem rendered_parts {e : Expr} {out : List Char} (h : Rendered e out) :
    ∃ xt, RScan out xt ∧ GoodHead out ∧ TokHead xt ∧ ExprSem e 1 xt := by
  obtain ⟨xt, hscan, hgh, hth, hdisj⟩ := h
  refine ⟨xt, hscan, hgh, hth, ?_⟩
  rcases hdisj with hp | ⟨l, op, r, p, a, heq, hg, hch⟩
  · exact prim_exprSem 1 hp
  · have hp1 : 1 ≤ p := op_prec_pos hg
    rcases hch with ⟨ha, hcl⟩ | ⟨ha, hcr⟩
    · exact exprSem_mono (chainL_sem hcl) hp1
    · exact exprSem_mono (chainR_sem hcr) hp1

/-- Wrapping a rendered fragment in parentheses yields a primary-shaped
fragment. -/

theorem rendered_wrap {e : Expr} {out : List Char} (h : Rendered e out) :
    ∃ xt2, RScan ('(' :: (out ++ [')'])) xt2 ∧
      GoodHead ('(' :: (out ++ [')'])) ∧ TokHead xt2 ∧ PrimTok e xt2 := by
  obtain ⟨xt, hscan, hgh, hth, hsem⟩ := rendered_parts h
  exact ⟨(TK.OP, str "(") :: (xt ++ [(TK.OP, str ")")]), RScan_wrap hscan,
    ⟨'(', out ++ [')'], rfl, by decide⟩,
    ⟨(TK.OP, str "("), xt ++ [(TK.OP, str ")")], rfl, by decide⟩,
    prim_wrap (Nat.le_refl 1) hsem⟩

/-- Wrapping a primary-shaped fragment again keeps it primary-shaped. -/

theorem prim_rewrap {e : Expr} {s : List Char} {xt : List Token}
    (hscan : RScan s xt) (hprim : PrimTok e xt) :
    ∃ xt2, RScan ('(' :: (s ++ [')'])) xt2 ∧
      GoodHead ('(' :: (s ++ [')'])) ∧ TokHead xt2 ∧ PrimTok e xt2 :=
  ⟨(TK.OP, str "(") :: (xt ++ [(TK.OP, str ")")]), RScan_wrap hscan,
    ⟨'(', s ++ [')'], rfl, by decide⟩,
    ⟨(TK.OP, str "("), xt ++ [(TK.OP, str ")")], rfl, by decide⟩,
    prim_wrap (Nat.le_refl 1) (prim_exprSem 1 hprim)⟩

/-- Applying `mustParenthesize` to a binary child reveals the tie-break formula. -/

theorem mustParen_bin {opPrec : Nat} {assoc : Assoc} {cl : Expr} {cop : List Char}
    {cr : Expr} {side : Side} {b : Bool}
    (h : mustParenthesize opPrec assoc (Expr.BinaryOp cl cop cr) side = some b) :
    ∃ cp ca, OperatorMeta.get cop = some (cp, ca) ∧
      b = decide (cp > opPrec ∨ (cp = opPrec ∧
        ((assoc = Assoc.L ∧ side = Side.right) ∨
         (assoc = Assoc.R ∧ side = Side.left)))) := by
  simp only [mustParenthesize] at h
  cases hg : OperatorMeta.get cop with
  | none => rw [hg] at h; exact absurd h (by simp)
  | some pa =>
    obtain ⟨cp, ca⟩ := pa
    rw [hg] at h
    injection h with hb
    exact ⟨cp, ca, rfl, hb.symm⟩

/-- Applying `mustParenthesize` to a non-binary child gives `some false`. -/

theorem mustParen_nonbin {opPrec : Nat} {assoc : Assoc} {child : Expr} {side : Side}
    {b : Bool} (hnb : ∀ cl cop cr, ¬ child = Expr.BinaryOp cl cop cr)
    (h : mustParenthesize opPrec assoc child side = some b) : b = false := by
  cases child with
  | BinaryOp cl cop cr => exact absurd rfl (hnb cl cop cr)
  | Value v => injection h with hb; exact hb.symm
  | Variable n => injection h with hb; exact hb.symm
  | UnaryOp op o => injection h with hb; exact hb.symm
  | FuncCall n args => injection h with hb; exact hb.symm

theorem flatItems_append :
    ∀ (a b : List ChainItem), flatItems (a ++ b) = flatItems a ++ flatItems b := by
  intro a
  induction a with
  | nil => intro b; simp [flatItems]
  | cons it a2 ih =>
    intro b
    simp only [List.cons_append, List.append_eq, flatItems, ih, List.append_assoc]

theorem foldItems_append :
    ∀ (a b : List ChainItem) (e : Expr), foldItems e (a ++ b) = foldItems (foldItems e a) b := by
  intro a
  induction a with
  | nil => intro b e; rfl
  | cons it a2 ih => intro b e; exact ih b (Expr.BinaryOp e it.1 it.2.1)

theorem itemsOK_append {p : Nat} {a b : List ChainItem}
    (ha : ItemsOK p a) (hb : ItemsOK p b) : ItemsOK p (a ++ b) := by
  intro it hit
  rcases List.mem_append.mp hit with h | h
  · exact ha it h
  · exact hb it h

theorem tokhead_append {xt : List Token} (ys : List Token) (h : TokHead xt) :
    TokHead (xt ++ ys) := by
  obtain ⟨t0, tr, rfl, ht⟩ := h
  exact ⟨t0, tr ++ ys, rfl, ht⟩

/-- Only the binary branch of `format` consults the context precedence:
every render at context `ctx` is the bare (context-0) render, or that
render parenthesized once when the root operator binds more loosely than
the context. -/

theorem fmt_ctx {f : Nat} {e : Expr} {ctx : Nat} {out : List Char}
    (h : fmtF f e ctx = some out) :
    ∃ out0, fmtF f e 0 = some out0 ∧
      ((out = out0 ∧ ∀ l op r p a, e = Expr.BinaryOp l op r →
          OperatorMeta.get op = some (p, a) → ¬ p < ctx) ∨
       (∃ l op r p a, e = Expr.BinaryOp l op r ∧
          OperatorMeta.get op = some (p, a) ∧ p < ctx ∧
          out = '(' :: (out0 ++ [')']))) := by
  match f with
  | 0 => exact absurd h (by simp [fmtF])
  | Nat.succ f2 =>
    cases e with
    | Value v =>
      exact ⟨out, h, Or.inl ⟨rfl, by intro l op r p a he; exact absurd he (by simp)⟩⟩
    | Variable n =>
      exact ⟨out, h, Or.inl ⟨rfl, by intro l op r p a he; exact absurd he (by simp)⟩⟩
    | UnaryOp op o =>
      exact ⟨out, h, Or.inl ⟨rfl, by intro l op2 r p a he; exact absurd he (by simp)⟩⟩
    | FuncCall n args =>
      exact ⟨out, h, Or.inl ⟨rfl, by intro l op r p a he; exact absurd he (by simp)⟩⟩
    | BinaryOp l op r =>
      simp only [fmtF, fmtCore] at h ⊢
      cases hg : OperatorMeta.get op with
      | none => rw [hg] at h; exact absurd h (by simp)
      | some pa =>
        obtain ⟨p, a⟩ := pa
        simp only [hg] at h ⊢
        cases hfl : fmtF f2 l (if a = Assoc.L then p else p + 1) with
        | none => simp [hfl] at h
        | some lf =>
        cases hfr : fmtF f2 r (if a = Assoc.L then p + 1 else p) with
        | none => simp [hfl, hfr] at h
        | some rf =>
        cases hbl : mustParenthesize p a l Side.left with
        | none => simp [hfl, hfr, hbl] at h
        | some bl =>
        cases hbr : mustParenthesize p a r Side.right with
        | none => simp [hfl, hfr, hbl, hbr] at h
        | some br =>
          simp only [hfl, hfr, hbl, hbr] at h
          simp only [hfl, hfr, hbl, hbr]
          injection h with hout
          refine ⟨_, rfl, ?_⟩
          by_cases hpc : p < ctx
          · rw [if_pos hpc] at hout
            refine Or.inr ⟨l, op, r, p, a, rfl, hg, hpc, ?_⟩
            rw [if_neg (by omega : ¬ p < 0)]
            exact hout.symm
          · rw [if_neg hpc] at hout
            refine Or.inl ⟨?_, ?_⟩
            · rw [if_neg (by omega : ¬ p < 0)]
              exact hout.symm
            · intro l2 op2 r2 p2 a2 he hg2
              injection he with e1 e2 e3
              rw [← e2] at hg2
              rw [hg] at hg2
              injection hg2 with e4
              injection e4 with e5 e6
              omega

/-- Preparing the left operand of a binary render: after the optional
tie-break wrap, the fragment is primary-shaped or extends a bare
left-associative chain at the parent's precedence. -/

theorem operand_left {l : Expr} {op : List Char} {p : Nat} {a : Assoc} {f2 : Nat}
    {lf : List Char} {bl : Bool}
    (hmem : (op, (p, a)) ∈ OperatorMeta.OPERATORS)
    (hrnd : ∀ out, fmtF f2 l 0 = some out → Rendered l out)
    (hfl : fmtF f2 l (if a = Assoc.L then p else p + 1) = some lf)
    (hbl : mustParenthesize p a l Side.left = some bl) :
    ∃ xl2, RScan (if bl then '(' :: (lf ++ [')']) else lf) xl2 ∧
      GoodHead (if bl then '(' :: (lf ++ [')']) else lf) ∧ TokHead xl2 ∧
      (PrimTok l xl2 ∨ (a = Assoc.L ∧ ChainL l p xl2)) := by
  obtain ⟨lf0, hfl0, hctx⟩ := fmt_ctx hfl
  have hrl : Rendered l lf0 := hrnd lf0 hfl0
  cases bl with
  | true =>
    rcases hctx with ⟨rfl, -⟩ | ⟨l1, op1, r1, cp, ca, heq, hgc, hlt, rfl⟩
    · obtain ⟨xt2, hsc, hgh, hth, hpr⟩ := rendered_wrap hrl
      exact ⟨xt2, hsc, hgh, hth, Or.inl hpr⟩
    · obtain ⟨xt1, hsc1, hgh1, hth1, hpr1⟩ := rendered_wrap hrl
      obtain ⟨xt2, hsc2, hgh2, hth2, hpr2⟩ := prim_rewrap hsc1 hpr1
      exact ⟨xt2, hsc2, hgh2, hth2, Or.inl hpr2⟩
  | false =>
    rcases hctx with ⟨rfl, hguard⟩ | ⟨l1, op1, r1, cp, ca, heq, hgc, hlt, rfl⟩
    · obtain ⟨xl, hscan, hgh, hth, hdisj⟩ := hrl
      rcases hdisj with hprim | ⟨l1, op1, r1, cp, ca, heq, hgc, hch⟩
      · exact ⟨xl, hscan, hgh, hth, Or.inl hprim⟩
      · obtain ⟨cp2, ca2, hgc2, hbdef⟩ := mustParen_bin (heq ▸ hbl)
        rw [hgc] at hgc2
        injection hgc2 with e4
        injection e4 with e5 e6
        subst e5
        subst e6
        have hdecf := hbdef.symm
        rw [decide_eq_false_iff_not] at hdecf
        have hguard2 := hguard l1 op1 r1 cp ca heq hgc
        cases a with
        | L =>
          simp only [if_pos] at hguard2
          have h1 : ¬ cp > p := fun hgt => hdecf (Or.inl hgt)
          have hcp : cp = p := by omega
          subst hcp
          have hca := same_prec_assoc (op, (cp, Assoc.L)) hmem
            (op1, (cp, ca)) (get_mem hgc) rfl
          rcases hch with ⟨-, hchl⟩ | ⟨hcaR, -⟩
          · exact ⟨xl, hscan, hgh, hth, Or.inr ⟨rfl, hchl⟩⟩
          · rw [hcaR] at hca
            simp at hca
        | R =>
          simp only [if_neg (by decide : ¬ Assoc.R = Assoc.L)] at hguard2
          exact absurd (Or.inl (by omega)) hdecf
    · obtain ⟨xt2, hsc, hgh, hth, hpr⟩ := rendered_wrap hrl
      exact ⟨xt2, hsc, hgh, hth, Or.inl hpr⟩

/-- Preparing the right operand of a binary render: after the optional
tie-break wrap, the fragment is primary-shaped or a full expression unit
at the parent's precedence under right associativity. -/

theorem operand_right {r : Expr} {op : List Char} {p : Nat} {a : Assoc} {f2 : Nat}
    {rf : List Char} {br : Bool}
    (hmem : (op, (p, a)) ∈ OperatorMeta.OPERATORS)
    (hrnd : ∀ out, fmtF f2 r 0 = some out → Rendered r out)
    (hfr : fmtF f2 r (if a = Assoc.L then p + 1 else p) = some rf)
    (hbr : mustParenthesize p a r Side.right = some br) :
    ∃ xr2, RScan (if br then '(' :: (rf ++ [')']) else rf) xr2 ∧
      GoodHead (if br then '(' :: (rf ++ [')']) else rf) ∧ TokHead xr2 ∧
      (PrimTok r xr2 ∨ (a = Assoc.R ∧ ExprSem r p xr2)) := by
  obtain ⟨rf0, hfr0, hctx⟩ := fmt_ctx hfr
  have hrr : Rendered r rf0 := hrnd rf0 hfr0
  cases br with
  | true =>
    rcases hctx with ⟨rfl, -⟩ | ⟨r1, op1, r2, cp, ca, heq, hgc, hlt, rfl⟩
    · obtain ⟨xt2, hsc, hgh, hth, hpr⟩ := rendered_wrap hrr
      exact ⟨xt2, hsc, hgh, hth, Or.inl hpr⟩
    · obtain ⟨xt1, hsc1, hgh1, hth1, hpr1⟩ := rendered_wrap hrr
      obtain ⟨xt2, hsc2, hgh2, hth2, hpr2⟩ := prim_rewrap hsc1 hpr1
      exact ⟨xt2, hsc2, hgh2, hth2, Or.inl hpr2⟩
  | false =>
    rcases hctx with ⟨rfl, hguard⟩ | ⟨r1, op1, r2, cp, ca, heq, hgc, hlt, rfl⟩
    · obtain ⟨xr, hscan, hgh, hth, hdisj⟩ := hrr
      rcases hdisj with hprim | ⟨r1, op1, r2, cp, ca, heq, hgc, hch⟩
      · exact ⟨xr, hscan, hgh, hth, Or.inl hprim⟩
      · obtain ⟨cp2, ca2, hgc2, hbdef⟩ := mustParen_bin (heq ▸ hbr)
        rw [hgc] at hgc2
        injection hgc2 with e4
        injection e4 with e5 e6
        subst e5
        subst e6
        have hdecf := hbdef.symm
        rw [decide_eq_false_iff_not] at hdecf
        have hguard2 := hguard r1 op1 r2 cp ca heq hgc
        cases a with
        | L =>
          simp only [if_pos] at hguard2
          exact absurd (Or.inl (by omega)) hdecf
        | R =>
          simp only [if_neg (by decide : ¬ Assoc.R = Assoc.L)] at hguard2
          have h1 : ¬ cp > p := fun hgt => hdecf (Or.inl hgt)
          have hcp : cp = p := by omega
          subst hcp
          have hca := same_prec_assoc (op, (cp, Assoc.R)) hmem
            (op1, (cp, ca)) (get_mem hgc) rfl
          rcases hch with ⟨hcaL, -⟩ | ⟨-, hchr⟩
          · rw [hcaL] at hca
            simp at hca
          · exact ⟨xr, hscan, hgh, hth, Or.inr ⟨rfl, chainR_sem hchr⟩⟩
    · obtain ⟨xt2, hsc, hgh, hth, hpr⟩ := rendered_wrap hrr
      exact ⟨xt2, hsc, hgh, hth, Or.inl hpr⟩

/-- Rendered argument lists: formatting each argument at context 0
produces rendered fragments. -/

theorem call_args_build {f2 : Nat} :
    ∀ (args : List Expr) (ss : List (List Char)),
      (∀ a ∈ args, ∀ out, fmtF f2 a 0 = some out → Rendered a out) →
      fmtArgsList (fmtF f2) args = some ss →
      ∃ ps : List (Expr × List Char × List Token),
        args = ps.map Prod.fst ∧ ss = ps.map (fun q => q.2.1) ∧
        ∀ q ∈ ps, RScan q.2.1 q.2.2 ∧ GoodHead q.2.1 ∧ TokHead q.2.2 ∧
          ArgSem q.1 q.2.2 := by
  intro args
  induction args with
  | nil =>
    intro ss hrnd h
    refine ⟨[], rfl, ?_, by simp⟩
    simp only [fmtArgsList] at h
    injection h with h1
    rw [← h1]
    rfl
  | cons a args2 ih =>
    intro ss hrnd h
    simp only [fmtArgsList] at h
    cases hfa : fmtF f2 a 0 with
    | none => rw [hfa] at h; exact absurd h (by simp)
    | some s0 =>
      cases hrest : fmtArgsList (fmtF f2) args2 with
      | none => rw [hfa, hrest] at h; exact absurd h (by simp)
      | some ss2 =>
        rw [hfa, hrest] at h
        injection h with h1
        obtain ⟨ps2, he1, he2, hget⟩ := ih ss2 (fun x hx => hrnd x (by simp [hx])) hrest
        obtain ⟨xt, hscan, hgh, hth, hsem⟩ := rendered_parts (hrnd a (by simp) s0 hfa)
        refine ⟨(a, s0, xt) :: ps2, by simp [he1], by simp [he2, ← h1], ?_⟩
        intro q hq
        rcases List.mem_cons.mp hq with rfl | hq2
        · exact ⟨hscan, hgh, hth, exprSem_arg (Nat.le_refl 1) hsem⟩
        · exact hget q hq2

theorem join_toks_eq2 :
    ∀ (t : List (Expr × List Char × List Token)) (x : List Token),
      joinCommaToks (x :: t.map (fun q => q.2.2)) =
        x ++ argsTail (t.map (fun q => (q.1, q.2.2))) := by
  intro t
  induction t with
  | nil => intro x; simp [joinCommaToks, argsTail]
  | cons r t2 ih =>
    intro x
    simp only [List.map_cons, joinCommaToks, argsTail]
    rw [ih r.2.2]

/-- Every bare render of a well-formed tree is `Rendered`: it scans back
to tokens that re-parse to the same tree. -/

theorem fmt_parse_main {e : Expr} (hwf : WFe e) :
    ∀ f out, fmtF f e 0 = some out → Rendered e out := by
  induction hwf with
  | @value v hv =>
    intro f out hf
    match f, hf with
    | Nat.succ f2, hf =>
      injection hf with hout
      subst hout
      exact ⟨[(TK.NUMBER, v)], RScan_num hv, numtext_goodhead hv,
        ⟨(TK.NUMBER, v), [], rfl, numtext_ne_rparen hv⟩, Or.inl prim_value⟩
  | @var n hid hnk =>
    intro f out hf
    match f, hf with
    | Nat.succ f2, hf =>
      injection hf with hout
      subst hout
      exact ⟨[(TK.ID, n)], RScan_id hid hnk, idtext_goodhead hid,
        ⟨(TK.ID, n), [], rfl, idtext_ne_rparen hid⟩, Or.inl prim_var⟩
  | @un op o hop ho iho =>
    intro f out hf
    match f, hf with
    | Nat.succ f2, hf =>
      simp only [fmtF, fmtCore] at hf
      cases hs : fmtF f2 o 0 with
      | none => rw [hs] at hf; exact absurd hf (by simp)
      | some s =>
        rw [hs] at hf
        injection hf with hout
        subst hout
        obtain ⟨xs, hscan, hgh, hth, hsem⟩ := rendered_parts (iho f2 s hs)
        rcases hop with rfl | ⟨hid, hnk⟩
        · refine ⟨_, RScan_uminus hscan,
            ⟨'-', '(' :: (s ++ [')']), rfl, by decide⟩,
            ⟨(TK.OP, str "-"), _, rfl, by decide⟩,
            Or.inl (prim_uminus (prim_wrap (Nat.le_refl 1) hsem))⟩
        · refine ⟨_, RScan_uname hid hnk hscan,
            goodhead_append _ (idtext_goodhead hid),
            ⟨(TK.ID, op), _, rfl, idtext_ne_rparen hid⟩,
            Or.inl (prim_call1 (exprSem_arg (Nat.le_refl 1) hsem) hth)⟩
  | @bin l op r pa hg hwl hwr ihl ihr =>
    intro f out hf
    match f, hf with
    | Nat.succ f2, hf =>
      obtain ⟨p, a⟩ := pa
      have hmem := get_mem hg
      simp only [fmtF, fmtCore] at hf
      simp only [hg] at hf
      cases hfl : fmtF f2 l (if a = Assoc.L then p else p + 1) with
      | none => simp [hfl] at hf
      | some lf =>
      cases hfr : fmtF f2 r (if a = Assoc.L then p + 1 else p) with
      | none => simp [hfl, hfr] at hf
      | some rf =>
      cases hbl : mustParenthesize p a l Side.left with
      | none => simp [hfl, hfr, hbl] at hf
      | some bl =>
      cases hbr : mustParenthesize p a r Side.right with
      | none => simp [hfl, hfr, hbl, hbr] at hf
      | some br =>
        simp only [hfl, hfr, hbl, hbr] at hf
        rw [if_neg (by omega : ¬ p < 0)] at hf
        injection hf with hout
        subst hout
        obtain ⟨xl2, hscl, hghl, hthl, hdl⟩ :=
          operand_left hmem (fun o2 ho2 => ihl f2 o2 ho2) hfl hbl
        obtain ⟨xr2, hscr, hghr, hthr, hdr⟩ :=
          operand_right hmem (fun o2 ho2 => ihr f2 o2 ho2) hfr hbr
        refine ⟨xl2 ++ (TK.OP, op) :: xr2,
          RScan_binop hmem hscl hscr hghr, goodhead_append _ hghl,
          tokhead_append _ hthl, Or.inr ⟨l, op, r, p, a, rfl, hg, ?_⟩⟩
        cases a with
        | L =>
          have hprR : PrimTok r xr2 := by
            rcases hdr with h | ⟨hra, -⟩
            · exact h
            · exact absurd hra (by decide)
          refine Or.inl ⟨rfl, ?_⟩
          rcases hdl with hpl | ⟨-, hcl⟩
          · refine ⟨l, xl2, [(op, r, xr2)], by simp, hpl, ?_, ?_, rfl⟩
            · intro it hit
              rw [List.mem_singleton] at hit
              subst hit
              exact ⟨hg, hprR⟩
            · simp [flatItems]
          · obtain ⟨e0, x0, its, hne, hp0, hiok, hshape, hfold⟩ := hcl
            refine ⟨e0, x0, its ++ [(op, r, xr2)], by simp, hp0,
              itemsOK_append hiok ?_, ?_, ?_⟩
            · intro it hit
              rw [List.mem_singleton] at hit
              subst hit
              exact ⟨hg, hprR⟩
            · rw [hshape, flatItems_append]
              simp [flatItems]
            · rw [foldItems_append, ← hfold]
              rfl
        | R =>
          have hprL : PrimTok l xl2 := by
            rcases hdl with h | ⟨hla, -⟩
            · exact h
            · exact absurd hla (by decide)
          have hsemR : ExprSem r p xr2 := by
            rcases hdr with h | ⟨-, hs⟩
            · exact prim_exprSem p h
            · exact hs
          exact Or.inr ⟨rfl, l, xl2, op, r, xr2, rfl, hg, hprL, rfl, hsemR⟩
  | @call n args hid hnk hcnt hargs ih =>
    intro f out hf
    match f, hf with
    | Nat.succ f2, hf =>
      simp only [fmtF, fmtCore] at hf
      cases hss : fmtArgsList (fmtF f2) args with
      | none => rw [hss] at hf; exact absurd hf (by simp)
      | some ss =>
        rw [hss] at hf
        injection hf with hout
        subst hout
        obtain ⟨ps, hps1, hps2, hget⟩ :=
          call_args_build args ss (fun a ha out2 hout2 => ih a ha f2 out2 hout2) hss
        subst hps2
        have hpsh : ∀ q ∈ ps.map Prod.snd, RScan q.1 q.2 ∧ GoodHead q.1 := by
          intro q hq
          obtain ⟨q0, hq0, rfl⟩ := List.mem_map.mp hq
          exact ⟨(hget q0 hq0).1, (hget q0 hq0).2.1⟩
        have hscan := @RScan_call n (ps.map Prod.snd) hid hnk hpsh
        simp only [List.map_map, Function.comp_def] at hscan
        cases ps with
        | nil =>
          refine ⟨_, hscan, goodhead_append _ (idtext_goodhead hid),
            ⟨(TK.ID, n), _, rfl, idtext_ne_rparen hid⟩, Or.inl ?_⟩
          rw [hps1]
          exact prim_call0
        | cons q0 ps2 =>
          cases ps2 with
          | nil =>
            exfalso
            rw [hps1] at hcnt
            simp at hcnt
          | cons q1 ps3 =>
            refine ⟨_, hscan, goodhead_append _ (idtext_goodhead hid),
              ⟨(TK.ID, n), _, rfl, idtext_ne_rparen hid⟩, Or.inl ?_⟩
            rw [hps1]
            have hpn := @prim_callN n q0.1 q0.2.2
              ((q1 :: ps3).map (fun q => (q.1, q.2.2)))
              ((hget q0 (by simp)).2.2.2) ((hget q0 (by simp)).2.2.1)
              (by simp)
              (fun q hq => by
                obtain ⟨q2, hq2, rfl⟩ := List.mem_map.mp hq
                exact (hget q2 (by simp [hq2])).2.2.2)
            simp only [List.map_map, Function.comp_def] at hpn
            simp only [List.map_cons]
            have hj := join_toks_eq2 (q1 :: ps3) q0.2.2
            simp only [List.map_cons] at hpn hj
            rw [hj]
            exact hpn

-- === Phase E: token shapes and keyword sanity of scanned input ===

/-- Shape of a scanned token's text, by kind. -/

theorem dropWhile_head_false {p : Char → Bool} :
    ∀ (l : List Char) (c2 : Char) (t2 : List Char),
      l.dropWhile p = c2 :: t2 → p c2 = false := by
  intro l
  induction l with
  | nil => intro c2 t2 h; exact absurd h (by simp)
  | cons x l2 ih =>
    intro c2 t2 h
    by_cases hp : p x = true
    · rw [List.dropWhile_cons_of_pos hp] at h
      exact ih c2 t2 h
    · rw [List.dropWhile_cons_of_neg hp] at h
      injection h with e1 e2
      rw [← e1]
      cases hpx : p x with
      | false => rfl
      | true => exact absurd hpx hp

theorem numMunch_numtext {c : Char} {rest : List Char} (hc : c.isDigit = true) :
    NumText (numMunch (c :: rest)).1 := by
  have hts : (c :: rest).takeWhile Char.isDigit = c :: rest.takeWhile Char.isDigit :=
    List.takeWhile_cons_of_pos hc
  have hdig : ∀ x ∈ (c :: rest).takeWhile Char.isDigit, x.isDigit = true := by
    intro x hx
    exact List.mem_takeWhile_imp hx
  simp only [numMunch]
  by_cases hdot : ((c :: rest).dropWhile Char.isDigit).head? = some '.'
  · rw [if_pos hdot]
    refine ⟨(c :: rest).takeWhile Char.isDigit,
      '.' :: ((c :: rest).dropWhile Char.isDigit).tail.takeWhile Char.isDigit,
      rfl, by rw [hts]; simp, hdig, Or.inr ⟨_, rfl, ?_⟩⟩
    intro x hx
    exact List.mem_takeWhile_imp hx
  · rw [if_neg hdot]
    exact ⟨(c :: rest).takeWhile Char.isDigit, [],
      (List.append_nil _).symm, by rw [hts]; simp, hdig, Or.inl rfl⟩

theorem takeWhile_idtext {c : Char} {rest : List Char}
    (hal : (c.isAlpha || c == '_') = true) :
    IdText ((c :: rest).takeWhile isWordChar) := by
  rw [List.takeWhile_cons_of_pos (isWordChar_of_alpha hal)]
  refine ⟨hal, ?_⟩
  intro x hx
  rcases List.mem_cons.mp hx with rfl | hx2
  · exact isWordChar_of_alpha hal
  · exact List.mem_takeWhile_imp hx2

/-- The boundary check of a keyword match: the following character is not
a word character. -/

theorem findKw_boundary {pw : Bool} {cs k : List Char} (h : findKw pw cs = some k) :
    cs.drop k.length = [] ∨
      ∃ c2 t2, cs.drop k.length = c2 :: t2 ∧ isWordChar c2 = false := by
  simp only [findKw] at h
  cases pw with
  | true => exact absurd h (by simp)
  | false =>
    simp only [if_neg (by simp : ¬ (false : Bool) = true)] at h
    have hp := List.find?_some h
    rcases Bool.and_eq_true_iff.mp hp with ⟨-, hb⟩
    cases hd : cs.drop k.length with
    | nil => exact Or.inl rfl
    | cons c2 t2 =>
      rw [hd] at hb
      have hb2 : Bool.not (isWordChar c2) = true := hb
      refine Or.inr ⟨c2, t2, rfl, ?_⟩
      cases hw : isWordChar c2 with
      | false => rfl
      | true => rw [hw] at hb2; exact absurd hb2 (by decide)

theorem drop_takeWhile_len {p : Char → Bool} : ∀ l : List Char,
    l.drop (l.takeWhile p).length = l.dropWhile p := by
  intro l
  induction l with
  | nil => rfl
  | cons x l2 ih =>
    by_cases hp : p x = true
    · rw [List.takeWhile_cons_of_pos hp, List.dropWhile_cons_of_pos hp,
        List.length_cons, List.drop_succ_cons, ih]
    · rw [List.takeWhile_cons_of_neg hp, List.dropWhile_cons_of_neg hp]
      rfl

/-- If the maximal word run at the head is a keyword, `findKw` with a
cleared boundary flag finds a match. -/

theorem findKw_complete {c : Char} {rest : List Char}
    (hkw : (c :: rest).takeWhile isWordChar ∈ kwords) :
    ¬ findKw false (c :: rest) = none := by
  intro hnone
  simp only [findKw, if_neg (by simp : ¬ (false : Bool) = true)] at hnone
  have hpref : List.isPrefixOf ((c :: rest).takeWhile isWordChar) (c :: rest) = true := by
    rw [List.isPrefixOf_iff_prefix]
    exact List.takeWhile_prefix isWordChar
  have hdrop : (c :: rest).drop ((c :: rest).takeWhile isWordChar).length
      = (c :: rest).dropWhile isWordChar := drop_takeWhile_len (c :: rest)
  have hbnd : (match (c :: rest).drop ((c :: rest).takeWhile isWordChar).length with
      | [] => true
      | c2 :: _ => !(isWordChar c2)) = true := by
    rw [hdrop]
    cases hd : (c :: rest).dropWhile isWordChar with
    | nil => rfl
    | cons c2 t2 =>
      show Bool.not (isWordChar c2) = true
      rw [dropWhile_head_false (c :: rest) c2 t2 hd]
      rfl
  have hsome : ((kwords.find? (fun k =>
      List.isPrefixOf k (c :: rest) &&
        (match (c :: rest).drop k.length with
         | [] => true
         | c2 :: _ => !(isWordChar c2)))).isSome) := by
    rw [List.find?_isSome]
    exact ⟨(c :: rest).takeWhile isWordChar, hkw, by rw [hpref, hbnd]; rfl⟩
  rw [hnone] at hsome
  exact absurd hsome (by simp)

theorem kwChain_cons {t : Token} {ts : List Token}
    (hkc : KwChain ts)
    (hhd : ∀ b r, ts = b :: r → kwId b → t.1 = TK.NUMBER) :
    KwChain (t :: ts) := by
  cases ts with
  | nil => trivial
  | cons b r => exact ⟨hhd b r rfl, hkc⟩

/-- Every successful scan yields well-shaped tokens, and a keyword-texted
`ID` token only ever follows a `NUMBER` token (or starts the list when the
scan began inside a word). -/

theorem scan_shape :
    ∀ F pw cs ts, scanTok F pw cs = Except.ok ts →
      (∀ tk ∈ ts, TokWF tk) ∧ KwChain ts ∧
      (∀ t r, ts = t :: r → kwId t →
        pw = true ∧ ∃ c2 cs2, cs = c2 :: cs2 ∧ isWordChar c2 = true) := by
  intro F
  induction F with
  | zero =>
    intro pw cs ts h
    cases cs with
    | nil =>
      simp only [scanTok] at h
      injection h with h1
      subst h1
      exact ⟨by simp, trivial, by intro t r he; exact absurd he (by simp)⟩
    | cons c rest => exact absurd h (by simp [scanTok])
  | succ F ih =>
    intro pw cs ts h
    cases cs with
    | nil =>
      simp only [scanTok, scanStep] at h
      injection h with h1
      subst h1
      exact ⟨by simp, trivial, by intro t r he; exact absurd he (by simp)⟩
    | cons c rest =>
      simp only [scanTok, scanStep] at h
      by_cases hsp : isSpaceTab c = true
      · rw [if_pos hsp] at h
        obtain ⟨hwf, hkc, hhd⟩ := ih false _ ts h
        refine ⟨hwf, hkc, ?_⟩
        intro t r he hkw
        exact absurd (hhd t r he hkw).1 (by decide)
      · rw [if_neg hsp] at h
        cases hkw : findKw pw (c :: rest) with
        | some k =>
          simp only [hkw] at h
          cases hs : scanTok F true ((c :: rest).drop k.length) with
          | error m => rw [hs] at h; exact absurd h (by simp [Except.map])
          | ok ts2 =>
            rw [hs] at h
            simp only [Except.map] at h
            injection h with h1
            subst h1
            obtain ⟨hwf, hkc, hhd⟩ := ih _ _ _ hs
            refine ⟨?_, kwChain_cons hkc ?_, ?_⟩
            · intro tk htk
              rcases List.mem_cons.mp htk with rfl | htk2
              · trivial
              · exact hwf tk htk2
            · intro b r hb hkb
              obtain ⟨-, c2, cs2, hcs, hw2⟩ := hhd b r hb hkb
              rcases findKw_boundary hkw with hnil | ⟨c3, t3, hd3, hw3⟩
              · rw [hnil] at hcs
                exact absurd hcs (by simp)
              · rw [hd3] at hcs
                injection hcs with e1 e2
                rw [e1] at hw3
                rw [hw2] at hw3
                exact absurd hw3 (by decide)
            · intro t r he hkt
              injection he with e1 e2
              rw [← e1] at hkt
              exact absurd hkt.1 (by simp)
        | none =>
          cases htw : findTwo (c :: rest) with
          | some k =>
            simp only [hkw, htw] at h
            cases hs : scanTok F false ((c :: rest).drop k.length) with
            | error m => rw [hs] at h; exact absurd h (by simp [Except.map])
            | ok ts2 =>
              rw [hs] at h
              simp only [Except.map] at h
              injection h with h1
              subst h1
              obtain ⟨hwf, hkc, hhd⟩ := ih _ _ _ hs
              refine ⟨?_, kwChain_cons hkc ?_, ?_⟩
              · intro tk htk
                rcases List.mem_cons.mp htk with rfl | htk2
                · trivial
                · exact hwf tk htk2
              · intro b r hb hkb
                exact absurd (hhd b r hb hkb).1 (by decide)
              · intro t r he hkt
                injection he with e1 e2
                rw [← e1] at hkt
                exact absurd hkt.1 (by simp)
          | none =>
            simp only [hkw, htw] at h
            by_cases hone : oneCharOps.contains c = true
            · rw [if_pos hone] at h
              cases hs : scanTok F false rest with
              | error m => rw [hs] at h; exact absurd h (by simp [Except.map])
              | ok ts2 =>
                rw [hs] at h
                simp only [Except.map] at h
                injection h with h1
                subst h1
                obtain ⟨hwf, hkc, hhd⟩ := ih _ _ _ hs
                refine ⟨?_, kwChain_cons hkc ?_, ?_⟩
                · intro tk htk
                  rcases List.mem_cons.mp htk with rfl | htk2
                  · trivial
                  · exact hwf tk htk2
                · intro b r hb hkb
                  exact absurd (hhd b r hb hkb).1 (by decide)
                · intro t r he hkt
                  injection he with e1 e2
                  rw [← e1] at hkt
                  exact absurd hkt.1 (by simp)
            · rw [if_neg hone] at h
              by_cases hdig : c.isDigit = true
              · rw [if_pos hdig] at h
                cases hs : scanTok F (chunkEndsWord (numMunch (c :: rest)).1 false)
                    (numMunch (c :: rest)).2 with
                | error m => rw [hs] at h; exact absurd h (by simp [Except.map])
                | ok ts2 =>
                  rw [hs] at h
                  simp only [Except.map] at h
                  injection h with h1
                  subst h1
                  obtain ⟨hwf, hkc, hhd⟩ := ih _ _ _ hs
                  refine ⟨?_, kwChain_cons hkc ?_, ?_⟩
                  · intro tk htk
                    rcases List.mem_cons.mp htk with rfl | htk2
                    · exact numMunch_numtext hdig
                    · exact hwf tk htk2
                  · intro b r hb hkb
                    rfl
                  · intro t r he hkt
                    injection he with e1 e2
                    rw [← e1] at hkt
                    exact absurd hkt.1 (by simp)
              · rw [if_neg hdig] at h
                by_cases hal : (c.isAlpha || c == '_') = true
                · rw [if_pos hal] at h
                  cases hs : scanTok F true ((c :: rest).dropWhile isWordChar) with
                  | error m => rw [hs] at h; exact absurd h (by simp [Except.map])
                  | ok ts2 =>
                    rw [hs] at h
                    simp only [Except.map] at h
                    injection h with h1
                    subst h1
                    obtain ⟨hwf, hkc, hhd⟩ := ih _ _ _ hs
                    refine ⟨?_, kwChain_cons hkc ?_, ?_⟩
                    · intro tk htk
                      rcases List.mem_cons.mp htk with rfl | htk2
                      · exact takeWhile_idtext hal
                      · exact hwf tk htk2
                    · intro b r hb hkb
                      obtain ⟨-, c2, cs2, hcs, hw2⟩ := hhd b r hb hkb
                      rw [dropWhile_head_false (c :: rest) c2 cs2 hcs] at hw2
                      exact absurd hw2 (by decide)
                    · intro t r he hkt
                      injection he with e1 e2
                      cases pw with
                      | true => exact ⟨rfl, c, rest, rfl, isWordChar_of_alpha hal⟩
                      | false =>
                        exfalso
                        rw [← e1] at hkt
                        exact findKw_complete hkt.2 hkw
                · rw [if_neg hal] at h
                  by_cases hcm : c = ','
                  · rw [if_pos (by simp [hcm] : (c == ',') = true)] at h
                    cases hs : scanTok F false rest with
                    | error m => rw [hs] at h; exact absurd h (by simp [Except.map])
                    | ok ts2 =>
                      rw [hs] at h
                      simp only [Except.map] at h
                      injection h with h1
                      subst h1
                      obtain ⟨hwf, hkc, hhd⟩ := ih _ _ _ hs
                      refine ⟨?_, kwChain_cons hkc ?_, ?_⟩
                      · intro tk htk
                        rcases List.mem_cons.mp htk with rfl | htk2
                        · trivial
                        · exact hwf tk htk2
                      · intro b r hb hkb
                        exact absurd (hhd b r hb hkb).1 (by decide)
                      · intro t r he hkt
                        injection he with e1 e2
                        rw [← e1] at hkt
                        exact absurd hkt.1 (by simp)
                  · rw [if_neg (by simp [hcm] : ¬((c == ',') = true))] at h
                    by_cases hnl : c = '\n'
                    · rw [if_pos hnl] at h
                      obtain ⟨hwf, hkc, hhd⟩ := ih false _ ts h
                      refine ⟨hwf, hkc, ?_⟩
                      intro t r he hkw
                      exact absurd (hhd t r he hkw).1 (by decide)
                    · rw [if_neg hnl] at h
                      exact absurd h (by simp)

/-- Scanned-token invariants threaded through the parser. -/

theorem kwChain_tail {t : Token} {ts : List Token} (h : KwChain (t :: ts)) :
    KwChain ts := by
  cases ts with
  | nil => trivial
  | cons b r => exact h.2

theorem tsOK_tail {t : Token} {ts : List Token} (h : TsOK (t :: ts)) : TsOK ts :=
  ⟨fun tk htk => h.1 tk (List.mem_cons_of_mem t htk), kwChain_tail h.2⟩

theorem tsOK_pre : ∀ (pre rest : List Token), TsOK (pre ++ rest) → TsOK rest := by
  intro pre
  induction pre with
  | nil => intro rest h; exact h
  | cons t pre2 ih => intro rest h; exact ih rest (tsOK_tail h)

theorem tsOK_suffix {rest ts : List Token} (hsuf : rest <:+ ts) (h : TsOK ts) :
    TsOK rest := by
  obtain ⟨pre, rfl⟩ := hsuf
  exact tsOK_pre pre rest h

/-- After a non-`NUMBER` token, the next position is fresh. -/

theorem headSafe_of_prev {t : Token} {ts : List Token}
    (hkc : KwChain (t :: ts)) (hnum : ¬ t.1 = TK.NUMBER) : HeadSafe ts := by
  intro b r hb hkb
  cases ts with
  | nil => exact absurd hb (by simp)
  | cons b2 r2 =>
    injection hb with e1 e2
    exact hnum (hkc.1 (by rw [e1]; exact hkb))

/-- A well-shaped token whose text is `(` or `,` is not a `NUMBER`. -/

theorem tokwf_val_not_num {t : Token} (hw : TokWF t)
    (hv : t.2 = str "(" ∨ t.2 = str ",") : ¬ t.1 = TK.NUMBER := by
  intro hk
  obtain ⟨k, v⟩ := t
  have hk2 : k = TK.NUMBER := hk
  subst hk2
  have hnum : NumText v := hw
  obtain ⟨ds, tl, hsp, hne, hdsd, -⟩ := hnum
  match ds, hne with
  | d :: ds2, _ =>
    have hd : d.isDigit = true := hdsd d (by simp)
    rcases hv with hv | hv <;>
      · have hv2 : v = _ := hv
        rw [hv2, List.cons_append] at hsp
        injection hsp with e1 e2
        rw [← e1] at hd
        exact absurd hd (by decide)

/-- The induction shape for `parse_expression` on well-shaped tokens. -/

theorem parseLoop_wf {pe : Nat → List Token → Except (List Char) (Expr × List Token)}
    (hpe : PeWF pe) :
    ∀ f mp node toks e rest,
      TsOK toks → WFe node →
      parseLoopWith pe f mp node toks = Except.ok (e, rest) →
      WFe e ∧ rest <:+ toks := by
  intro f
  induction f with
  | zero =>
    intro mp node toks e rest hok hn h
    exact absurd h (by simp [parseLoopWith])
  | succ f ih =>
    intro mp node toks e rest hok hn h
    cases toks with
    | nil =>
      simp only [parseLoopWith, currentTok] at h
      cases h
      exact ⟨hn, List.suffix_refl _⟩
    | cons t tail =>
      match t with
      | (tk, tv) =>
        cases tk with
        | OP =>
          cases hop : OperatorMeta.get tv with
          | none =>
            simp only [parseLoopWith, currentTok, hop] at h
            cases h
            exact ⟨hn, List.suffix_refl _⟩
          | some pa =>
            match pa with
            | (prec, assoc) =>
              simp only [parseLoopWith, currentTok, hop, List.drop_succ_cons,
                List.drop_zero] at h
              by_cases hlt : prec < mp
              · rw [if_pos hlt] at h
                cases h
                exact ⟨hn, List.suffix_refl _⟩
              · rw [if_neg hlt] at h
                cases hr : pe (if assoc = Assoc.L then prec + 1 else prec) tail with
                | error msg =>
                  rw [hr] at h
                  exact absurd h (by simp)
                | ok rt =>
                  rw [hr] at h
                  match rt with
                  | (right, t2) =>
                    have htail : TsOK tail := tsOK_tail hok
                    have hhs : HeadSafe tail := headSafe_of_prev hok.2 (by simp)
                    have hr2 := hpe _ _ _ _ htail hhs hr
                    have ht2 : TsOK t2 := tsOK_suffix hr2.2 htail
                    have hb : WFe (Expr.BinaryOp node tv right) :=
                      WFe.bin hop hn hr2.1
                    have hrec := ih mp (Expr.BinaryOp node tv right) t2 e rest ht2 hb h
                    exact ⟨hrec.1,
                      hrec.2.trans (hr2.2.trans (List.suffix_cons (TK.OP, tv) tail))⟩
        | NUMBER =>
          simp only [parseLoopWith, currentTok] at h
          cases h
          exact ⟨hn, List.suffix_refl _⟩
        | ID =>
          simp only [parseLoopWith, currentTok] at h
          cases h
          exact ⟨hn, List.suffix_refl _⟩
        | COMMA =>
          simp only [parseLoopWith, currentTok] at h
          cases h
          exact ⟨hn, List.suffix_refl _⟩
        | EOF =>
          simp only [parseLoopWith, currentTok] at h
          cases h
          exact ⟨hn, List.suffix_refl _⟩

theorem parseArgs_wf {pe : Nat → List Token → Except (List Char) (Expr × List Token)}
    (hpe : PeWF pe) :
    ∀ f toks l rest, TsOK toks →
      parseArgsWith pe f toks = Except.ok (l, rest) →
      (∀ a ∈ l, WFe a) ∧ rest <:+ toks := by
  intro f
  induction f with
  | zero =>
    intro toks l rest hok h
    exact absurd h (by simp [parseArgsWith])
  | succ f ih =>
    intro toks l rest hok h
    simp only [parseArgsWith] at h
    by_cases hc : (currentTok toks).2 = str ","
    · rw [if_pos hc] at h
      cases toks with
      | nil => exact absurd hc (by decide)
      | cons t0 tail =>
        simp only [List.drop_succ_cons, List.drop_zero] at h
        have hd1 : TsOK tail := tsOK_tail hok
        have hhs : HeadSafe tail := headSafe_of_prev hok.2
          (tokwf_val_not_num (hok.1 t0 (by simp)) (Or.inr hc))
        cases hp : pe 1 tail with
        | error m => simp only [hp] at h; exact absurd h (by simp)
        | ok at2 =>
          match at2 with
          | (a, t2) =>
            simp only [hp] at h
            cases hrec : parseArgsWith pe f t2 with
            | error m => rw [hrec] at h; exact absurd h (by simp [Except.map])
            | ok lr =>
              rw [hrec] at h
              match lr with
              | (l2, r2) =>
                simp only [Except.map] at h
                cases h
                have h1 := hpe _ _ _ _ hd1 hhs hp
                have ht2 : TsOK t2 := tsOK_suffix h1.2 hd1
                have h2 := ih t2 l2 rest ht2 hrec
                refine ⟨?_, h2.2.trans (h1.2.trans
                  (List.suffix_cons t0 tail))⟩
                intro b hb
                rcases List.mem_cons.mp hb with rfl | hb2
                · exact h1.1
                · exact h2.1 b hb2
    · rw [if_neg hc] at h
      cases h
      exact ⟨by simp, List.suffix_refl _⟩

theorem parsePrimary_wf {pe : Nat → List Token → Except (List Char) (Expr × List Token)}
    (hpe : PeWF pe) :
    ∀ f toks e rest, TsOK toks → HeadSafe toks →
      parsePrimaryWith pe f toks = Except.ok (e, rest) →
      WFe e ∧ rest <:+ toks := by
  intro f
  induction f with
  | zero =>
    intro toks e rest hok hhs h
    exact absurd h (by simp [parsePrimaryWith])
  | succ f ih =>
    intro toks e rest hok hhs h
    cases toks with
    | nil => exact absurd h (by simp [parsePrimaryWith, currentTok])
    | cons t tail =>
      match t with
      | (tk, tv) =>
        cases tk with
        | NUMBER =>
          simp only [parsePrimaryWith, currentTok_cons, List.drop_succ_cons,
            List.drop_zero] at h
          injection h with h1
          injection h1 with he hr
          subst he
          subst hr
          exact ⟨WFe.value (hok.1 (TK.NUMBER, tv) (by simp)),
            List.suffix_cons _ _⟩
        | ID =>
          have hid : IdText tv := hok.1 (TK.ID, tv) (by simp)
          have hnk : tv ∉ kwords := fun hm => hhs (TK.ID, tv) tail rfl ⟨rfl, hm⟩
          simp only [parsePrimaryWith, currentTok_cons, List.drop_succ_cons,
            List.drop_zero] at h
          by_cases hpar : (currentTok tail).2 = str "("
          · rw [if_pos hpar] at h
            have htail : TsOK tail := tsOK_tail hok
            have hd1 : TsOK (tail.drop 1) := by
              cases tail with
              | nil => exact ⟨by simp, trivial⟩
              | cons t1 tail2 => exact tsOK_tail htail
            have hhs1 : HeadSafe (tail.drop 1) := by
              cases htl : tail with
              | nil => intro b r hb; rw [List.drop_nil] at hb; exact absurd hb (by simp)
              | cons t1 tail2 =>
                subst htl
                show HeadSafe tail2
                exact headSafe_of_prev htail.2
                  (tokwf_val_not_num (htail.1 t1 (by simp)) (Or.inl hpar))
            by_cases hz : (currentTok (tail.drop 1)).2 = str ")"
            · rw [if_neg (not_not_intro hz)] at h
              cases hex : expectTok TK.OP (str ")") (tail.drop 1) with
              | error m => simp only [hex] at h; exact absurd h (by simp)
              | ok t5 =>
                simp only [hex] at h
                injection h with h1
                injection h1 with he hr
                subst he
                subst hr
                have f3 := expectTok_ok hex
                refine ⟨WFe.call hid hnk (Or.inl rfl) (by simp), ?_⟩
                rw [f3.1]
                exact ((List.drop_suffix 1 _).trans
                  ((List.drop_suffix 1 _).trans (List.suffix_cons _ _)))
            · rw [if_pos hz] at h
              cases hp1 : pe 1 (tail.drop 1) with
              | error m => simp only [hp1] at h; exact absurd h (by simp)
              | ok p1 =>
                match p1 with
                | (a1, t3) =>
                  simp only [hp1] at h
                  cases hargs : parseArgsWith pe f t3 with
                  | error m => simp only [hargs] at h; exact absurd h (by simp)
                  | ok ar =>
                    match ar with
                    | (more, t4) =>
                      simp only [hargs] at h
                      cases hex : expectTok TK.OP (str ")") t4 with
                      | error m => simp only [hex] at h; exact absurd h (by simp)
                      | ok t5 =>
                        simp only [hex] at h
                        have f1 := hpe _ _ _ _ hd1 hhs1 hp1
                        have ht3 : TsOK t3 := tsOK_suffix f1.2 hd1
                        have f2 := parseArgs_wf hpe f t3 more t4 ht3 hargs
                        have f3 := expectTok_ok hex
                        have hsuf : t5 <:+ (TK.ID, tv) :: tail := by
                          rw [f3.1]
                          exact ((List.drop_suffix 1 _).trans
                            (f2.2.trans (f1.2.trans ((List.drop_suffix 1 _).trans
                              (List.suffix_cons _ _)))))
                        cases more with
                        | nil =>
                          injection h with h1
                          injection h1 with he hr
                          subst he
                          subst hr
                          exact ⟨WFe.un (Or.inr ⟨hid, hnk⟩) f1.1, hsuf⟩
                        | cons m2 more2 =>
                          injection h with h1
                          injection h1 with he hr
                          subst he
                          subst hr
                          refine ⟨WFe.call hid hnk ?_ ?_, hsuf⟩
                          · refine Or.inr ?_
                            simp only [List.length_cons]
                            omega
                          · intro b hb
                            rcases List.mem_cons.mp hb with rfl | hb2
                            · exact f1.1
                            · exact f2.1 b hb2
          · rw [if_neg hpar] at h
            injection h with h1
            injection h1 with he hr
            subst he
            subst hr
            exact ⟨WFe.var hid hnk, List.suffix_cons _ _⟩
        | OP =>
          simp only [parsePrimaryWith, currentTok_cons, List.drop_succ_cons,
            List.drop_zero] at h
          have htail : TsOK tail := tsOK_tail hok
          have hhs1 : HeadSafe tail := headSafe_of_prev hok.2 (by simp)
          by_cases hl : tv = str "("
          · rw [if_pos hl] at h
            cases hp1 : pe 1 tail with
            | error m => simp only [hp1] at h; exact absurd h (by simp)
            | ok p1 =>
              match p1 with
              | (node, t2) =>
                simp only [hp1] at h
                cases hex : expectTok TK.OP (str ")") t2 with
                | error m => simp only [hex] at h; exact absurd h (by simp)
                | ok t3 =>
                  simp only [hex] at h
                  injection h with h1
                  injection h1 with he hr
                  subst he
                  subst hr
                  have f1 := hpe _ _ _ _ htail hhs1 hp1
                  have f3 := expectTok_ok hex
                  refine ⟨f1.1, ?_⟩
                  rw [f3.1]
                  exact ((List.drop_suffix 1 _).trans
                    (f1.2.trans (List.suffix_cons _ _)))
          · rw [if_neg hl] at h
            by_cases hm : tv = str "-"
            · rw [if_pos hm] at h
              cases hp1 : parsePrimaryWith pe f tail with
              | error m => simp only [hp1] at h; exact absurd h (by simp)
              | ok p1 =>
                match p1 with
                | (o, t2) =>
                  simp only [hp1] at h
                  injection h with h1
                  injection h1 with he hr
                  subst he
                  subst hr
                  have f1 := ih tail o t2 htail hhs1 hp1
                  exact ⟨WFe.un (Or.inl rfl) f1.1,
                    f1.2.trans (List.suffix_cons _ _)⟩
            · rw [if_neg hm] at h
              exact absurd h (by simp)
        | COMMA => exact absurd h (by simp [parsePrimaryWith, currentTok])
        | EOF => exact absurd h (by simp [parsePrimaryWith, currentTok])

theorem parseExprF_wf : ∀ f, PeWF (parseExprF f) := by
  intro f
  induction f with
  | zero =>
    intro mp ts e r hok hhs h
    exact absurd h (by simp [parseExprF])
  | succ f ih =>
    intro mp ts e r hok hhs h
    simp only [parseExprF] at h
    cases hp : parsePrimaryWith (fun mp2 ts2 => parseExprF f mp2 ts2) f ts with
    | error m => simp only [hp] at h; exact absurd h (by simp)
    | ok nr =>
      match nr with
      | (node, mid) =>
        simp only [hp] at h
        have hpe2 : PeWF (fun mp2 ts2 => parseExprF f mp2 ts2) := ih
        have h1 := parsePrimary_wf hpe2 f ts node mid hok hhs hp
        have hmid : TsOK mid := tsOK_suffix h1.2 hok
        have h2 := parseLoop_wf hpe2 f mp node mid e r hmid h1.1 h
        exact ⟨h2.1, h2.2.trans h1.2⟩

/-- Every tree parsed from raw characters is well-formed. -/

theorem parseChars_wf {cs : List Char} {t : Expr}
    (h : parseChars cs = Except.ok t) : WFe t := by
  simp only [parseChars] at h
  cases htk : tokenizeL cs with
  | error m => rw [htk] at h; exact absurd h (by simp)
  | ok toks =>
    rw [htk] at h
    simp only [parseToks] at h
    obtain ⟨hwf, hkc, hhd⟩ := scan_shape (cs.length + 1) false cs toks htk
    have hok : TsOK toks := ⟨hwf, hkc⟩
    have hhs : HeadSafe toks := by
      intro b r hb hkb
      exact absurd (hhd b r hb hkb).1 (by decide)
    cases hpe : parseExprF (2 * toks.length + 4) 1 toks with
    | error m => rw [hpe] at h; exact absurd h (by simp)
    | ok er =>
      match er with
      | (e2, rest) =>
        simp only [hpe] at h
        by_cases heof : (currentTok rest).1 = TK.EOF
        · rw [if_pos heof] at h
          injection h with he
          subst he
          exact (parseExprF_wf _ _ _ _ _ hok hhs hpe).1
        · rw [if_neg heof] at h
          exact absurd h (by simp)

theorem parser_parse_ok {s : String} {t : Expr} (h : Parser.parse s = Except.ok t) :
    parseChars s.data = Except.ok t := by
  simp only [Parser.parse] at h
  cases hp : parseChars s.data with
  | ok e =>
    simp only [hp] at h
    injection h with he
    rw [he]
  | error m =>
    simp only [hp] at h
    exact absurd h (by simp)

/-- C1: round-trip stability of the canonical implementation. For every
input string `s` that `Parser(s).parse()` accepts, and whose tree the
formatter renders, re-parsing the formatted output yields a tree
structurally equal to the original: `parse(format(parse(s))) = parse(s)`. -/

theorem c1_round_trip (s out : String) (t : Expr)
    (hp : Parser.parse s = Except.ok t)
    (hf : ExpressionFormatter.format s = Except.ok out) :
    Parser.parse out = Except.ok t := by
  have hpc : parseChars s.data = Except.ok t := parser_parse_ok hp
  have hwf : WFe t := parseChars_wf hpc
  simp only [ExpressionFormatter.format] at hf
  simp only [hpc] at hf
  cases hfm : fmtF (s.data.length + 2) t 0 with
  | none => simp only [hfm] at hf; exact absurd hf (by simp)
  | some outL =>
    simp only [hfm] at hf
    injection hf with hout
    subst hout
    have hrnd := fmt_parse_main hwf _ outL hfm
    obtain ⟨xt, hscan, -, -, hsem⟩ := rendered_parts hrnd
    have htok : tokenizeL outL = Except.ok xt := by
      have h1 := hscan [] 1 [] trivial (scanTok_nil 1 false)
      rw [List.append_nil, List.append_nil] at h1
      exact h1
    have hparse : parseExprF (2 * xt.length + 4) 1 xt = Except.ok (t, []) := by
      have h2 := hsem (2 * xt.length + 4) 1 [] (Nat.le_refl 1) (stopper_nil 1)
        notlparen_nil (by simp only [List.length_nil]; omega)
      rw [List.append_nil] at h2
      exact h2
    show Parser.parse (String.mk outL) = Except.ok t
    simp only [Parser.parse, parseChars]
    simp only [htok, parseToks, hparse]
    rfl

theorem c1_round_trip_witness :
    Parser.parse "a + b * c" = Except.ok (Expr.BinaryOp (Expr.Variable (str "a"))
      (str "+") (Expr.BinaryOp (Expr.Variable (str "b")) (str "*")
        (Expr.Variable (str "c")))) ∧
    ExpressionFormatter.format "a + b * c" = Except.ok "a + (b * c)" ∧
    Parser.parse "a + (b * c)" = Except.ok (Expr.BinaryOp (Expr.Variable (str "a"))
      (str "+") (Expr.BinaryOp (Expr.Variable (str "b")) (str "*")
        (Expr.Variable (str "c")))) :=
  ⟨rfl, rfl, c1_round_trip "a + b * c" "a + (b * c)" _ rfl rfl⟩

/-- C10: doubled parentheses on associativity conflicts, on both
conflicting sides. Whenever a `BinaryOp` child of equal precedence sits
on the right of a left-associative parent, its fragment in the parent's
render is the bare child render wrapped twice — once by the context rule
(the child was rendered at parent precedence plus one) and once by the
tie-break pass; symmetrically for a `BinaryOp` child of equal precedence
on the left of a right-associative parent. In particular
`"a - (b - c)"` formats to `"a - ((b - c))"` and `"(a ** b) ** c"`
formats to `"((a ** b)) ** c"`. -/

theorem c10_doubled_parens :
    (∀ f l op r1 cop r2 p ca out,
      OperatorMeta.get op = some (p, Assoc.L) →
      OperatorMeta.get cop = some (p, ca) →
      fmtF f (Expr.BinaryOp l op (Expr.BinaryOp r1 cop r2)) 0 = some out →
      ∃ lf2 rf0, fmtF (f - 1) (Expr.BinaryOp r1 cop r2) 0 = some rf0 ∧
        out = lf2 ++ ' ' :: (op ++ ' ' ::
          ('(' :: (('(' :: (rf0 ++ [')'])) ++ [')'])))) ∧
    (∀ f l1 lop l2 op r p ca out,
      OperatorMeta.get op = some (p, Assoc.R) →
      OperatorMeta.get lop = some (p, ca) →
      fmtF f (Expr.BinaryOp (Expr.BinaryOp l1 lop l2) op r) 0 = some out →
      ∃ lf0 rf2, fmtF (f - 1) (Expr.BinaryOp l1 lop l2) 0 = some lf0 ∧
        out = ('(' :: (('(' :: (lf0 ++ [')'])) ++ [')'])) ++ ' ' ::
          (op ++ ' ' :: rf2)) ∧
    ExpressionFormatter.format "a - (b - c)" = Except.ok "a - ((b - c))" ∧
    ExpressionFormatter.format "(a ** b) ** c" = Except.ok "((a ** b)) ** c" := by
  refine ⟨?_, ?_, rfl, rfl⟩
  · intro f l op r1 cop r2 p ca out hg hgc hf
    match f, hf with
    | Nat.succ f2, hf =>
      simp only [fmtF, fmtCore] at hf
      cases hgx : OperatorMeta.get op with
      | none => rw [hg] at hgx; exact absurd hgx (by simp)
      | some pa =>
        obtain ⟨p0, a0⟩ := pa
        simp only [hgx] at hf
        rw [hgx] at hg
        injection hg with e1
        injection e1 with ep ea
        subst ep
        cases hfl : fmtF f2 l (if a0 = Assoc.L then p0 else p0 + 1) with
        | none => simp [hfl] at hf
        | some lf =>
        cases hfr : fmtF f2 (Expr.BinaryOp r1 cop r2)
            (if a0 = Assoc.L then p0 + 1 else p0) with
        | none => simp [hfl, hfr] at hf
        | some rf =>
        cases hbl : mustParenthesize p0 a0 l Side.left with
        | none => simp [hfl, hfr, hbl] at hf
        | some bl =>
        cases hbr : mustParenthesize p0 a0 (Expr.BinaryOp r1 cop r2) Side.right with
        | none => simp [hfl, hfr, hbl, hbr] at hf
        | some br =>
          simp only [hfl, hfr, hbl, hbr] at hf
          injection hf with hout
          rw [if_neg (by omega : ¬ p0 < 0)] at hout
          obtain ⟨cp2, ca2, hgc2, hbdef⟩ := mustParen_bin hbr
          rw [hgc] at hgc2
          injection hgc2 with e2
          injection e2 with e5 e6
          subst e5
          subst e6
          have hbrt : br = true := by
            rw [hbdef]
            apply decide_eq_true
            exact Or.inr ⟨rfl, Or.inl ⟨ea, rfl⟩⟩
          subst hbrt
          obtain ⟨rf0, hfr0, hctx⟩ := fmt_ctx hfr
          rcases hctx with ⟨-, hguard⟩ | ⟨x1, xop, x2, xp, xa, -, -, -, hwrap⟩
          · exfalso
            have hgu := hguard r1 cop r2 p0 ca rfl hgc
            rw [ea] at hgu
            simp only [if_pos] at hgu
            exact hgu (by omega)
          · subst hwrap
            exact ⟨if bl = true then '(' :: (lf ++ [')']) else lf, rf0, hfr0,
              hout.symm⟩
  · intro f l1 lop l2 op r p ca out hg hgc hf
    match f, hf with
    | Nat.succ f2, hf =>
      simp only [fmtF, fmtCore] at hf
      cases hgx : OperatorMeta.get op with
      | none => rw [hg] at hgx; exact absurd hgx (by simp)
      | some pa =>
        obtain ⟨p0, a0⟩ := pa
        simp only [hgx] at hf
        rw [hgx] at hg
        injection hg with e1
        injection e1 with ep ea
        subst ep
        cases hfl : fmtF f2 (Expr.BinaryOp l1 lop l2)
            (if a0 = Assoc.L then p0 else p0 + 1) with
        | none => simp [hfl] at hf
        | some lf =>
        cases hfr : fmtF f2 r (if a0 = Assoc.L then p0 + 1 else p0) with
        | none => simp [hfl, hfr] at hf
        | some rf =>
        cases hbl : mustParenthesize p0 a0 (Expr.BinaryOp l1 lop l2) Side.left with
        | none => simp [hfl, hfr, hbl] at hf
        | some bl =>
        cases hbr : mustParenthesize p0 a0 r Side.right with
        | none => simp [hfl, hfr, hbl, hbr] at hf
        | some br =>
          simp only [hfl, hfr, hbl, hbr] at hf
          injection hf with hout
          rw [if_neg (by omega : ¬ p0 < 0)] at hout
          obtain ⟨cp2, ca2, hgc2, hbdef⟩ := mustParen_bin hbl
          rw [hgc] at hgc2
          injection hgc2 with e2
          injection e2 with e5 e6
          subst e5
          subst e6
          have hblt : bl = true := by
            rw [hbdef]
            apply decide_eq_true
            exact Or.inr ⟨rfl, Or.inr ⟨ea, rfl⟩⟩
          subst hblt
          obtain ⟨lf0, hfl0, hctx⟩ := fmt_ctx hfl
          rcases hctx with ⟨-, hguard⟩ | ⟨x1, xop, x2, xp, xa, -, -, -, hwrap⟩
          · exfalso
            have hgu := hguard l1 lop l2 p0 ca rfl hgc
            rw [ea] at hgu
            simp only [if_neg (by decide : ¬ Assoc.R = Assoc.L)] at hgu
            exact hgu (by omega)
          · subst hwrap
            exact ⟨lf0, if br = true then '(' :: (rf ++ [')']) else rf, hfl0,
              hout.symm⟩

theorem c10_doubled_parens_witness :
    (∃ lf2 rf0,
      fmtF 3 (Expr.BinaryOp (Expr.Variable (str "b")) (str "-")
        (Expr.Variable (str "c"))) 0 = some rf0 ∧
      str "a - ((b - c))" = lf2 ++ ' ' :: (str "-" ++ ' ' ::
        ('(' :: (('(' :: (rf0 ++ [')'])) ++ [')'])))) ∧
    (∃ lf0 rf2,
      fmtF 3 (Expr.BinaryOp (Expr.Variable (str "a")) (str "**")
        (Expr.Variable (str "b"))) 0 = some lf0 ∧
      str "((a ** b)) ** c" = ('(' :: (('(' :: (lf0 ++ [')'])) ++ [')'])) ++ ' ' ::
        (str "**" ++ ' ' :: rf2)) :=
  ⟨c10_doubled_parens.1 4 (Expr.Variable (str "a")) (str "-")
      (Expr.Variable (str "b")) (str "-") (Expr.Variable (str "c")) 5 Assoc.L
      (str "a - ((b - c))") rfl rfl rfl,
   c10_doubled_parens.2.1 4 (Expr.Variable (str "a")) (str "**")
      (Expr.Variable (str "b")) (str "**") (Expr.Variable (str "c")) 7 Assoc.R
      (str "((a ** b)) ** c") rfl rfl rfl⟩
